import Mathlib

/-!
Verification development for the parsita parser-combinator library
(`src/parsita`, src layout).  The data model and the evaluator below are a
shallow embedding of the Python sources:

* `Reader` embeds `state/_reader.py` (`StringReader`: a source shared by
  reference plus a position; `drop` adds to the position without clamping).
* `State`, `Continue` and `State.register_failure` embed `state/_state.py`.
  Two extra fields, `journal` and `trace`, are write-only instrumentation
  (a log of every `register_failure` call and of every `_consume` entry);
  they never influence control flow and exist only so that theorems can
  speak about "what was registered during the run".
* `Parser` is the closed family of combinator classes from
  `parsers/_*.py`, one constructor per class.  Each node carries an `id`
  field modelling Python object identity, which is what keys the packrat
  memo table (`key = (self, reader.position)`).
* `consume` embeds `Parser.consume`/`Parser._consume` from
  `parsers/_base.py`.  It is fuel-indexed so that it is structurally
  recursive; `Ans.out` reports fuel exhaustion and appears in no other
  situation.  The `memoized` flag selects between the packrat wrapper
  (`true`, the source's `consume`) and calling `_consume` directly
  (`false`), which is the comparison the refinement claim about
  memoization needs.
* `Ans.recursionError` models the raised `RecursionError` of
  `state/_exceptions.py`; `Ans.wsCrash` models the `AttributeError` that
  `LiteralParser._consume`/`RegexParser._consume` would raise when they
  dereference `status.remainder` of a failed whitespace parse.
* `parse` embeds `Parser.parse`: wrap in `self << eof` (the wrapper and
  the `eof` node are fresh objects, hence fresh ids), run on a fresh
  state, and on failure build the diagnostic from `state.farthest` and
  the order-preserving deduplication of `state.expected`.

Regular expressions are embedded by the tiny pattern language `Rgx`
(greedy character-class repetition), which covers the patterns the claims
mention (`\d+`-like and whitespace classes); `RegexParser` is modelled at
that granularity.
-/

namespace Parsita

/-- A reader over a string source: the source is shared, only the position
moves (`StringReader` in `state/_reader.py`). -/
structure Reader where
  source : List Char
  position : Nat
deriving DecidableEq, Repr

/-- `position >= len(source)` (`StringReader.finished`). -/
def Reader.finished (r : Reader) : Bool := decide (r.source.length ≤ r.position)

/-- `source[position]` (`StringReader.first`); only meaningful when not
finished, which is how every call site uses it. -/
def Reader.first (r : Reader) : Char := r.source.getD r.position (Char.ofNat 0)

/-- `StringReader.rest`: same source, position + 1. -/
def Reader.rest (r : Reader) : Reader := ⟨r.source, r.position + 1⟩

/-- `StringReader.drop`: same source, position + count (not clamped). -/
def Reader.drop (r : Reader) (count : Nat) : Reader := ⟨r.source, r.position + count⟩

/-- Parse results carried by `Continue.value`.  Python values are
heterogeneous; the claims need strings (literal/regex/until matches),
integers (conversions), lists (sequence/repetition/optional) and `None`
(the value of `eof`). -/
inductive Value where
  | str (s : List Char)
  | nat (n : Nat)
  | list (vs : List Value)
  | unit

/-- `Continue` from `state/_state.py`: a successful intermediate match. -/
structure Continue where
  remainder : Reader
  value : Value

/-- Character classes for the embedded regular-expression patterns. -/
inductive CClass where
  | digit
  | blank
deriving DecidableEq, Repr

def CClass.mem (c : CClass) (ch : Char) : Bool :=
  match c with
  | .digit => decide (48 ≤ ch.toNat) && decide (ch.toNat ≤ 57)
  | .blank => ch == ' '

/-- Greedy character-class repetition: the fragment of regular expressions
the development needs (`\d+`, `[ ]*`, ...). -/
inductive Rgx where
  | plus (c : CClass)
  | star (c : CClass)
deriving DecidableEq, Repr

/-- Length of the greedy match of the class at `pos`. -/
def CClass.runLength (c : CClass) (src : List Char) (pos : Nat) : Nat :=
  ((src.drop pos).takeWhile c.mem).length

/-- `pattern.match(source, pos)` for the embedded patterns: the end index of
the (anchored, greedy) match, or `none`. -/
def Rgx.matchEnd (g : Rgx) (src : List Char) (pos : Nat) : Option Nat :=
  match g with
  | .plus c => if c.runLength src pos = 0 then none else some (pos + c.runLength src pos)
  | .star c => some (pos + c.runLength src pos)

def CClass.text (c : CClass) : String :=
  match c with
  | .digit => "\\d"
  | .blank => "[ ]"

/-- The pattern text, used in the `r'...'` expected message of
`RegexParser._consume`. -/
def Rgx.text (g : Rgx) : String :=
  match g with
  | .plus c => c.text ++ "+"
  | .star c => c.text ++ "*"

/-- The closed family of parser classes (`parsers/_*.py`).  Each node
carries an `id : Nat` standing for Python object identity: the memo key of
`Parser.consume` is `(self, reader.position)`, embedded as `(id, position)`.
-/
inductive Parser where
  | literal (id : Nat) (pattern : List Char) (whitespace : Option Parser)
  | regex (id : Nat) (pattern : Rgx) (whitespace : Option Parser)
  | endOfSource (id : Nat)
  | anyElem (id : Nat)
  | successP (id : Nat) (value : Value)
  | failureP (id : Nat) (expected : String)
  | optional (id : Nat) (parser : Parser)
  | firstAlternative (id : Nat) (parsers : List Parser)
  | longestAlternative (id : Nat) (parsers : List Parser)
  | sequential (id : Nat) (parsers : List Parser)
  | discardLeft (id : Nat) (left : Parser) (right : Parser)
  | discardRight (id : Nat) (left : Parser) (right : Parser)
  | conversion (id : Nat) (parser : Parser) (converter : Value → Value)
  | repeated (id : Nat) (parser : Parser) (min : Nat) (max : Option Nat)
  | repeatedOnce (id : Nat) (parser : Parser)
  | repeatedSeparated (id : Nat) (parser : Parser) (separator : Parser)
      (min : Nat) (max : Option Nat)
  | repeatedOnceSeparated (id : Nat) (parser : Parser) (separator : Parser)
  | untilP (id : Nat) (parser : Parser)

/-- The identity of a node. -/
def Parser.pid : Parser → Nat
  | .literal i _ _ => i
  | .regex i _ _ => i
  | .endOfSource i => i
  | .anyElem i => i
  | .successP i _ => i
  | .failureP i _ => i
  | .optional i _ => i
  | .firstAlternative i _ => i
  | .longestAlternative i _ => i
  | .sequential i _ => i
  | .discardLeft i _ _ => i
  | .discardRight i _ _ => i
  | .conversion i _ _ => i
  | .repeated i _ _ _ => i
  | .repeatedOnce i _ => i
  | .repeatedSeparated i _ _ _ _ => i
  | .repeatedOnceSeparated i _ _ => i
  | .untilP i _ => i

/-- Per-parse mutable state (`State` in `state/_state.py`): the farthest
failure, the expected descriptions at that position, and the packrat memo
(an association list looked up front-to-back, insertion shadowing, which is
the Python `dict` discipline).  `journal` and `trace` are the write-only
instrumentation described in the header. -/
structure State where
  farthest : Option Reader
  expected : List String
  memo : List ((Nat × Nat) × Option Continue)
  journal : List (String × Reader)
  trace : List (Nat × Nat)

def State.empty : State := ⟨none, [], [], [], []⟩

/-- `State.register_failure`.  The `journal` additionally records the call;
the three branches are the source's. -/
def State.register_failure (st : State) (expected : String) (reader : Reader) : State :=
  let st1 := { st with journal := st.journal ++ [(expected, reader)] }
  match st1.farthest with
  | none => { st1 with expected := [expected], farthest := some reader }
  | some f =>
    if f.position < reader.position then
      { st1 with expected := [expected], farthest := some reader }
    else if f.position = reader.position then
      { st1 with expected := st1.expected ++ [expected] }
    else st1

/-- Answers of one evaluator step: a normal `_consume` result
(`some Continue` or the `None` failure sentinel), a raised
`RecursionError`, the whitespace-dereference crash, or fuel exhaustion. -/
inductive Ans where
  | res (o : Option Continue)
  | recursionError (parser : Parser) (context : Reader)
  | wsCrash
  | out

/-- `repr(pattern)` for a string literal pattern: the pattern in single
quotes. -/
def quoteRepr (pattern : List Char) : String :=
  String.mk (Char.ofNat 39 :: (pattern ++ [Char.ofNat 39]))

/-- `f"r'{pattern}'"` for a regex pattern. -/
def rgxRepr (g : Rgx) : String :=
  "r" ++ quoteRepr g.text.toList

/-- The part of `LiteralParser._consume` after the leading whitespace has
been consumed: substring test at the current position, then trailing
whitespace, then `Continue(reader, pattern)`. -/
def litMatch (wsNext : Option (State → Reader → State × Ans)) (pattern : List Char)
    (st1 : State) (r1 : Reader) : State × Ans :=
  if pattern.isPrefixOf (r1.source.drop r1.position) then
    let r2 := r1.drop pattern.length
    match wsNext with
    | none => (st1, .res (some ⟨r2, .str pattern⟩))
    | some ws =>
      match ws st1 r2 with
      | (st2, .res (some c2)) => (st2, .res (some ⟨c2.remainder, .str pattern⟩))
      | (st2, .res none) => (st2, .wsCrash)
      | (st2, a) => (st2, a)
  else (st1.register_failure (quoteRepr pattern) r1, .res none)

/-- `LiteralParser._consume` (string-reader branch), with the whitespace
parser's `consume` abstracted as `wsNext`. -/
def litGo (wsNext : Option (State → Reader → State × Ans)) (pattern : List Char)
    (st : State) (r : Reader) : State × Ans :=
  match wsNext with
  | none => litMatch none pattern st r
  | some ws =>
    match ws st r with
    | (st1, .res (some c1)) => litMatch wsNext pattern st1 c1.remainder
    | (st1, .res none) => (st1, .wsCrash)
    | (st1, a) => (st1, a)

/-- The part of `RegexParser._consume` after the leading whitespace:
anchored match, value = matched slice, `reader.drop(len(value))`, trailing
whitespace. -/
def regMatch (wsNext : Option (State → Reader → State × Ans)) (g : Rgx)
    (st1 : State) (r1 : Reader) : State × Ans :=
  match g.matchEnd r1.source r1.position with
  | none => (st1.register_failure (rgxRepr g) r1, .res none)
  | some e =>
    let value : List Char := (r1.source.drop r1.position).take (e - r1.position)
    let r2 := r1.drop value.length
    match wsNext with
    | none => (st1, .res (some ⟨r2, .str value⟩))
    | some ws =>
      match ws st1 r2 with
      | (st2, .res (some c2)) => (st2, .res (some ⟨c2.remainder, .str value⟩))
      | (st2, .res none) => (st2, .wsCrash)
      | (st2, a) => (st2, a)

/-- `RegexParser._consume`, with the whitespace parser's `consume`
abstracted as `wsNext`. -/
def regGo (wsNext : Option (State → Reader → State × Ans)) (g : Rgx)
    (st : State) (r : Reader) : State × Ans :=
  match wsNext with
  | none => regMatch none g st r
  | some ws =>
    match ws st r with
    | (st1, .res (some c1)) => regMatch wsNext g st1 c1.remainder
    | (st1, .res none) => (st1, .wsCrash)
    | (st1, a) => (st1, a)

/-- `SequentialParser._consume`: children left to right, collecting values;
any failure fails the whole. -/
def seqGo (next : Parser → State → Reader → State × Ans) :
    List Parser → State → Reader → List Value → State × Ans
  | [], st, rem, acc => (st, .res (some ⟨rem, .list acc⟩))
  | q :: qs, st, rem, acc =>
    match next q st rem with
    | (st1, .res (some c)) => seqGo next qs st1 c.remainder (acc ++ [c.value])
    | (st1, .res none) => (st1, .res none)
    | (st1, a) => (st1, a)

/-- `FirstAlternativeParser._consume`: first success wins, later
alternatives are not tried. -/
def firstGo (next : Parser → State → State × Ans) :
    List Parser → State → State × Ans
  | [], st => (st, .res none)
  | q :: qs, st =>
    match next q st with
    | (st1, .res (some c)) => (st1, .res (some c))
    | (st1, .res none) => firstGo next qs st1
    | (st1, a) => (st1, a)

/-- `LongestAlternativeParser._consume`: every alternative is tried; a
success replaces the best one only when its remainder is strictly farther.
-/
def longestGo (next : Parser → State → State × Ans) :
    List Parser → State → Option Continue → State × Ans
  | [], st, best => (st, .res best)
  | q :: qs, st, best =>
    match next q st with
    | (st1, .res (some c)) =>
      longestGo next qs st1
        (match best with
         | none => some c
         | some b => if c.remainder.position > b.remainder.position then some c else some b)
    | (st1, .res none) => longestGo next qs st1 best
    | (st1, a) => (st1, a)

/-- The exit of `RepeatedParser._consume`'s loop: `Continue` when at least
`min` values were collected, otherwise the failure sentinel (no fresh
message is registered). -/
def repExit (acc : List Value) (mn : Nat) (rem : Reader) : Ans :=
  if mn ≤ acc.length then .res (some ⟨rem, .list acc⟩) else .res none

/-- The loop condition `self.max is None or len(output) < self.max`. -/
def underMax (len : Nat) : Option Nat → Bool
  | none => true
  | some mxv => decide (len < mxv)

/-- The loop of `RepeatedParser._consume`: while below `max`, try the inner
parser; raise `RecursionError` on a success that does not advance. -/
def repGo (next : State → Reader → State × Ans) (selfP : Parser) (mn : Nat)
    (mx : Option Nat) : Nat → State → List Value → Reader → State × Ans
  | 0, st, _, _ => (st, .out)
  | n+1, st, acc, rem =>
    if underMax acc.length mx then
      match next st rem with
      | (st1, .res (some c)) =>
        if rem.position = c.remainder.position then (st1, .recursionError selfP rem)
        else repGo next selfP mn mx n st1 (acc ++ [c.value]) c.remainder
      | (st1, .res none) => (st1, repExit acc mn rem)
      | (st1, a) => (st1, a)
    else (st, repExit acc mn rem)

/-- The loop of `RepeatedOnceParser._consume` (after the initial success):
no min/max, stop on failure with the collected values. -/
def rep1Go (next : State → Reader → State × Ans) (selfP : Parser) :
    Nat → State → List Value → Reader → State × Ans
  | 0, st, _, _ => (st, .out)
  | n+1, st, acc, rem =>
    match next st rem with
    | (st1, .res (some c)) =>
      if rem.position = c.remainder.position then (st1, .recursionError selfP rem)
      else rep1Go next selfP n st1 (acc ++ [c.value]) c.remainder
    | (st1, .res none) => (st1, .res (some ⟨rem, .list acc⟩))
    | (st1, a) => (st1, a)

/-- The loop of `RepeatedSeparatedParser._consume` (after the initial
success): separator then parser; on parser failure the position rewinds to
the last successful element (`rem` is only advanced after the parser
succeeds). -/
def repsepGo (nextP nextSep : State → Reader → State × Ans) (selfP : Parser)
    (mn : Nat) (mx : Option Nat) : Nat → State → List Value → Reader → State × Ans
  | 0, st, _, _ => (st, .out)
  | n+1, st, acc, rem =>
    if underMax acc.length mx then
      match nextSep st rem with
      | (st1, .res (some sc)) =>
        match nextP st1 sc.remainder with
        | (st2, .res (some pc)) =>
          if rem.position = pc.remainder.position then (st2, .recursionError selfP rem)
          else repsepGo nextP nextSep selfP mn mx n st2 (acc ++ [pc.value]) pc.remainder
        | (st2, .res none) => (st2, repExit acc mn rem)
        | (st2, a) => (st2, a)
      | (st1, .res none) => (st1, repExit acc mn rem)
      | (st1, a) => (st1, a)
    else (st, repExit acc mn rem)

/-- The loop of `RepeatedOnceSeparatedParser._consume` (after the initial
success). -/
def rep1sepGo (nextP nextSep : State → Reader → State × Ans) (selfP : Parser) :
    Nat → State → List Value → Reader → State × Ans
  | 0, st, _, _ => (st, .out)
  | n+1, st, acc, rem =>
    match nextSep st rem with
    | (st1, .res (some sc)) =>
      match nextP st1 sc.remainder with
      | (st2, .res (some pc)) =>
        if rem.position = pc.remainder.position then (st2, .recursionError selfP rem)
        else rep1sepGo nextP nextSep selfP n st2 (acc ++ [pc.value]) pc.remainder
      | (st2, .res none) => (st2, .res (some ⟨rem, .list acc⟩))
      | (st2, a) => (st2, a)
    | (st1, .res none) => (st1, .res (some ⟨rem, .list acc⟩))
    | (st1, a) => (st1, a)

/-- The loop of `UntilParser._consume`: step the reader one element at a
time until the inner parser succeeds; at end of source surface the inner
failure; on success return the slice `source[start:position]`, not
consuming the inner match. -/
def untilGo (next : State → Reader → State × Ans) (start : Nat) :
    Nat → State → Reader → State × Ans
  | 0, st, _ => (st, .out)
  | n+1, st, r =>
    match next st r with
    | (st1, .res (some _)) =>
      (st1, .res (some ⟨r, .str ((r.source.drop start).take (r.position - start))⟩))
    | (st1, .res none) =>
      if r.finished then (st1, .res none) else untilGo next start n st1 r.rest
    | (st1, a) => (st1, a)

/-- `_consume` of every parser class, with the member parsers' `consume`
abstracted as `next`.  Each branch is the corresponding `_consume` from
`parsers/_*.py`. -/
def pconsume (next : Parser → State → Reader → State × Ans) (p : Parser)
    (st : State) (r : Reader) : State × Ans :=
  match p with
  | .literal _ pattern ws =>
    litGo (ws.map (fun w st1 r1 => next w st1 r1)) pattern st r
  | .regex _ g ws =>
    regGo (ws.map (fun w st1 r1 => next w st1 r1)) g st r
  | .endOfSource _ =>
    if r.finished then (st, .res (some ⟨r, .unit⟩))
    else (st.register_failure "end of source" r, .res none)
  | .anyElem _ =>
    if r.finished then (st.register_failure "anything" r, .res none)
    else (st, .res (some ⟨r.rest, .str [r.first]⟩))
  | .successP _ v => (st, .res (some ⟨r, v⟩))
  | .failureP _ msg => (st.register_failure msg r, .res none)
  | .optional _ q =>
    match next q st r with
    | (st1, .res (some c)) => (st1, .res (some ⟨c.remainder, .list [c.value]⟩))
    | (st1, .res none) => (st1, .res (some ⟨r, .list []⟩))
    | (st1, a) => (st1, a)
  | .firstAlternative _ ps => firstGo (fun q st1 => next q st1 r) ps st
  | .longestAlternative _ ps => longestGo (fun q st1 => next q st1 r) ps st none
  | .sequential _ ps => seqGo next ps st r []
  | .discardLeft _ l rp =>
    match next l st r with
    | (st1, .res (some c)) => next rp st1 c.remainder
    | (st1, .res none) => (st1, .res none)
    | (st1, a) => (st1, a)
  | .discardRight _ l rp =>
    match next l st r with
    | (st1, .res (some c1)) =>
      match next rp st1 c1.remainder with
      | (st2, .res (some c2)) => (st2, .res (some ⟨c2.remainder, c1.value⟩))
      | (st2, .res none) => (st2, .res none)
      | (st2, a) => (st2, a)
    | (st1, .res none) => (st1, .res none)
    | (st1, a) => (st1, a)
  | .conversion _ q f =>
    match next q st r with
    | (st1, .res (some c)) => (st1, .res (some ⟨c.remainder, f c.value⟩))
    | (st1, .res none) => (st1, .res none)
    | (st1, a) => (st1, a)
  | .repeated i q mn mx =>
    repGo (fun st1 r1 => next q st1 r1) (.repeated i q mn mx) mn mx (r.source.length + 1) st [] r
  | .repeatedOnce i q =>
    match next q st r with
    | (st1, .res (some c)) =>
      rep1Go (fun st1 r1 => next q st1 r1) (.repeatedOnce i q) (r.source.length + 1) st1
        [c.value] c.remainder
    | (st1, .res none) => (st1, .res none)
    | (st1, a) => (st1, a)
  | .repeatedSeparated i q sep mn mx =>
    match next q st r with
    | (st1, .res (some c)) =>
      repsepGo (fun st1 r1 => next q st1 r1) (fun st1 r1 => next sep st1 r1)
        (.repeatedSeparated i q sep mn mx) mn mx (r.source.length + 1) st1 [c.value] c.remainder
    | (st1, .res none) => (st1, repExit [] mn r)
    | (st1, a) => (st1, a)
  | .repeatedOnceSeparated i q sep =>
    match next q st r with
    | (st1, .res (some c)) =>
      rep1sepGo (fun st1 r1 => next q st1 r1) (fun st1 r1 => next sep st1 r1)
        (.repeatedOnceSeparated i q sep) (r.source.length + 1) st1 [c.value] c.remainder
    | (st1, .res none) => (st1, .res none)
    | (st1, a) => (st1, a)
  | .untilP _ q =>
    untilGo (fun st1 r1 => next q st1 r1) r.position (r.source.length + 1 - r.position) st r

/-- `Parser.consume` (`parsers/_base.py`).  With `memoized = true` it is the
source's packrat wrapper: cached answers are returned; on a miss, `None` is
first written into the memo at `(self, position)` (short-circuiting
left-recursive re-entry as a failure), then `_consume` runs and its result
is stored.  With `memoized = false` it calls `_consume` directly, the
comparison point for the memoization-transparency claim.  Fuel only bounds
the recursion depth; `Ans.out` reports exhaustion.

The loops inside `_consume` are bounded by `source.length + 1` steps: any
further iteration would need a success that does not advance the position,
which the source turns into `RecursionError` (or, for `until`, would need
to step past the end of the source). -/
def consume (memoized : Bool) : Nat → Parser → State → Reader → State × Ans
  | 0, _, st, _ => (st, .out)
  | n+1, p, st, r =>
    if memoized then
      match st.memo.lookup (p.pid, r.position) with
      | some v => (st, .res v)
      | none =>
        let stm : State :=
          { st with memo := ((p.pid, r.position), none) :: st.memo,
                    trace := st.trace ++ [(p.pid, r.position)] }
        match pconsume (fun q st1 r1 => consume memoized n q st1 r1) p stm r with
        | (st2, .res o) => ({ st2 with memo := ((p.pid, r.position), o) :: st2.memo }, .res o)
        | (st2, a) => (st2, a)
    else pconsume (fun q st1 r1 => consume memoized n q st1 r1) p st r

mutual
/-- All subterms of a parser tree, the node itself included. -/
def subterms : Parser → List Parser
  | .literal i pat ws => .literal i pat ws :: subtermsO ws
  | .regex i g ws => .regex i g ws :: subtermsO ws
  | .endOfSource i => [.endOfSource i]
  | .anyElem i => [.anyElem i]
  | .successP i v => [.successP i v]
  | .failureP i e => [.failureP i e]
  | .optional i q => .optional i q :: subterms q
  | .firstAlternative i ps => .firstAlternative i ps :: subtermsL ps
  | .longestAlternative i ps => .longestAlternative i ps :: subtermsL ps
  | .sequential i ps => .sequential i ps :: subtermsL ps
  | .discardLeft i l rp => .discardLeft i l rp :: (subterms l ++ subterms rp)
  | .discardRight i l rp => .discardRight i l rp :: (subterms l ++ subterms rp)
  | .conversion i q f => .conversion i q f :: subterms q
  | .repeated i q mn mx => .repeated i q mn mx :: subterms q
  | .repeatedOnce i q => .repeatedOnce i q :: subterms q
  | .repeatedSeparated i q sep mn mx =>
    .repeatedSeparated i q sep mn mx :: (subterms q ++ subterms sep)
  | .repeatedOnceSeparated i q sep =>
    .repeatedOnceSeparated i q sep :: (subterms q ++ subterms sep)
  | .untilP i q => .untilP i q :: subterms q

def subtermsO : Option Parser → List Parser
  | none => []
  | some q => subterms q

def subtermsL : List Parser → List Parser
  | [] => []
  | q :: qs => subterms q ++ subtermsL qs
end

/-- The ids of all nodes of a tree.  Distinct Python objects have distinct
identities; a tree whose ids are `Nodup` is a faithful picture of a parser
object graph. -/
def allIds (p : Parser) : List Nat := (subterms p).map Parser.pid

def maxId (p : Parser) : Nat := (allIds p).foldr max 0

/-- `self << eof` as built by `Parser.parse`: both the `DiscardRightParser`
and the `eof` node are fresh objects, so they get ids no node of `p` has. -/
def mkRoot (p : Parser) : Parser :=
  .discardRight (maxId p + 1) p (.endOfSource (maxId p + 2))

/-- The deduplication loop of `Parser.parse`: keep the first occurrence of
each expected description. -/
def uniqueExpected (used : List String) : List String → List String
  | [] => []
  | e :: rest =>
    if e ∈ used then uniqueExpected used rest
    else e :: uniqueExpected (e :: used) rest

/-- The observable outcome of `Parser.parse`: a `Success`, a `Failure` with
its diagnostic, a propagating `RecursionError`, the whitespace crash, or
fuel exhaustion. -/
inductive ParseResult where
  | success (value : Value)
  | failure (farthest : Option Reader) (expected : List String)
  | recursionError (parser : Parser) (context : Reader)
  | wsCrash
  | out

def ParseResult.isOut : ParseResult → Bool
  | .out => true
  | _ => false

/-- `Parser.parse` (`parsers/_base.py`): build `self << eof`, run `consume`
on a fresh `State`, and either return the value or build the diagnostic
from `state.farthest` and the deduplicated `state.expected`. -/
def parse (memoized : Bool) (p : Parser) (fuel : Nat) (source : List Char) : ParseResult :=
  match consume memoized fuel (mkRoot p) State.empty ⟨source, 0⟩ with
  | (_, .res (some c)) => .success c.value
  | (st, .res none) => .failure st.farthest (uniqueExpected [] st.expected)
  | (_, .recursionError q ctx) => .recursionError q ctx
  | (_, .wsCrash) => .wsCrash
  | (_, .out) => .out

/-- `int` applied to a digit string (the conversion in the `rep1sep`
scenario). -/
def digitsVal (s : List Char) : Nat :=
  s.foldl (fun acc c => 10 * acc + (c.toNat - 48)) 0

def toIntConv : Value → Value
  | .str s => .nat (digitsVal s)
  | v => v

end Parsita

namespace Parsita

/-! ### Concrete grammars used by the end-to-end claims -/

/-- `rep1sep(reg("\d+") > int, ",")` with distinct object identities. -/
def sepDigits : Parser :=
  .repeatedOnceSeparated 0
    (.conversion 1 (.regex 2 (.plus .digit) none) toIntConv)
    (.literal 3 [','] none)

/-- `rep(opt("a"))`. -/
def repOptA : Parser := .repeated 0 (.optional 1 (.literal 2 ['a'] none)) 0 none

/-- `rep1sep(opt("a"), ",")`. -/
def rep1sepOptA : Parser :=
  .repeatedOnceSeparated 0 (.optional 1 (.literal 2 ['a'] none)) (.literal 3 [','] none)

/-- `opt("a")` on its own. -/
def optA : Parser := .optional 0 (.literal 1 ['a'] none)

end Parsita

namespace Parsita

/-! ### C6 -/

/-- C6 counterexample: the claim says `g.parse("1,2,") = Success([1,2])`,
but the code wraps the grammar in `<< eof`, which fails on the unconsumed
trailing separator: the parse is a `Failure` whose farthest point is the
position after the trailing separator. -/
theorem c6_counterexample :
    parse true sepDigits 100 ("1,2,".toList)
      = .failure (some ⟨"1,2,".toList, 4⟩) [rgxRepr (.plus .digit)]
    ∧ parse true sepDigits 100 ("1,2,".toList) ≠ .success (.list [.nat 1, .nat 2]) := by
  refine ⟨rfl, ?_⟩
  intro h
  rw [show parse true sepDigits 100 ("1,2,".toList)
      = .failure (some ⟨"1,2,".toList, 4⟩) [rgxRepr (.plus .digit)] from rfl] at h
  exact ParseResult.noConfusion h

/-- C6, amended: `g.parse("1,2,3") = Success([1,2,3])`; on `"1,2,"` the
`rep1sep` parser itself rewinds to just after the last element (position 3,
the trailing separator unconsumed) with value `[1,2]`, but `parse` appends
`eof`, so `g.parse("1,2,")` is a `Failure`; `g.parse("")` is a `Failure`. -/
theorem c6_rep1sep :
    parse true sepDigits 100 ("1,2,3".toList) = .success (.list [.nat 1, .nat 2, .nat 3])
    ∧ (consume true 100 sepDigits State.empty ⟨"1,2,".toList, 0⟩).2
        = .res (some ⟨⟨"1,2,".toList, 3⟩, .list [.nat 1, .nat 2]⟩)
    ∧ parse true sepDigits 100 ("1,2,".toList)
        = .failure (some ⟨"1,2,".toList, 4⟩) [rgxRepr (.plus .digit)]
    ∧ parse true sepDigits 100 ("".toList)
        = .failure (some ⟨[], 0⟩) [rgxRepr (.plus .digit)] :=
  ⟨rfl, rfl, rfl, rfl⟩

/-! ### C10 -/

/-- The memo of this state claims that the parser with id 0 already failed
at position 0. -/
def poisonedRep : State := { State.empty with memo := [((0, 0), none)] }

/-- C10 counterexample: `consume` consults the memo before doing anything
else, so for a state that carries a cached entry for the key
`(parser, position)`, `rep(p, min=0, max=0).consume` does not succeed with
`Continue(r, [])` as the claim states for every state: it returns the
cached failure. -/
theorem c10_counterexample :
    (consume true 10 (.repeated 0 (.anyElem 1) 0 (some 0)) poisonedRep ⟨"ab".toList, 0⟩)
      = (poisonedRep, .res none)
    ∧ (consume true 10 (.repeated 0 (.anyElem 1) 0 (some 0)) poisonedRep ⟨"ab".toList, 0⟩).2
        ≠ .res (some ⟨⟨"ab".toList, 0⟩, .list []⟩) := by
  refine ⟨rfl, ?_⟩
  intro h
  rw [show (consume true 10 (.repeated 0 (.anyElem 1) 0 (some 0)) poisonedRep ⟨"ab".toList, 0⟩).2
      = .res none from rfl] at h
  simp at h

/-- C10, amended: for every state whose memo has no entry for the key
`(id, r.position)`: `rep(p, min=0, max=0).consume(state, r)` succeeds with
`Continue(r, [])` without invoking `p`.  That `p` is not invoked is
reflected by the quantification: the result is the same for every `p`, and
at the `_consume` level the body returns `Continue(r, [])` for an arbitrary
`next` callback, so no `RecursionError` can arise even when `p` matches the
empty string. -/
theorem c10_rep_max_zero (n : Nat) (i : Nat) (p : Parser) (st : State) (r : Reader)
    (h : st.memo.lookup (i, r.position) = none) :
    (∀ next : Parser → State → Reader → State × Ans,
      pconsume next (.repeated i p 0 (some 0)) st r = (st, .res (some ⟨r, .list []⟩)))
    ∧ consume true (n+1) (.repeated i p 0 (some 0)) st r
        = ({ st with
              memo := ((i, r.position), some ⟨r, .list []⟩)
                :: ((i, r.position), none) :: st.memo,
              trace := st.trace ++ [(i, r.position)] },
           .res (some ⟨r, .list []⟩)) := by
  constructor
  · intro next
    rfl
  · simp only [consume, Parser.pid, if_true]
    rw [h]
    rfl

end Parsita

namespace Parsita

theorem c10_witness :
    consume true 5 (.repeated 0 (.anyElem 1) 0 (some 0)) State.empty ⟨"ab".toList, 0⟩
      = ({ State.empty with
            memo := [((0, 0), some ⟨⟨"ab".toList, 0⟩, .list []⟩), ((0, 0), none)],
            trace := [(0, 0)] },
         .res (some ⟨⟨"ab".toList, 0⟩, .list []⟩)) :=
  (c10_rep_max_zero 4 0 (.anyElem 1) State.empty ⟨"ab".toList, 0⟩ rfl).2

/-! ### C5 -/

/-- The state of the run of `rep1sepOptA.parse("")` at the moment the
initial element parser is invoked: the driver and the `rep1sep` node have
both written their in-progress markers. -/
def rep1sepOptAMidState : State :=
  ⟨none, [], [((0, 0), none), ((5, 0), none)], [], [(5, 0), (0, 0)]⟩

/-- C5 counterexample: the claim asserts that *every* repetition combinator
(including `rep1sep`) raises `RecursionError` whenever the element parser
succeeds consuming no input at a position reached inside it.  In
`rep1sep(opt("a"), ",")` on `""`, the element parser `opt("a")` succeeds
consuming nothing at position 0 (the initial element of the loop), yet the
parse returns `Success([[]])` — because the stall check of
`RepeatedOnceSeparatedParser._consume` only fires inside the
separator-then-element loop. -/
theorem c5_counterexample :
    (consume true 98 (.optional 1 (.literal 2 ['a'] none)) rep1sepOptAMidState ⟨[], 0⟩).2
      = .res (some ⟨⟨[], 0⟩, .list []⟩)
    ∧ parse true rep1sepOptA 100 [] = .success (.list [.list []]) := ⟨rfl, rfl⟩

/-- C5, amended: for `rep` and `rep1` (any min/max) an element success that
does not advance the position raises `RecursionError` carrying the
repetition parser and the stall position; for `repsep`/`rep1sep` the error
is raised when a separator-then-element iteration makes no net progress,
while an empty element match as the initial element (or after a progressing
separator) does not raise.  `rep(opt("a"))` parsed on `"aab"` raises at
index 2. -/
theorem c5_recursion_errors :
    (∀ (next : State → Reader → State × Ans) (selfP : Parser) (mn : Nat) (mx : Option Nat)
       (k : Nat) (st st1 : State) (rem : Reader) (c : Continue),
      underMax 0 mx = true →
      next st rem = (st1, .res (some c)) →
      c.remainder.position = rem.position →
      repGo next selfP mn mx (k+1) st [] rem = (st1, .recursionError selfP rem))
    ∧ (∀ (next : State → Reader → State × Ans) (selfP : Parser) (k : Nat)
         (st st1 : State) (acc : List Value) (rem : Reader) (c : Continue),
        next st rem = (st1, .res (some c)) →
        c.remainder.position = rem.position →
        rep1Go next selfP k.succ st acc rem = (st1, .recursionError selfP rem))
    ∧ (∀ (nextP nextSep : State → Reader → State × Ans) (selfP : Parser) (k : Nat)
         (st st1 st2 : State) (acc : List Value) (rem : Reader) (sc pc : Continue),
        nextSep st rem = (st1, .res (some sc)) →
        nextP st1 sc.remainder = (st2, .res (some pc)) →
        pc.remainder.position = rem.position →
        rep1sepGo nextP nextSep selfP k.succ st acc rem = (st2, .recursionError selfP rem))
    ∧ (∀ (nextP nextSep : State → Reader → State × Ans) (selfP : Parser) (mn : Nat)
         (mx : Option Nat) (k : Nat) (st st1 st2 : State) (rem : Reader) (sc pc : Continue),
        underMax 0 mx = true →
        nextSep st rem = (st1, .res (some sc)) →
        nextP st1 sc.remainder = (st2, .res (some pc)) →
        pc.remainder.position = rem.position →
        repsepGo nextP nextSep selfP mn mx (k+1) st [] rem = (st2, .recursionError selfP rem))
    ∧ parse true repOptA 100 ("aab".toList) = .recursionError repOptA ⟨"aab".toList, 2⟩ := by
  refine ⟨?_, ?_, ?_, ?_, rfl⟩
  · intro next selfP mn mx k st st1 rem c hmx hnext hpos
    simp [repGo, List.length_nil, hmx, hnext, hpos]
  · intro next selfP k st st1 acc rem c hnext hpos
    simp [rep1Go, hnext, hpos]
  · intro nextP nextSep selfP k st st1 st2 acc rem sc pc hsep hnextp hpos
    simp [rep1sepGo, hsep, hnextp, hpos]
  · intro nextP nextSep selfP mn mx k st st1 st2 rem sc pc hmx hsep hnextp hpos
    simp [repsepGo, List.length_nil, hmx, hsep, hnextp, hpos]

theorem c5_witness :
    (fun st _ => (st, Ans.res (some ⟨⟨['b'], 0⟩, Value.unit⟩))) State.empty (⟨['b'], 0⟩ : Reader)
      = (State.empty, Ans.res (some ⟨⟨['b'], 0⟩, Value.unit⟩))
    ∧ repGo (fun st _ => (st, Ans.res (some ⟨⟨['b'], 0⟩, Value.unit⟩))) (.anyElem 7) 0 none 3
        State.empty [] ⟨['b'], 0⟩
      = (State.empty, .recursionError (.anyElem 7) ⟨['b'], 0⟩) :=
  ⟨rfl, (c5_recursion_errors.1 _ (.anyElem 7) 0 none 2 State.empty State.empty ⟨['b'], 0⟩
    ⟨⟨['b'], 0⟩, Value.unit⟩ rfl rfl rfl)⟩

/-! ### C7 -/

/-- C7 counterexample: `opt(p).parse(s)` does not succeed for every `s`:
`Parser.parse` wraps the parser in `<< eof`, so when `p` fails and the
source is nonempty, `opt` succeeds with `[]` but `eof` fails.  Here
`opt("a").parse("b")` is a `Failure` (expected `'a'` or end of source). -/
theorem c7_counterexample :
    parse true optA 100 ("b".toList)
      = .failure (some ⟨"b".toList, 0⟩) [quoteRepr ['a'], "end of source"]
    ∧ parse true optA 100 ("b".toList) ≠ .success (.list []) := by
  refine ⟨rfl, ?_⟩
  intro h
  rw [show parse true optA 100 ("b".toList)
      = .failure (some ⟨"b".toList, 0⟩) [quoteRepr ['a'], "end of source"] from rfl] at h
  exact ParseResult.noConfusion h

/-- C7, amended: the law holds of `opt(p)`'s own `_consume`: for every
inner outcome it succeeds, with `[v]` when the inner parser succeeds with
`v` and with `[]` (at the original reader) when the inner parser fails.
`opt(p).parse(s)` additionally requires `eof` after the optional match:
`opt("a").parse("a") = Success(["a"])`, `opt("a").parse("") = Success([])`,
but a nonempty unmatched source is a `Failure`. -/
theorem c7_optional (i : Nat) (q : Parser) (next : Parser → State → Reader → State × Ans)
    (st st1 : State) (r : Reader) :
    (∀ c, next q st r = (st1, .res (some c)) →
      pconsume next (.optional i q) st r = (st1, .res (some ⟨c.remainder, .list [c.value]⟩)))
    ∧ (next q st r = (st1, .res none) →
      pconsume next (.optional i q) st r = (st1, .res (some ⟨r, .list []⟩)))
    ∧ parse true optA 100 ("a".toList) = .success (.list [.str ['a']])
    ∧ parse true optA 100 [] = .success (.list []) := by
  refine ⟨?_, ?_, rfl, rfl⟩
  · intro c h
    simp only [pconsume, h]
  · intro h
    simp only [pconsume, h]

theorem c7_witness :
    (fun (_ : Parser) (st : State) (_ : Reader) => (st, Ans.res none)) optA State.empty
        (⟨['b'], 0⟩ : Reader) = (State.empty, Ans.res none)
    ∧ pconsume (fun _ st _ => (st, Ans.res none)) (.optional 3 optA) State.empty ⟨['b'], 0⟩
        = (State.empty, .res (some ⟨⟨['b'], 0⟩, .list []⟩)) :=
  ⟨rfl, (c7_optional 3 optA (fun _ st _ => (st, Ans.res none)) State.empty State.empty
    ⟨['b'], 0⟩).2.1 rfl⟩

end Parsita

namespace Parsita

/-! ### C1 -/

/-- The outcomes of trying each alternative in order (threading the state
exactly as `LongestAlternativeParser._consume` does); `none` in the second
component when a fatal answer interrupts the iteration. -/
def childOutcomes (next : Parser → State → State × Ans) :
    List Parser → State → State × Option (List (Option Continue))
  | [], st => (st, some [])
  | q :: qs, st =>
    match next q st with
    | (st1, .res o) =>
      match childOutcomes next qs st1 with
      | (st2, some outs) => (st2, some (o :: outs))
      | (st2, none) => (st2, none)
    | (st1, _) => (st1, none)

/-- The incremental best-so-far update of
`LongestAlternativeParser._consume`: replace only on strictly farther. -/
def stepBest (best : Option Continue) (c : Continue) : Option Continue :=
  match best with
  | none => some c
  | some b => if c.remainder.position > b.remainder.position then some c else some b

def codeBest (best : Option Continue) (outs : List (Option Continue)) : Option Continue :=
  (outs.filterMap id).foldl stepBest best

/-- The greatest remainder position among the successful outcomes. -/
def maxRem (cs : List Continue) : Nat :=
  (cs.map (fun c => c.remainder.position)).foldr max 0

/-- Modelled from the spec's words, for comparison with the code: the
result of the first (earliest) successful alternative whose remainder has
the greatest position; `none` when every alternative failed. -/
def specLongest (outs : List (Option Continue)) : Option Continue :=
  (outs.filterMap id).find? (fun c => c.remainder.position == maxRem (outs.filterMap id))

theorem longestGo_codeBest (next : Parser → State → State × Ans) :
    ∀ (ps : List Parser) (st st' : State) (best : Option Continue)
      (outs : List (Option Continue)),
      childOutcomes next ps st = (st', some outs) →
      longestGo next ps st best = (st', .res (codeBest best outs)) := by
  intro ps
  induction ps with
  | nil =>
    intro st st' best outs h
    simp only [childOutcomes] at h
    rw [Prod.mk.injEq] at h
    obtain ⟨rfl, h2⟩ := h
    injection h2 with h2
    subst h2
    rfl
  | cons q qs ih =>
    intro st st' best outs h
    rcases hq : next q st with ⟨st1, a⟩
    cases a with
    | res o =>
      rcases hrest : childOutcomes next qs st1 with ⟨st2, oo⟩
      cases oo with
      | some outs' =>
        simp only [childOutcomes, hq, hrest] at h
        rw [Prod.mk.injEq] at h
        obtain ⟨rfl, h2⟩ := h
        injection h2 with h2
        subst h2
        cases o with
        | some c =>
          simp only [longestGo, hq]
          exact ih st1 st2 (stepBest best c) outs' hrest
        | none =>
          simp only [longestGo, hq]
          exact ih st1 st2 best outs' hrest
      | none =>
        simp only [childOutcomes, hq, hrest] at h
        simp at h
    | recursionError p ctx =>
      simp only [childOutcomes, hq] at h
      simp at h
    | wsCrash =>
      simp only [childOutcomes, hq] at h
      simp at h
    | out =>
      simp only [childOutcomes, hq] at h
      simp at h

end Parsita

namespace Parsita

theorem maxRem_cons (c : Continue) (cs : List Continue) :
    maxRem (c :: cs) = max c.remainder.position (maxRem cs) := rfl

theorem maxRem_le_left (c : Continue) (cs : List Continue) :
    c.remainder.position ≤ maxRem (c :: cs) := by
  rw [maxRem_cons]; exact Nat.le_max_left _ _

theorem foldl_stepBest_some :
    ∀ (cs : List Continue) (b : Continue),
      cs.foldl stepBest (some b)
        = (b :: cs).find? (fun c => c.remainder.position == maxRem (b :: cs)) := by
  intro cs
  induction cs with
  | nil =>
    intro b
    simp [List.find?, maxRem, stepBest]
  | cons c cs' ih =>
    intro b
    by_cases hgt : b.remainder.position < c.remainder.position
    · have hstep : stepBest (some b) c = some c := by
        simp [stepBest, hgt]
      have hm : maxRem (b :: c :: cs') = maxRem (c :: cs') := by
        rw [maxRem_cons]
        exact Nat.max_eq_right (le_trans (le_of_lt hgt) (maxRem_le_left c cs'))
      have hbf : (b.remainder.position == maxRem (c :: cs')) = false :=
        beq_false_of_ne (Nat.ne_of_lt (lt_of_lt_of_le hgt (maxRem_le_left c cs')))
      calc (c :: cs').foldl stepBest (some b)
          = cs'.foldl stepBest (some c) := by rw [List.foldl_cons, hstep]
        _ = (c :: cs').find? (fun x => x.remainder.position == maxRem (c :: cs')) := ih c
        _ = (b :: c :: cs').find? (fun x => x.remainder.position == maxRem (b :: c :: cs')) := by
            rw [hm]
            simp only [List.find?_cons, hbf]
    · have hle : c.remainder.position ≤ b.remainder.position := Nat.le_of_not_lt hgt
      have hstep : stepBest (some b) c = some b := by
        simp [stepBest, hgt]
      have hm : maxRem (b :: c :: cs') = maxRem (b :: cs') := by
        rw [maxRem_cons, maxRem_cons, maxRem_cons, ← Nat.max_assoc,
          Nat.max_eq_left hle]
      calc (c :: cs').foldl stepBest (some b)
          = cs'.foldl stepBest (some b) := by rw [List.foldl_cons, hstep]
        _ = (b :: cs').find? (fun x => x.remainder.position == maxRem (b :: cs')) := ih b
        _ = (b :: c :: cs').find? (fun x => x.remainder.position == maxRem (b :: c :: cs')) := by
            rw [hm]
            by_cases hb : (b.remainder.position == maxRem (b :: cs')) = true
            · simp only [List.find?_cons, hb]
            · have hbf : (b.remainder.position == maxRem (b :: cs')) = false :=
                Bool.eq_false_iff.mpr hb
              have hblt : b.remainder.position < maxRem (b :: cs') :=
                Nat.lt_of_le_of_ne (maxRem_le_left b cs') (by
                  intro hcontra
                  exact hb (beq_iff_eq.mpr hcontra))
              have hcf : (c.remainder.position == maxRem (b :: cs')) = false :=
                beq_false_of_ne (Nat.ne_of_lt (Nat.lt_of_le_of_lt hle hblt))
              simp only [List.find?_cons, hbf, hcf]

theorem codeBest_spec (outs : List (Option Continue)) :
    codeBest none outs = specLongest outs := by
  unfold codeBest specLongest
  rcases hcs : outs.filterMap id with _ | ⟨c, cs'⟩
  · rfl
  · rw [List.foldl_cons]
    exact foldl_stepBest_some cs' c

end Parsita

namespace Parsita

/-- C1: the `|` operator builds a `LongestAlternativeParser`; its
`_consume` tries every alternative in left-to-right order (threading the
state), and — whenever at least one alternative succeeds — returns the
result of the earliest alternative whose remainder has the greatest
position (`specLongest`, written from the spec: first success attaining the
maximum remainder position); when every alternative fails it fails
(`specLongest` of a list with no successes is `none`). -/
theorem c1_longest_alternative (i : Nat) (ps : List Parser)
    (next : Parser → State → Reader → State × Ans) (st st' : State) (r : Reader)
    (outs : List (Option Continue))
    (h : childOutcomes (fun q st1 => next q st1 r) ps st = (st', some outs)) :
    pconsume next (.longestAlternative i ps) st r = (st', .res (specLongest outs)) := by
  show longestGo (fun q st1 => next q st1 r) ps st none = _
  rw [longestGo_codeBest _ ps st st' none outs h, codeBest_spec]

def c1Next : Parser → State → Reader → State × Ans := fun q st _ =>
  (st, .res (if q.pid = 1 then some ⟨⟨['x', 'y'], 1⟩, .nat 1⟩
             else if q.pid = 2 then none
             else some ⟨⟨['x', 'y'], 2⟩, .nat 3⟩))

theorem c1_witness :
    childOutcomes (fun q st1 => c1Next q st1 ⟨['x', 'y'], 0⟩)
        [.anyElem 1, .anyElem 2, .anyElem 3] State.empty
      = (State.empty,
         some [some ⟨⟨['x', 'y'], 1⟩, .nat 1⟩, none, some ⟨⟨['x', 'y'], 2⟩, .nat 3⟩])
    ∧ pconsume c1Next (.longestAlternative 0 [.anyElem 1, .anyElem 2, .anyElem 3])
        State.empty ⟨['x', 'y'], 0⟩
      = (State.empty, .res (some ⟨⟨['x', 'y'], 2⟩, .nat 3⟩)) := by
  refine ⟨rfl, ?_⟩
  rw [c1_longest_alternative 0 [.anyElem 1, .anyElem 2, .anyElem 3] c1Next State.empty
    State.empty ⟨['x', 'y'], 0⟩
    [some ⟨⟨['x', 'y'], 1⟩, .nat 1⟩, none, some ⟨⟨['x', 'y'], 2⟩, .nat 3⟩] rfl]
  rfl

end Parsita

namespace Parsita

/-- C9: with the whitespace parser's `consume` abstracted as `wsNext`,
under the precondition that it succeeds on every state and reader:
`LiteralParser._consume` and `RegexParser._consume` never reach the crash
branch (the unguarded `status.remainder` dereference); they run whitespace
exactly once before the pattern (the first two conjuncts reduce `litGo` and
`regGo` to the match step at the post-whitespace reader) and exactly once
after a successful pattern match (the `litMatch`/`regMatch` conjuncts);
when the pattern fails, only the failure is registered. -/
theorem c9_whitespace_safe (wsNext : State → Reader → State × Ans)
    (pattern : List Char) (g : Rgx) (st : State) (r : Reader)
    (H : ∀ st1 r1, ∃ st2 c, wsNext st1 r1 = (st2, Ans.res (some c))) :
    (litGo (some wsNext) pattern st r).2 ≠ .wsCrash
    ∧ (regGo (some wsNext) g st r).2 ≠ .wsCrash
    ∧ (∃ st1 c1, wsNext st r = (st1, .res (some c1))
        ∧ litGo (some wsNext) pattern st r = litMatch (some wsNext) pattern st1 c1.remainder
        ∧ regGo (some wsNext) g st r = regMatch (some wsNext) g st1 c1.remainder)
    ∧ (∀ st1 r1, pattern.isPrefixOf (r1.source.drop r1.position) = true →
        ∃ st2 c2, wsNext st1 (r1.drop pattern.length) = (st2, .res (some c2))
          ∧ litMatch (some wsNext) pattern st1 r1
              = (st2, .res (some ⟨c2.remainder, .str pattern⟩)))
    ∧ (∀ st1 r1, pattern.isPrefixOf (r1.source.drop r1.position) = false →
        litMatch (some wsNext) pattern st1 r1
          = (st1.register_failure (quoteRepr pattern) r1, .res none))
    ∧ (∀ st1 r1 e, g.matchEnd r1.source r1.position = some e →
        ∃ st2 c2,
          wsNext st1 (r1.drop ((r1.source.drop r1.position).take (e - r1.position)).length)
            = (st2, .res (some c2))
          ∧ regMatch (some wsNext) g st1 r1
              = (st2, .res (some ⟨c2.remainder,
                  .str ((r1.source.drop r1.position).take (e - r1.position))⟩)))
    ∧ (∀ st1 r1, g.matchEnd r1.source r1.position = none →
        regMatch (some wsNext) g st1 r1
          = (st1.register_failure (rgxRepr g) r1, .res none)) := by
  have hlitMatch : ∀ st1 r1, (litMatch (some wsNext) pattern st1 r1).2 ≠ .wsCrash := by
    intro st1 r1
    obtain ⟨st2, c2, h2⟩ := H st1 (r1.drop pattern.length)
    by_cases hp : pattern.isPrefixOf (r1.source.drop r1.position)
    · simp [litMatch, hp, h2]
    · simp [litMatch, hp]
  have hregMatch : ∀ st1 r1, (regMatch (some wsNext) g st1 r1).2 ≠ .wsCrash := by
    intro st1 r1
    rcases hm : g.matchEnd r1.source r1.position with _ | e
    · simp [regMatch, hm]
    · obtain ⟨st2, c2, h2⟩ :=
        H st1 (r1.drop ((r1.source.drop r1.position).take (e - r1.position)).length)
      simp only [regMatch, hm]
      rw [h2]
      simp
  obtain ⟨st1, c1, h1⟩ := H st r
  refine ⟨?_, ?_, ⟨st1, c1, h1, ?_, ?_⟩, ?_, ?_, ?_, ?_⟩
  · simp only [litGo, h1]
    exact hlitMatch st1 c1.remainder
  · simp only [regGo, h1]
    exact hregMatch st1 c1.remainder
  · simp only [litGo, h1]
  · simp only [regGo, h1]
  · intro st1 r1 hp
    obtain ⟨st2, c2, h2⟩ := H st1 (r1.drop pattern.length)
    refine ⟨st2, c2, h2, ?_⟩
    simp [litMatch, hp, h2]
  · intro st1 r1 hp
    simp [litMatch, hp]
  · intro st1 r1 e hm
    obtain ⟨st2, c2, h2⟩ :=
      H st1 (r1.drop ((r1.source.drop r1.position).take (e - r1.position)).length)
    refine ⟨st2, c2, h2, ?_⟩
    simp only [regMatch, hm]
    rw [h2]
  · intro st1 r1 hm
    simp [regMatch, hm]

theorem c9_witness :
    ((fun st1 (r1 : Reader) => (st1, Ans.res (some ⟨r1, Value.str []⟩))) State.empty
        (⟨['a'], 0⟩ : Reader)
      = (State.empty, Ans.res (some ⟨(⟨['a'], 0⟩ : Reader), Value.str []⟩)))
    ∧ (litGo (some (fun st1 r1 => (st1, Ans.res (some ⟨r1, Value.str []⟩)))) ['a']
        State.empty ⟨['a'], 0⟩).2 ≠ .wsCrash :=
  ⟨rfl,
    (c9_whitespace_safe (fun st1 r1 => (st1, Ans.res (some ⟨r1, Value.str []⟩))) ['a']
      (.star .blank) State.empty ⟨['a'], 0⟩
      (fun st1 r1 => ⟨st1, ⟨r1, Value.str []⟩, rfl⟩)).1⟩

end Parsita

namespace Parsita

/-! ### State evolution: every state update of the evaluator is a
register/mark/store step.  This is the backbone for the invariants about
`journal`, `trace` and the memo table. -/

inductive PStep : State → State → Prop where
  | reg (e : String) (r : Reader) (st : State) : PStep st (st.register_failure e r)
  | mark (k : Nat × Nat) (st : State) (h : st.memo.lookup k = none) :
      PStep st { st with memo := (k, none) :: st.memo, trace := st.trace ++ [k] }
  | store (k : Nat × Nat) (o : Option Continue) (st : State) :
      PStep st { st with memo := (k, o) :: st.memo }

def Reaches (st st' : State) : Prop := Relation.ReflTransGen PStep st st'

theorem Reaches.rfl {st : State} : Reaches st st := Relation.ReflTransGen.refl

theorem Reaches.trans {a b c : State} (h1 : Reaches a b) (h2 : Reaches b c) : Reaches a c :=
  Relation.ReflTransGen.trans h1 h2

theorem reaches_register (st : State) (e : String) (r : Reader) :
    Reaches st (st.register_failure e r) :=
  Relation.ReflTransGen.single (.reg e r st)

theorem litMatch_reaches (wsNext : Option (State → Reader → State × Ans)) (pattern : List Char)
    (Hws : ∀ ws, wsNext = some ws → ∀ st r, Reaches st (ws st r).1) :
    ∀ st1 r1, Reaches st1 (litMatch wsNext pattern st1 r1).1 := by
  intro st1 r1
  unfold litMatch
  by_cases hp : pattern.isPrefixOf (r1.source.drop r1.position)
  · rw [if_pos hp]
    cases hws : wsNext with
    | none => exact Reaches.rfl
    | some ws =>
      rcases h2 : ws st1 (r1.drop pattern.length) with ⟨st2, a⟩
      have hr : Reaches st1 st2 := by
        have := Hws ws hws st1 (r1.drop pattern.length)
        rw [h2] at this
        exact this
      cases a with
      | res o => cases o <;> simpa [h2] using hr
      | recursionError p ctx => simpa [h2] using hr
      | wsCrash => simpa [h2] using hr
      | out => simpa [h2] using hr
  · rw [if_neg hp]
    exact reaches_register st1 (quoteRepr pattern) r1

theorem litGo_reaches (wsNext : Option (State → Reader → State × Ans)) (pattern : List Char)
    (Hws : ∀ ws, wsNext = some ws → ∀ st r, Reaches st (ws st r).1) :
    ∀ st r, Reaches st (litGo wsNext pattern st r).1 := by
  intro st r
  unfold litGo
  cases hws : wsNext with
  | none => exact litMatch_reaches none pattern (by intro ws h; cases h) st r
  | some ws =>
    rcases h1 : ws st r with ⟨st1, a⟩
    have hr : Reaches st st1 := by
      have := Hws ws hws st r
      rw [h1] at this
      exact this
    cases a with
    | res o =>
      cases o with
      | some c1 =>
        simpa [h1] using hr.trans (litMatch_reaches (some ws) pattern (by
          intro w h st2 r2
          injection h with h
          rw [← h]
          exact Hws ws hws st2 r2) st1 c1.remainder)
      | none => simpa [h1] using hr
    | recursionError p ctx => simpa [h1] using hr
    | wsCrash => simpa [h1] using hr
    | out => simpa [h1] using hr

theorem regMatch_reaches (wsNext : Option (State → Reader → State × Ans)) (g : Rgx)
    (Hws : ∀ ws, wsNext = some ws → ∀ st r, Reaches st (ws st r).1) :
    ∀ st1 r1, Reaches st1 (regMatch wsNext g st1 r1).1 := by
  intro st1 r1
  rcases hm : g.matchEnd r1.source r1.position with _ | e
  · simp only [regMatch, hm]
    exact reaches_register st1 (rgxRepr g) r1
  · cases hws : wsNext with
    | none =>
      simp only [regMatch, hm]
      exact Reaches.rfl
    | some ws =>
      rcases h2 : ws st1 (r1.drop ((r1.source.drop r1.position).take (e - r1.position)).length)
          with ⟨st2, a⟩
      have hr : Reaches st1 st2 := by
        have := Hws ws hws st1
          (r1.drop ((r1.source.drop r1.position).take (e - r1.position)).length)
        rw [h2] at this
        exact this
      simp only [regMatch, hm]
      rw [h2]
      cases a with
      | res o => cases o <;> exact hr
      | recursionError p ctx => exact hr
      | wsCrash => exact hr
      | out => exact hr

theorem regGo_reaches (wsNext : Option (State → Reader → State × Ans)) (g : Rgx)
    (Hws : ∀ ws, wsNext = some ws → ∀ st r, Reaches st (ws st r).1) :
    ∀ st r, Reaches st (regGo wsNext g st r).1 := by
  intro st r
  unfold regGo
  cases hws : wsNext with
  | none => exact regMatch_reaches none g (by intro ws h; cases h) st r
  | some ws =>
    rcases h1 : ws st r with ⟨st1, a⟩
    have hr : Reaches st st1 := by
      have := Hws ws hws st r
      rw [h1] at this
      exact this
    cases a with
    | res o =>
      cases o with
      | some c1 =>
        simpa [h1] using hr.trans (regMatch_reaches (some ws) g (by
          intro w h st2 r2
          injection h with h
          rw [← h]
          exact Hws ws hws st2 r2) st1 c1.remainder)
      | none => simpa [h1] using hr
    | recursionError p ctx => simpa [h1] using hr
    | wsCrash => simpa [h1] using hr
    | out => simpa [h1] using hr

theorem seqGo_reaches (next : Parser → State → Reader → State × Ans)
    (Hnext : ∀ q st r, Reaches st (next q st r).1) :
    ∀ ps st r acc, Reaches st (seqGo next ps st r acc).1 := by
  intro ps
  induction ps with
  | nil => intro st r acc; exact Reaches.rfl
  | cons q qs ih =>
    intro st r acc
    rcases h1 : next q st r with ⟨st1, a⟩
    have hr : Reaches st st1 := by have := Hnext q st r; rw [h1] at this; exact this
    cases a with
    | res o =>
      cases o with
      | some c => simpa [seqGo, h1] using hr.trans (ih st1 c.remainder (acc ++ [c.value]))
      | none => simpa [seqGo, h1] using hr
    | recursionError p ctx => simpa [seqGo, h1] using hr
    | wsCrash => simpa [seqGo, h1] using hr
    | out => simpa [seqGo, h1] using hr

theorem firstGo_reaches (next : Parser → State → State × Ans)
    (Hnext : ∀ q st, Reaches st (next q st).1) :
    ∀ ps st, Reaches st (firstGo next ps st).1 := by
  intro ps
  induction ps with
  | nil => intro st; exact Reaches.rfl
  | cons q qs ih =>
    intro st
    rcases h1 : next q st with ⟨st1, a⟩
    have hr : Reaches st st1 := by have := Hnext q st; rw [h1] at this; exact this
    cases a with
    | res o =>
      cases o with
      | some c => simpa [firstGo, h1] using hr
      | none => simpa [firstGo, h1] using hr.trans (ih st1)
    | recursionError p ctx => simpa [firstGo, h1] using hr
    | wsCrash => simpa [firstGo, h1] using hr
    | out => simpa [firstGo, h1] using hr

theorem longestGo_reaches (next : Parser → State → State × Ans)
    (Hnext : ∀ q st, Reaches st (next q st).1) :
    ∀ ps st best, Reaches st (longestGo next ps st best).1 := by
  intro ps
  induction ps with
  | nil => intro st best; exact Reaches.rfl
  | cons q qs ih =>
    intro st best
    rcases h1 : next q st with ⟨st1, a⟩
    have hr : Reaches st st1 := by have := Hnext q st; rw [h1] at this; exact this
    cases a with
    | res o =>
      cases o with
      | some c => simpa [longestGo, h1] using hr.trans (ih st1 _)
      | none => simpa [longestGo, h1] using hr.trans (ih st1 best)
    | recursionError p ctx => simpa [longestGo, h1] using hr
    | wsCrash => simpa [longestGo, h1] using hr
    | out => simpa [longestGo, h1] using hr

theorem repGo_reaches (next : State → Reader → State × Ans) (selfP : Parser)
    (mn : Nat) (mx : Option Nat)
    (Hnext : ∀ st r, Reaches st (next st r).1) :
    ∀ k st acc rem, Reaches st (repGo next selfP mn mx k st acc rem).1 := by
  intro k
  induction k with
  | zero => intro st acc rem; exact Reaches.rfl
  | succ n ih =>
    intro st acc rem
    by_cases hmx : underMax acc.length mx = true
    · rcases h1 : next st rem with ⟨st1, a⟩
      have hr : Reaches st st1 := by have := Hnext st rem; rw [h1] at this; exact this
      cases a with
      | res o =>
        cases o with
        | some c =>
          by_cases hpos : rem.position = c.remainder.position
          · simpa [repGo, hmx, h1, hpos] using hr
          · simpa [repGo, hmx, h1, hpos] using
              hr.trans (ih st1 (acc ++ [c.value]) c.remainder)
        | none => simpa [repGo, hmx, h1] using hr
      | recursionError p ctx => simpa [repGo, hmx, h1] using hr
      | wsCrash => simpa [repGo, hmx, h1] using hr
      | out => simpa [repGo, hmx, h1] using hr
    · simp only [repGo, hmx]
      rw [if_neg (by simpa using hmx)]
      exact Reaches.rfl

theorem rep1Go_reaches (next : State → Reader → State × Ans) (selfP : Parser)
    (Hnext : ∀ st r, Reaches st (next st r).1) :
    ∀ k st acc rem, Reaches st (rep1Go next selfP k st acc rem).1 := by
  intro k
  induction k with
  | zero => intro st acc rem; exact Reaches.rfl
  | succ n ih =>
    intro st acc rem
    rcases h1 : next st rem with ⟨st1, a⟩
    have hr : Reaches st st1 := by have := Hnext st rem; rw [h1] at this; exact this
    cases a with
    | res o =>
      cases o with
      | some c =>
        by_cases hpos : rem.position = c.remainder.position
        · simpa [rep1Go, h1, hpos] using hr
        · simpa [rep1Go, h1, hpos] using hr.trans (ih st1 (acc ++ [c.value]) c.remainder)
      | none => simpa [rep1Go, h1] using hr
    | recursionError p ctx => simpa [rep1Go, h1] using hr
    | wsCrash => simpa [rep1Go, h1] using hr
    | out => simpa [rep1Go, h1] using hr

theorem repsepGo_reaches (nextP nextSep : State → Reader → State × Ans) (selfP : Parser)
    (mn : Nat) (mx : Option Nat)
    (HnextP : ∀ st r, Reaches st (nextP st r).1)
    (HnextSep : ∀ st r, Reaches st (nextSep st r).1) :
    ∀ k st acc rem, Reaches st (repsepGo nextP nextSep selfP mn mx k st acc rem).1 := by
  intro k
  induction k with
  | zero => intro st acc rem; exact Reaches.rfl
  | succ n ih =>
    intro st acc rem
    by_cases hmx : underMax acc.length mx = true
    · rcases h1 : nextSep st rem with ⟨st1, a⟩
      have hr1 : Reaches st st1 := by have := HnextSep st rem; rw [h1] at this; exact this
      cases a with
      | res o =>
        cases o with
        | some sc =>
          rcases h2 : nextP st1 sc.remainder with ⟨st2, a2⟩
          have hr2 : Reaches st1 st2 := by
            have := HnextP st1 sc.remainder; rw [h2] at this; exact this
          cases a2 with
          | res o2 =>
            cases o2 with
            | some pc =>
              by_cases hpos : rem.position = pc.remainder.position
              · simpa [repsepGo, hmx, h1, h2, hpos] using hr1.trans hr2
              · simpa [repsepGo, hmx, h1, h2, hpos] using
                  (hr1.trans hr2).trans (ih st2 (acc ++ [pc.value]) pc.remainder)
            | none => simpa [repsepGo, hmx, h1, h2] using hr1.trans hr2
          | recursionError p ctx => simpa [repsepGo, hmx, h1, h2] using hr1.trans hr2
          | wsCrash => simpa [repsepGo, hmx, h1, h2] using hr1.trans hr2
          | out => simpa [repsepGo, hmx, h1, h2] using hr1.trans hr2
        | none => simpa [repsepGo, hmx, h1] using hr1
      | recursionError p ctx => simpa [repsepGo, hmx, h1] using hr1
      | wsCrash => simpa [repsepGo, hmx, h1] using hr1
      | out => simpa [repsepGo, hmx, h1] using hr1
    · simp only [repsepGo, hmx]
      rw [if_neg (by simpa using hmx)]
      exact Reaches.rfl

theorem rep1sepGo_reaches (nextP nextSep : State → Reader → State × Ans) (selfP : Parser)
    (HnextP : ∀ st r, Reaches st (nextP st r).1)
    (HnextSep : ∀ st r, Reaches st (nextSep st r).1) :
    ∀ k st acc rem, Reaches st (rep1sepGo nextP nextSep selfP k st acc rem).1 := by
  intro k
  induction k with
  | zero => intro st acc rem; exact Reaches.rfl
  | succ n ih =>
    intro st acc rem
    rcases h1 : nextSep st rem with ⟨st1, a⟩
    have hr1 : Reaches st st1 := by have := HnextSep st rem; rw [h1] at this; exact this
    cases a with
    | res o =>
      cases o with
      | some sc =>
        rcases h2 : nextP st1 sc.remainder with ⟨st2, a2⟩
        have hr2 : Reaches st1 st2 := by
          have := HnextP st1 sc.remainder; rw [h2] at this; exact this
        cases a2 with
        | res o2 =>
          cases o2 with
          | some pc =>
            by_cases hpos : rem.position = pc.remainder.position
            · simpa [rep1sepGo, h1, h2, hpos] using hr1.trans hr2
            · simpa [rep1sepGo, h1, h2, hpos] using
                (hr1.trans hr2).trans (ih st2 (acc ++ [pc.value]) pc.remainder)
          | none => simpa [rep1sepGo, h1, h2] using hr1.trans hr2
        | recursionError p ctx => simpa [rep1sepGo, h1, h2] using hr1.trans hr2
        | wsCrash => simpa [rep1sepGo, h1, h2] using hr1.trans hr2
        | out => simpa [rep1sepGo, h1, h2] using hr1.trans hr2
      | none => simpa [rep1sepGo, h1] using hr1
    | recursionError p ctx => simpa [rep1sepGo, h1] using hr1
    | wsCrash => simpa [rep1sepGo, h1] using hr1
    | out => simpa [rep1sepGo, h1] using hr1

theorem untilGo_reaches (next : State → Reader → State × Ans) (start : Nat)
    (Hnext : ∀ st r, Reaches st (next st r).1) :
    ∀ k st r, Reaches st (untilGo next start k st r).1 := by
  intro k
  induction k with
  | zero => intro st r; exact Reaches.rfl
  | succ n ih =>
    intro st r
    rcases h1 : next st r with ⟨st1, a⟩
    have hr : Reaches st st1 := by have := Hnext st r; rw [h1] at this; exact this
    cases a with
    | res o =>
      cases o with
      | some c => simpa [untilGo, h1] using hr
      | none =>
        by_cases hf : r.finished
        · simpa [untilGo, h1, hf] using hr
        · simpa [untilGo, h1, hf] using hr.trans (ih st1 r.rest)
    | recursionError p ctx => simpa [untilGo, h1] using hr
    | wsCrash => simpa [untilGo, h1] using hr
    | out => simpa [untilGo, h1] using hr

theorem pconsume_reaches (next : Parser → State → Reader → State × Ans)
    (Hnext : ∀ q st r, Reaches st (next q st r).1) :
    ∀ p st r, Reaches st (pconsume next p st r).1 := by
  intro p st r
  cases p with
  | literal i pattern ws =>
    exact litGo_reaches _ pattern (by
      intro w h st1 r1
      cases ws with
      | none => cases h
      | some w0 =>
        simp only [Option.map] at h
        injection h with h
        rw [← h]
        exact Hnext w0 st1 r1) st r
  | regex i g ws =>
    exact regGo_reaches _ g (by
      intro w h st1 r1
      cases ws with
      | none => cases h
      | some w0 =>
        simp only [Option.map] at h
        injection h with h
        rw [← h]
        exact Hnext w0 st1 r1) st r
  | endOfSource i =>
    by_cases hf : r.finished
    · simpa [pconsume, hf] using Reaches.rfl
    · simpa [pconsume, hf] using reaches_register st "end of source" r
  | anyElem i =>
    by_cases hf : r.finished
    · simpa [pconsume, hf] using reaches_register st "anything" r
    · simpa [pconsume, hf] using Reaches.rfl
  | successP i v => exact Reaches.rfl
  | failureP i msg => exact reaches_register st msg r
  | optional i q =>
    rcases h1 : next q st r with ⟨st1, a⟩
    have hr : Reaches st st1 := by have := Hnext q st r; rw [h1] at this; exact this
    cases a with
    | res o => cases o <;> simpa [pconsume, h1] using hr
    | recursionError p ctx => simpa [pconsume, h1] using hr
    | wsCrash => simpa [pconsume, h1] using hr
    | out => simpa [pconsume, h1] using hr
  | firstAlternative i ps =>
    exact firstGo_reaches _ (fun q st1 => Hnext q st1 r) ps st
  | longestAlternative i ps =>
    exact longestGo_reaches _ (fun q st1 => Hnext q st1 r) ps st none
  | sequential i ps => exact seqGo_reaches next Hnext ps st r []
  | discardLeft i l rp =>
    rcases h1 : next l st r with ⟨st1, a⟩
    have hr : Reaches st st1 := by have := Hnext l st r; rw [h1] at this; exact this
    cases a with
    | res o =>
      cases o with
      | some c =>
        have h2 := Hnext rp st1 c.remainder
        simpa [pconsume, h1] using hr.trans h2
      | none => simpa [pconsume, h1] using hr
    | recursionError p ctx => simpa [pconsume, h1] using hr
    | wsCrash => simpa [pconsume, h1] using hr
    | out => simpa [pconsume, h1] using hr
  | discardRight i l rp =>
    rcases h1 : next l st r with ⟨st1, a⟩
    have hr : Reaches st st1 := by have := Hnext l st r; rw [h1] at this; exact this
    cases a with
    | res o =>
      cases o with
      | some c1 =>
        rcases h2 : next rp st1 c1.remainder with ⟨st2, a2⟩
        have hr2 : Reaches st1 st2 := by
          have := Hnext rp st1 c1.remainder; rw [h2] at this; exact this
        cases a2 with
        | res o2 => cases o2 <;> simpa [pconsume, h1, h2] using hr.trans hr2
        | recursionError p ctx => simpa [pconsume, h1, h2] using hr.trans hr2
        | wsCrash => simpa [pconsume, h1, h2] using hr.trans hr2
        | out => simpa [pconsume, h1, h2] using hr.trans hr2
      | none => simpa [pconsume, h1] using hr
    | recursionError p ctx => simpa [pconsume, h1] using hr
    | wsCrash => simpa [pconsume, h1] using hr
    | out => simpa [pconsume, h1] using hr
  | conversion i q f =>
    rcases h1 : next q st r with ⟨st1, a⟩
    have hr : Reaches st st1 := by have := Hnext q st r; rw [h1] at this; exact this
    cases a with
    | res o => cases o <;> simpa [pconsume, h1] using hr
    | recursionError p ctx => simpa [pconsume, h1] using hr
    | wsCrash => simpa [pconsume, h1] using hr
    | out => simpa [pconsume, h1] using hr
  | repeated i q mn mx =>
    exact repGo_reaches _ _ mn mx (fun st1 r1 => Hnext q st1 r1) _ st [] r
  | repeatedOnce i q =>
    rcases h1 : next q st r with ⟨st1, a⟩
    have hr : Reaches st st1 := by have := Hnext q st r; rw [h1] at this; exact this
    cases a with
    | res o =>
      cases o with
      | some c =>
        simpa [pconsume, h1] using hr.trans
          (rep1Go_reaches _ _ (fun st1 r1 => Hnext q st1 r1) _ st1 [c.value] c.remainder)
      | none => simpa [pconsume, h1] using hr
    | recursionError p ctx => simpa [pconsume, h1] using hr
    | wsCrash => simpa [pconsume, h1] using hr
    | out => simpa [pconsume, h1] using hr
  | repeatedSeparated i q sep mn mx =>
    rcases h1 : next q st r with ⟨st1, a⟩
    have hr : Reaches st st1 := by have := Hnext q st r; rw [h1] at this; exact this
    cases a with
    | res o =>
      cases o with
      | some c =>
        simpa [pconsume, h1] using hr.trans
          (repsepGo_reaches _ _ _ mn mx (fun st1 r1 => Hnext q st1 r1)
            (fun st1 r1 => Hnext sep st1 r1) _ st1 [c.value] c.remainder)
      | none => simpa [pconsume, h1] using hr
    | recursionError p ctx => simpa [pconsume, h1] using hr
    | wsCrash => simpa [pconsume, h1] using hr
    | out => simpa [pconsume, h1] using hr
  | repeatedOnceSeparated i q sep =>
    rcases h1 : next q st r with ⟨st1, a⟩
    have hr : Reaches st st1 := by have := Hnext q st r; rw [h1] at this; exact this
    cases a with
    | res o =>
      cases o with
      | some c =>
        simpa [pconsume, h1] using hr.trans
          (rep1sepGo_reaches _ _ _ (fun st1 r1 => Hnext q st1 r1)
            (fun st1 r1 => Hnext sep st1 r1) _ st1 [c.value] c.remainder)
      | none => simpa [pconsume, h1] using hr
    | recursionError p ctx => simpa [pconsume, h1] using hr
    | wsCrash => simpa [pconsume, h1] using hr
    | out => simpa [pconsume, h1] using hr
  | untilP i q =>
    exact untilGo_reaches _ r.position (fun st1 r1 => Hnext q st1 r1) _ st r

theorem consume_reaches (m : Bool) :
    ∀ (n : Nat) (p : Parser) (st : State) (r : Reader),
      Reaches st (consume m n p st r).1 := by
  intro n
  induction n with
  | zero => intro p st r; exact Reaches.rfl
  | succ n ih =>
    intro p st r
    cases m with
    | false =>
      exact pconsume_reaches _ (fun q st1 r1 => ih q st1 r1) p st r
    | true =>
      rcases hlook : st.memo.lookup (p.pid, r.position) with _ | v
      · have hmark : PStep st
            { st with
                memo := ((p.pid, r.position), none) :: st.memo,
                trace := st.trace ++ [(p.pid, r.position)] } := .mark _ st hlook
        set stm : State :=
          { st with
              memo := ((p.pid, r.position), none) :: st.memo,
              trace := st.trace ++ [(p.pid, r.position)] } with hstm
        rcases hbody : pconsume (fun q st1 r1 => consume true n q st1 r1) p stm r with ⟨st2, a⟩
        have hr2 : Reaches stm st2 := by
          have := pconsume_reaches _ (fun q st1 r1 => ih q st1 r1) p stm r
          rw [hbody] at this
          exact this
        have hreach2 : Reaches st st2 := (Relation.ReflTransGen.single hmark).trans hr2
        cases a with
        | res o =>
          have hstore : PStep st2 { st2 with memo := ((p.pid, r.position), o) :: st2.memo } :=
            .store _ o st2
          simpa [consume, hlook, hbody] using
            hreach2.trans (Relation.ReflTransGen.single hstore)
        | recursionError p2 ctx => simpa [consume, hlook, hbody] using hreach2
        | wsCrash => simpa [consume, hlook, hbody] using hreach2
        | out => simpa [consume, hlook, hbody] using hreach2
      · simpa [consume, hlook] using Reaches.rfl

end Parsita

namespace Parsita

/-! ### C3: the packrat wrapper -/

theorem register_failure_memo (st : State) (e : String) (r : Reader) :
    (st.register_failure e r).memo = st.memo := by
  unfold State.register_failure
  cases st.farthest with
  | none => rfl
  | some f =>
    dsimp only
    split
    · rfl
    · split <;> rfl

theorem register_failure_trace (st : State) (e : String) (r : Reader) :
    (st.register_failure e r).trace = st.trace := by
  unfold State.register_failure
  cases st.farthest with
  | none => rfl
  | some f =>
    dsimp only
    split
    · rfl
    · split <;> rfl

/-- The invariant behind "`_consume` runs at most once per (parser,
position) per parse": the trace of `_consume` entries has no duplicates,
and every traced key has a memo entry (consume always leaves one). -/
def TraceInv (st : State) : Prop :=
  st.trace.Nodup ∧ ∀ k ∈ st.trace, ∃ v, st.memo.lookup k = some v

theorem pstep_traceInv {st st' : State} (h : PStep st st') (hinv : TraceInv st) :
    TraceInv st' := by
  obtain ⟨hnd, hmem⟩ := hinv
  cases h with
  | reg e r st =>
    refine ⟨by rw [register_failure_trace]; exact hnd, ?_⟩
    intro k hk
    rw [register_failure_trace] at hk
    rw [register_failure_memo]
    exact hmem k hk
  | mark k st hl =>
    constructor
    · simp only []
      have hkn : k ∉ st.trace := by
        intro hk
        obtain ⟨v, hv⟩ := hmem k hk
        rw [hl] at hv
        cases hv
      rw [List.nodup_append]
      exact ⟨hnd, List.nodup_singleton k, by
        intro a ha hb
        rw [List.mem_singleton] at hb
        subst hb
        exact hkn ha⟩
    · intro k' hk'
      simp only [List.mem_append, List.mem_singleton] at hk'
      rw [List.lookup_cons]
      by_cases hek : (k' == k) = true
      · rw [hek]
        exact ⟨none, rfl⟩
      · rw [Bool.eq_false_iff.mpr hek]
        rcases hk' with hk' | hk'
        · exact hmem k' hk'
        · subst hk'
          exact absurd (beq_self_eq_true k') hek
  | store k o st =>
    refine ⟨hnd, ?_⟩
    intro k' hk'
    rw [List.lookup_cons]
    by_cases hek : (k' == k) = true
    · rw [hek]
      exact ⟨o, rfl⟩
    · rw [Bool.eq_false_iff.mpr hek]
      exact hmem k' hk'

theorem reaches_traceInv {st st' : State} (h : Reaches st st') (hinv : TraceInv st) :
    TraceInv st' := by
  induction h with
  | refl => exact hinv
  | tail _ hstep ih => exact pstep_traceInv hstep ih

/-- C3: `Parser.consume` is the memoizing wrapper: (i) a stored outcome —
`Continue` or the `None` failure sentinel — is returned as is, without
re-running `_consume`; in particular (ii) a left-recursive re-entry of the
same parser at the same position, which finds the freshly written `None`
marker, returns failure immediately; (iii) on a miss, the marker is written
(and the entry traced), `_consume` runs from the marked state, and its
result is stored and returned; and (iv) starting from the fresh state of a
parse, the trace of `_consume` entries never repeats a (parser identity,
position) key, so `_consume` runs at most once per key per parse. -/
theorem c3_packrat_consume (n : Nat) (p : Parser) (st : State) (r : Reader) :
    (∀ v, st.memo.lookup (p.pid, r.position) = some v →
      consume true (n+1) p st r = (st, .res v))
    ∧ (st.memo.lookup (p.pid, r.position) = some none →
      consume true (n+1) p st r = (st, .res none))
    ∧ (st.memo.lookup (p.pid, r.position) = none →
      consume true (n+1) p st r =
        (match pconsume (fun q st1 r1 => consume true n q st1 r1) p
            { st with
                memo := ((p.pid, r.position), none) :: st.memo,
                trace := st.trace ++ [(p.pid, r.position)] } r with
         | (st2, .res o) => ({ st2 with memo := ((p.pid, r.position), o) :: st2.memo }, .res o)
         | (st2, a) => (st2, a)))
    ∧ (consume true n p State.empty r).1.trace.Nodup := by
  refine ⟨?_, ?_, ?_, ?_⟩
  · intro v hv
    simp [consume, hv]
  · intro hv
    simp [consume, hv]
  · intro hl
    simp [consume, hl]
  · have h0 : TraceInv State.empty := ⟨List.nodup_nil, by intro k hk; cases hk⟩
    exact (reaches_traceInv (consume_reaches true n p State.empty r) h0).1

theorem c3_witness :
    ((⟨none, [], [((7, 0), some ⟨⟨['z'], 1⟩, Value.unit⟩)], [], []⟩ : State).memo.lookup
        ((Parser.anyElem 7).pid, (⟨['z'], 0⟩ : Reader).position)
      = some (some ⟨⟨['z'], 1⟩, Value.unit⟩))
    ∧ consume true 3 (.anyElem 7)
        ⟨none, [], [((7, 0), some ⟨⟨['z'], 1⟩, Value.unit⟩)], [], []⟩ ⟨['z'], 0⟩
      = (⟨none, [], [((7, 0), some ⟨⟨['z'], 1⟩, Value.unit⟩)], [], []⟩,
         .res (some ⟨⟨['z'], 1⟩, Value.unit⟩)) :=
  ⟨rfl,
    (c3_packrat_consume 2 (.anyElem 7)
        ⟨none, [], [((7, 0), some ⟨⟨['z'], 1⟩, Value.unit⟩)], [], []⟩ ⟨['z'], 0⟩).1
      (some ⟨⟨['z'], 1⟩, Value.unit⟩) rfl⟩

end Parsita

namespace Parsita

/-! ### C2: the top-level diagnostic -/

/-- The farthest/expected transition of one `register_failure` call. -/
def regFE : (Option Reader × List String) → (String × Reader) → (Option Reader × List String)
  | (none, _), (e, r) => (some r, [e])
  | (some f, exps), (e, r) =>
    if f.position < r.position then (some r, [e])
    else if f.position = r.position then (some f, exps ++ [e])
    else (some f, exps)

theorem register_failure_fields (st : State) (e : String) (r : Reader) :
    ((st.register_failure e r).farthest, (st.register_failure e r).expected)
        = regFE (st.farthest, st.expected) (e, r)
    ∧ (st.register_failure e r).journal = st.journal ++ [(e, r)] := by
  unfold State.register_failure regFE
  cases st.farthest with
  | none => exact ⟨rfl, rfl⟩
  | some f =>
    dsimp only
    constructor
    · split
      · rfl
      · split <;> rfl
    · split
      · rfl
      · split <;> rfl

/-- The farthest reader and the expected list are exactly the replay of the
journal of `register_failure` calls. -/
def FEInv (st : State) : Prop :=
  (st.farthest, st.expected) = st.journal.foldl regFE (none, [])

theorem pstep_FEInv {st st' : State} (h : PStep st st') (hinv : FEInv st) : FEInv st' := by
  cases h with
  | reg e r st =>
    obtain ⟨hfe, hj⟩ := register_failure_fields st e r
    unfold FEInv
    rw [hfe, hj, List.foldl_append]
    unfold FEInv at hinv
    rw [← hinv]
    rfl
  | mark k st hl => exact hinv
  | store k o st => exact hinv

theorem reaches_FEInv {st st' : State} (h : Reaches st st') (hinv : FEInv st) : FEInv st' := by
  induction h with
  | refl => exact hinv
  | tail _ hstep ih => exact pstep_FEInv hstep ih

/-- The greatest registered position in a journal. -/
def maxJPos (J : List (String × Reader)) : Nat :=
  (J.map (fun x => x.2.position)).foldl max 0

theorem le_foldl_max (l : List Nat) : ∀ a : Nat, a ≤ l.foldl max a := by
  induction l with
  | nil => intro a; exact Nat.le_refl a
  | cons x l ih =>
    intro a
    exact Nat.le_trans (Nat.le_max_left a x) (ih (max a x))

theorem mem_le_foldl_max (l : List Nat) : ∀ a x, x ∈ l → x ≤ l.foldl max a := by
  induction l with
  | nil => intro a x h; cases h
  | cons y l ih =>
    intro a x h
    rcases List.mem_cons.mp h with h | h
    · subst h
      exact Nat.le_trans (Nat.le_max_right a x) (le_foldl_max l (max a x))
    · exact ih (max a y) x h

theorem mem_le_maxJPos (J : List (String × Reader)) (y : String × Reader) (hy : y ∈ J) :
    y.2.position ≤ maxJPos J :=
  mem_le_foldl_max _ 0 _ (List.mem_map_of_mem _ hy)

theorem maxJPos_append (J : List (String × Reader)) (x : String × Reader) :
    maxJPos (J ++ [x]) = max (maxJPos J) x.2.position := by
  unfold maxJPos
  rw [List.map_append, List.foldl_append]
  rfl

theorem maxJPos_attained :
    ∀ (J : List (String × Reader)), J ≠ [] → ∃ z ∈ J, z.2.position = maxJPos J := by
  intro J
  induction J using List.reverseRecOn with
  | nil => intro h; exact absurd rfl h
  | append_singleton J x ih =>
    intro _
    rcases hJ : J with _ | ⟨y, J'⟩
    · refine ⟨x, List.mem_append_right [] (List.mem_singleton.mpr rfl), ?_⟩
      simp [maxJPos]
    · have hJne : J ≠ [] := by rw [hJ]; exact List.cons_ne_nil y J'
      rw [← hJ]
      obtain ⟨z, hz, hzp⟩ := ih hJne
      rw [maxJPos_append]
      by_cases hle : x.2.position ≤ maxJPos J
      · refine ⟨z, List.mem_append_left _ hz, ?_⟩
        rw [Nat.max_eq_left hle, hzp]
      · refine ⟨x, List.mem_append_right _ (List.mem_singleton.mpr rfl), ?_⟩
        rw [Nat.max_eq_right (Nat.le_of_not_le hle)]

/-- Replaying a nonempty journal yields: farthest = the reader of the first
registration at the greatest position, expected = the descriptions of all
registrations at that position, in order. -/
theorem replay_spec :
    ∀ (J : List (String × Reader)), J ≠ [] →
      J.foldl regFE (none, []) =
        ((J.find? (fun x => x.2.position == maxJPos J)).map (fun x => x.2),
         (J.filter (fun x => x.2.position == maxJPos J)).map (fun x => x.1)) := by
  intro J
  induction J using List.reverseRecOn with
  | nil => intro h; exact absurd rfl h
  | append_singleton J x ih =>
    intro _
    rcases hJ : J with _ | ⟨y, J'⟩
    · simp [maxJPos, regFE, List.find?, List.filter]
    · have hJne : J ≠ [] := by rw [hJ]; exact List.cons_ne_nil y J'
      rw [← hJ]
      rw [List.foldl_append, ih hJne]
      obtain ⟨z, hz, hzp⟩ := maxJPos_attained J hJne
      have hfs : ∃ f, J.find? (fun w => w.2.position == maxJPos J) = some f := by
        rcases hopt : J.find? (fun w => w.2.position == maxJPos J) with _ | f
        · exfalso
          rw [List.find?_eq_none] at hopt
          exact hopt z hz (beq_iff_eq.mpr hzp)
        · exact ⟨f, hopt⟩
      obtain ⟨f, hf⟩ := hfs
      have hfp : f.2.position = maxJPos J :=
        beq_iff_eq.mp
          (@List.find?_some (String × Reader) (fun w => w.2.position == maxJPos J) f J hf)
      have hJnone : ∀ (M : Nat), maxJPos J < M →
          J.find? (fun w => w.2.position == M) = none := by
        intro M hM
        rw [List.find?_eq_none]
        intro w hw hweq
        have := mem_le_maxJPos J w hw
        rw [beq_iff_eq.mp hweq] at this
        exact absurd hM (Nat.not_lt.mpr this)
      have hJfilter : ∀ (M : Nat), maxJPos J < M →
          J.filter (fun w => w.2.position == M) = [] := by
        intro M hM
        rw [List.filter_eq_nil_iff]
        intro w hw hweq
        have := mem_le_maxJPos J w hw
        rw [beq_iff_eq.mp hweq] at this
        exact absurd hM (Nat.not_lt.mpr this)
      rcases Nat.lt_trichotomy (maxJPos J) x.2.position with hlt | heq | hgt
      · -- a strictly farther registration: clear and move
        rw [hf]
        simp only [List.foldl_cons, List.foldl_nil, Option.map]
        simp only [regFE]
        rw [hfp, if_pos hlt]
        have hmax : max (maxJPos J) x.2.position = x.2.position :=
          Nat.max_eq_right (Nat.le_of_lt hlt)
        simp only [List.find?_append, List.filter_append, maxJPos_append, hmax]
        rw [hJnone x.2.position hlt, hJfilter x.2.position hlt]
        have hxt : (x.2.position == x.2.position) = true := beq_self_eq_true _
        simp [List.find?, List.filter, hxt]
      · -- a tie: append the description, keep the farthest reader
        have hM : maxJPos (J ++ [x]) = maxJPos J := by
          rw [maxJPos_append, ← heq, Nat.max_self]
        rw [hf]
        simp only [List.foldl_cons, List.foldl_nil, Option.map]
        simp only [regFE]
        rw [hfp, if_neg (by rw [heq]; exact Nat.lt_irrefl _), if_pos heq]
        have hxt : (x.2.position == maxJPos J) = true := beq_iff_eq.mpr heq.symm
        simp only [List.find?_append, List.filter_append, hM, hf, Option.or_some,
          List.map_append]
        simp [List.filter, hxt]
      · -- a nearer registration: ignored
        have hM : maxJPos (J ++ [x]) = maxJPos J := by
          rw [maxJPos_append, Nat.max_eq_left (Nat.le_of_lt hgt)]
        rw [hf]
        simp only [List.foldl_cons, List.foldl_nil, Option.map]
        simp only [regFE]
        rw [hfp, if_neg (Nat.lt_asymm hgt), if_neg (Nat.ne_of_lt hgt).symm]
        have hxf : (x.2.position == maxJPos J) = false :=
          beq_false_of_ne (Nat.ne_of_lt hgt)
        simp only [List.find?_append, List.filter_append, hM, hf, Option.or_some,
          List.map_append]
        simp [List.filter, hxf]

end Parsita

namespace Parsita

/-- `rep(any1, min=2, max=1)`: a grammar whose failure registers nothing. -/
def repMinTwoMaxOne : Parser := .repeated 0 (.anyElem 1) 2 (some 1)

/-- C2 counterexample: a parse can fail with *no* failure ever registered
(`rep` with `min > max` stops at `max` elements and fails the `min` check
without registering a message), so the claim's "farthest is the reader with
the maximum position at which any failure was registered" names a reader
that does not exist: the code builds `ParseError(None, [])`. -/
theorem c2_counterexample :
    parse true repMinTwoMaxOne 100 ("ab".toList) = .failure none []
    ∧ (consume true 100 (mkRoot repMinTwoMaxOne) State.empty ⟨"ab".toList, 0⟩).1.journal = []
    ∧ (consume true 100 (mkRoot repMinTwoMaxOne) State.empty ⟨"ab".toList, 0⟩).2 = .res none :=
  ⟨rfl, rfl, rfl⟩

/-- C2 (amended): `parse` returns `Success(v)` exactly when `(p << eof)`'s
consume succeeds with value `v`.  Otherwise, *provided at least one failure
was registered during the run*, it returns
`Failure(ParseError(farthest, expected))` where `farthest` is the reader of
the first registration at the greatest registered position and `expected`
is the list of descriptions registered at that position, deduplicated
preserving first-insertion order; when nothing was registered (possible,
e.g. for `rep` with `min > max`) it returns `Failure(ParseError(None, []))`.
-/
theorem c2_parse_diagnostic (p : Parser) (fuel : Nat) (source : List Char)
    (st : State) (a : Ans)
    (hrun : consume true fuel (mkRoot p) State.empty ⟨source, 0⟩ = (st, a)) :
    (∀ c, a = .res (some c) → parse true p fuel source = .success c.value)
    ∧ (a = .res none → st.journal ≠ [] →
        parse true p fuel source
          = .failure
              ((st.journal.find? (fun x => x.2.position == maxJPos st.journal)).map
                (fun x => x.2))
              (uniqueExpected []
                ((st.journal.filter (fun x => x.2.position == maxJPos st.journal)).map
                  (fun x => x.1))))
    ∧ (a = .res none → st.journal = [] → parse true p fuel source = .failure none []) := by
  have hFE : FEInv st := by
    have h0 : FEInv State.empty := rfl
    have := reaches_FEInv (consume_reaches true fuel (mkRoot p) State.empty ⟨source, 0⟩) h0
    rw [hrun] at this
    exact this
  refine ⟨?_, ?_, ?_⟩
  · intro c hc
    subst hc
    unfold parse
    rw [hrun]
  · intro ha hne
    subst ha
    unfold parse
    rw [hrun]
    show ParseResult.failure st.farthest (uniqueExpected [] st.expected) = _
    unfold FEInv at hFE
    rw [replay_spec st.journal hne] at hFE
    rw [Prod.mk.injEq] at hFE
    rw [hFE.1, hFE.2]
  · intro ha hj
    subst ha
    unfold parse
    rw [hrun]
    show ParseResult.failure st.farthest (uniqueExpected [] st.expected) = _
    unfold FEInv at hFE
    rw [hj] at hFE
    rw [Prod.mk.injEq] at hFE
    obtain ⟨h1, h2⟩ := hFE
    rw [h1, h2]
    rfl

theorem c2_witness :
    parse true optA 100 ("b".toList)
      = .failure (some ⟨"b".toList, 0⟩) [quoteRepr ['a'], "end of source"] := by
  have h := (c2_parse_diagnostic optA 100 ("b".toList)
      (consume true 100 (mkRoot optA) State.empty ⟨"b".toList, 0⟩).1
      (consume true 100 (mkRoot optA) State.empty ⟨"b".toList, 0⟩).2 rfl).2.1 rfl
      (by decide)
  rw [h]
  rfl

end Parsita

namespace Parsita

/-! ### C8: remainder positions move forward and stay within the source -/

/-- A reader over the source `S` whose position is in range. -/
def ROk (S : List Char) (r : Reader) : Prop := r.source = S ∧ r.position ≤ S.length

/-- Every `Continue` stored in the memo moves forward from its key's
position and stays within the source — the states `consume` itself
produces all satisfy this. -/
def MemoOk (st : State) (S : List Char) : Prop :=
  ∀ k c, st.memo.lookup k = some (some c) →
    k.2 ≤ c.remainder.position ∧ ROk S c.remainder

/-- A successful answer starting at position `i` lands at `j` with
`i ≤ j ≤ |S|` on the same source. -/
def BoundedAns (S : List Char) (i : Nat) (a : Ans) : Prop :=
  ∀ c, a = Ans.res (some c) → i ≤ c.remainder.position ∧ ROk S c.remainder

theorem boundedAns_res_none (S : List Char) (i : Nat) :
    BoundedAns S i (.res none) := by
  intro c h
  cases h

theorem boundedAns_other (S : List Char) (i : Nat) (a : Ans)
    (h : ∀ o, a ≠ .res o) : BoundedAns S i a := by
  intro c hc
  exact absurd hc (h _)

theorem memoOk_register (st : State) (S : List Char) (e : String) (r : Reader)
    (h : MemoOk st S) : MemoOk (st.register_failure e r) S := by
  intro k c hk
  rw [register_failure_memo] at hk
  exact h k c hk

theorem prefixOf_pos_bound (pattern src : List Char) (pos : Nat)
    (h : pattern.isPrefixOf (src.drop pos) = true) (hpos : pos ≤ src.length) :
    pos + pattern.length ≤ src.length := by
  have h1 := (List.isPrefixOf_iff_prefix.mp h).length_le
  rw [List.length_drop] at h1
  omega

theorem takeWhile_length_le (p : Char → Bool) :
    ∀ (l : List Char), (l.takeWhile p).length ≤ l.length := by
  intro l
  induction l with
  | nil => exact Nat.le_refl _
  | cons x l ih =>
    rw [List.takeWhile_cons]
    by_cases h : p x = true
    · rw [if_pos h]
      simpa using ih
    · rw [if_neg h]
      simp

theorem runLength_le (c : CClass) (src : List Char) (pos : Nat) :
    c.runLength src pos ≤ src.length - pos := by
  unfold CClass.runLength
  calc ((src.drop pos).takeWhile c.mem).length
      ≤ (src.drop pos).length := takeWhile_length_le c.mem (src.drop pos)
    _ = src.length - pos := List.length_drop pos src

theorem matchEnd_bounds (g : Rgx) (src : List Char) (pos : Nat) (e : Nat)
    (h : g.matchEnd src pos = some e) (hpos : pos ≤ src.length) :
    pos ≤ e ∧ e ≤ src.length := by
  cases g with
  | plus c =>
    have hrun := runLength_le c src pos
    simp only [Rgx.matchEnd] at h
    by_cases h0 : c.runLength src pos = 0
    · rw [if_pos h0] at h
      cases h
    · rw [if_neg h0] at h
      injection h with h
      subst h
      omega
  | star c =>
    have hrun := runLength_le c src pos
    simp only [Rgx.matchEnd] at h
    injection h with h
    subst h
    omega

theorem litMatch_bounds (S : List Char) (wsNext : Option (State → Reader → State × Ans))
    (pattern : List Char)
    (Hws : ∀ ws, wsNext = some ws → ∀ st r, MemoOk st S → ROk S r →
        MemoOk (ws st r).1 S ∧ BoundedAns S r.position (ws st r).2) :
    ∀ st1 r1, MemoOk st1 S → ROk S r1 →
      MemoOk (litMatch wsNext pattern st1 r1).1 S
      ∧ BoundedAns S r1.position (litMatch wsNext pattern st1 r1).2 := by
  intro st1 r1 hm hr
  by_cases hp : pattern.isPrefixOf (r1.source.drop r1.position) = true
  · have hb : r1.position + pattern.length ≤ S.length := by
      have := prefixOf_pos_bound pattern r1.source r1.position hp (hr.1 ▸ hr.2)
      rw [hr.1] at this
      exact this
    have hr2 : ROk S (r1.drop pattern.length) := ⟨hr.1, hb⟩
    cases hws : wsNext with
    | none =>
      simp only [litMatch, hp, if_true, hws]
      refine ⟨hm, ?_⟩
      intro c hc
      injection hc with hc
      injection hc with hc
      subst hc
      exact ⟨Nat.le_add_right _ _, hr2⟩
    | some ws =>
      rcases h2 : ws st1 (r1.drop pattern.length) with ⟨st2, a2⟩
      have hws2 := Hws ws hws st1 (r1.drop pattern.length) hm hr2
      rw [h2] at hws2
      simp only [litMatch, hp, if_true, hws, h2]
      cases a2 with
      | res o =>
        cases o with
        | some c2 =>
          refine ⟨hws2.1, ?_⟩
          intro c hc
          injection hc with hc
          injection hc with hc
          subst hc
          have hc2 := hws2.2 c2 rfl
          exact ⟨Nat.le_trans (Nat.le_add_right _ _) hc2.1, hc2.2⟩
        | none => exact ⟨hws2.1, boundedAns_other S _ _ (by intro o h; cases h)⟩
      | recursionError p ctx =>
        exact ⟨hws2.1, boundedAns_other S _ _ (by intro o h; cases h)⟩
      | wsCrash => exact ⟨hws2.1, boundedAns_other S _ _ (by intro o h; cases h)⟩
      | out => exact ⟨hws2.1, boundedAns_other S _ _ (by intro o h; cases h)⟩
  · unfold litMatch
    rw [if_neg hp]
    exact ⟨memoOk_register st1 S _ r1 hm, boundedAns_res_none S _⟩

theorem litGo_bounds (S : List Char) (wsNext : Option (State → Reader → State × Ans))
    (pattern : List Char)
    (Hws : ∀ ws, wsNext = some ws → ∀ st r, MemoOk st S → ROk S r →
        MemoOk (ws st r).1 S ∧ BoundedAns S r.position (ws st r).2) :
    ∀ st r, MemoOk st S → ROk S r →
      MemoOk (litGo wsNext pattern st r).1 S
      ∧ BoundedAns S r.position (litGo wsNext pattern st r).2 := by
  intro st r hm hr
  cases hws : wsNext with
  | none =>
    simp only [litGo, hws]
    exact litMatch_bounds S none pattern (by intro ws h; cases h) st r hm hr
  | some ws =>
    rcases h1 : ws st r with ⟨st1, a1⟩
    have hws1 := Hws ws hws st r hm hr
    rw [h1] at hws1
    simp only [litGo, hws, h1]
    cases a1 with
    | res o =>
      cases o with
      | some c1 =>
        have hc1 := hws1.2 c1 rfl
        have := litMatch_bounds S (some ws) pattern (by
          intro w h
          injection h with h
          exact h ▸ Hws ws hws) st1 c1.remainder hws1.1 hc1.2
        refine ⟨this.1, ?_⟩
        intro c hc
        have := this.2 c hc
        exact ⟨Nat.le_trans hc1.1 this.1, this.2⟩
      | none => exact ⟨hws1.1, boundedAns_other S _ _ (by intro o h; cases h)⟩
    | recursionError p ctx => exact ⟨hws1.1, boundedAns_other S _ _ (by intro o h; cases h)⟩
    | wsCrash => exact ⟨hws1.1, boundedAns_other S _ _ (by intro o h; cases h)⟩
    | out => exact ⟨hws1.1, boundedAns_other S _ _ (by intro o h; cases h)⟩

end Parsita

namespace Parsita

theorem regMatch_bounds (S : List Char) (wsNext : Option (State → Reader → State × Ans))
    (g : Rgx)
    (Hws : ∀ ws, wsNext = some ws → ∀ st r, MemoOk st S → ROk S r →
        MemoOk (ws st r).1 S ∧ BoundedAns S r.position (ws st r).2) :
    ∀ st1 r1, MemoOk st1 S → ROk S r1 →
      MemoOk (regMatch wsNext g st1 r1).1 S
      ∧ BoundedAns S r1.position (regMatch wsNext g st1 r1).2 := by
  intro st1 r1 hm hr
  rcases hme : g.matchEnd r1.source r1.position with _ | e
  · simp only [regMatch, hme]
    exact ⟨memoOk_register st1 S _ r1 hm, boundedAns_res_none S _⟩
  · have hbnd := matchEnd_bounds g r1.source r1.position e hme (hr.1 ▸ hr.2)
    have hvl : ((r1.source.drop r1.position).take (e - r1.position)).length
        ≤ S.length - r1.position := by
      rw [List.length_take, List.length_drop, hr.1]
      exact Nat.le_trans (Nat.min_le_right _ _) (Nat.le_refl _)
    have hr2 : ROk S (r1.drop ((r1.source.drop r1.position).take (e - r1.position)).length) := by
      refine ⟨hr.1, ?_⟩
      show r1.position + _ ≤ S.length
      have := hr.2
      omega
    cases hws : wsNext with
    | none =>
      simp only [regMatch, hme, hws]
      refine ⟨hm, ?_⟩
      intro c hc
      injection hc with hc
      injection hc with hc
      subst hc
      exact ⟨Nat.le_add_right _ _, hr2⟩
    | some ws =>
      rcases h2 : ws st1 (r1.drop ((r1.source.drop r1.position).take (e - r1.position)).length)
          with ⟨st2, a2⟩
      have hws2 := Hws ws hws st1 _ hm hr2
      rw [h2] at hws2
      simp only [regMatch, hme, hws]
      rw [h2]
      cases a2 with
      | res o =>
        cases o with
        | some c2 =>
          refine ⟨hws2.1, ?_⟩
          intro c hc
          injection hc with hc
          injection hc with hc
          subst hc
          have hc2 := hws2.2 c2 rfl
          exact ⟨Nat.le_trans (Nat.le_add_right _ _) hc2.1, hc2.2⟩
        | none => exact ⟨hws2.1, boundedAns_other S _ _ (by intro o h; cases h)⟩
      | recursionError p ctx =>
        exact ⟨hws2.1, boundedAns_other S _ _ (by intro o h; cases h)⟩
      | wsCrash => exact ⟨hws2.1, boundedAns_other S _ _ (by intro o h; cases h)⟩
      | out => exact ⟨hws2.1, boundedAns_other S _ _ (by intro o h; cases h)⟩

theorem regGo_bounds (S : List Char) (wsNext : Option (State → Reader → State × Ans))
    (g : Rgx)
    (Hws : ∀ ws, wsNext = some ws → ∀ st r, MemoOk st S → ROk S r →
        MemoOk (ws st r).1 S ∧ BoundedAns S r.position (ws st r).2) :
    ∀ st r, MemoOk st S → ROk S r →
      MemoOk (regGo wsNext g st r).1 S
      ∧ BoundedAns S r.position (regGo wsNext g st r).2 := by
  intro st r hm hr
  cases hws : wsNext with
  | none =>
    simp only [regGo, hws]
    exact regMatch_bounds S none g (by intro ws h; cases h) st r hm hr
  | some ws =>
    rcases h1 : ws st r with ⟨st1, a1⟩
    have hws1 := Hws ws hws st r hm hr
    rw [h1] at hws1
    simp only [regGo, hws, h1]
    cases a1 with
    | res o =>
      cases o with
      | some c1 =>
        have hc1 := hws1.2 c1 rfl
        have := regMatch_bounds S (some ws) g (by
          intro w h
          injection h with h
          exact h ▸ Hws ws hws) st1 c1.remainder hws1.1 hc1.2
        refine ⟨this.1, ?_⟩
        intro c hc
        have := this.2 c hc
        exact ⟨Nat.le_trans hc1.1 this.1, this.2⟩
      | none => exact ⟨hws1.1, boundedAns_other S _ _ (by intro o h; cases h)⟩
    | recursionError p ctx => exact ⟨hws1.1, boundedAns_other S _ _ (by intro o h; cases h)⟩
    | wsCrash => exact ⟨hws1.1, boundedAns_other S _ _ (by intro o h; cases h)⟩
    | out => exact ⟨hws1.1, boundedAns_other S _ _ (by intro o h; cases h)⟩

end Parsita

namespace Parsita

theorem seqGo_bounds (S : List Char) (next : Parser → State → Reader → State × Ans)
    (HB : ∀ q st r, MemoOk st S → ROk S r →
      MemoOk (next q st r).1 S ∧ BoundedAns S r.position (next q st r).2) :
    ∀ ps st rem acc, MemoOk st S → ROk S rem →
      MemoOk (seqGo next ps st rem acc).1 S
      ∧ BoundedAns S rem.position (seqGo next ps st rem acc).2 := by
  intro ps
  induction ps with
  | nil =>
    intro st rem acc hm hr
    refine ⟨hm, ?_⟩
    intro c hc
    injection hc with hc
    injection hc with hc
    subst hc
    exact ⟨Nat.le_refl _, hr⟩
  | cons q qs ih =>
    intro st rem acc hm hr
    rcases h1 : next q st rem with ⟨st1, a1⟩
    have hb1 := HB q st rem hm hr
    rw [h1] at hb1
    simp only [seqGo, h1]
    cases a1 with
    | res o =>
      cases o with
      | some c =>
        have hc := hb1.2 c rfl
        have := ih st1 c.remainder (acc ++ [c.value]) hb1.1 hc.2
        refine ⟨this.1, ?_⟩
        intro c2 hc2
        have h2 := this.2 c2 hc2
        exact ⟨Nat.le_trans hc.1 h2.1, h2.2⟩
      | none => exact ⟨hb1.1, boundedAns_res_none S _⟩
    | recursionError p ctx => exact ⟨hb1.1, boundedAns_other S _ _ (by intro o h; cases h)⟩
    | wsCrash => exact ⟨hb1.1, boundedAns_other S _ _ (by intro o h; cases h)⟩
    | out => exact ⟨hb1.1, boundedAns_other S _ _ (by intro o h; cases h)⟩

theorem firstGo_bounds (S : List Char) (next : Parser → State → State × Ans) (i : Nat)
    (HB : ∀ q st, MemoOk st S → MemoOk (next q st).1 S ∧ BoundedAns S i (next q st).2) :
    ∀ ps st, MemoOk st S →
      MemoOk (firstGo next ps st).1 S ∧ BoundedAns S i (firstGo next ps st).2 := by
  intro ps
  induction ps with
  | nil =>
    intro st hm
    exact ⟨hm, boundedAns_res_none S _⟩
  | cons q qs ih =>
    intro st hm
    rcases h1 : next q st with ⟨st1, a1⟩
    have hb1 := HB q st hm
    rw [h1] at hb1
    simp only [firstGo, h1]
    cases a1 with
    | res o =>
      cases o with
      | some c => exact ⟨hb1.1, hb1.2⟩
      | none => exact ih st1 hb1.1
    | recursionError p ctx => exact ⟨hb1.1, boundedAns_other S _ _ (by intro o h; cases h)⟩
    | wsCrash => exact ⟨hb1.1, boundedAns_other S _ _ (by intro o h; cases h)⟩
    | out => exact ⟨hb1.1, boundedAns_other S _ _ (by intro o h; cases h)⟩

theorem longestGo_bounds (S : List Char) (next : Parser → State → State × Ans) (i : Nat)
    (HB : ∀ q st, MemoOk st S → MemoOk (next q st).1 S ∧ BoundedAns S i (next q st).2) :
    ∀ ps st best, MemoOk st S → BoundedAns S i (.res best) →
      MemoOk (longestGo next ps st best).1 S
      ∧ BoundedAns S i (longestGo next ps st best).2 := by
  intro ps
  induction ps with
  | nil =>
    intro st best hm hb
    exact ⟨hm, hb⟩
  | cons q qs ih =>
    intro st best hm hb
    rcases h1 : next q st with ⟨st1, a1⟩
    have hb1 := HB q st hm
    rw [h1] at hb1
    simp only [longestGo, h1]
    cases a1 with
    | res o =>
      cases o with
      | some c =>
        refine ih st1 _ hb1.1 ?_
        intro c2 hc2
        injection hc2 with hc2
        cases best with
        | none =>
          injection hc2 with hc2
          subst hc2
          exact hb1.2 c rfl
        | some b =>
          simp only at hc2
          by_cases hcmp : c.remainder.position > b.remainder.position
          · rw [if_pos hcmp] at hc2
            injection hc2 with hc2
            subst hc2
            exact hb1.2 c rfl
          · rw [if_neg hcmp] at hc2
            injection hc2 with hc2
            subst hc2
            exact hb b rfl
      | none => exact ih st1 best hb1.1 hb
    | recursionError p ctx => exact ⟨hb1.1, boundedAns_other S _ _ (by intro o h; cases h)⟩
    | wsCrash => exact ⟨hb1.1, boundedAns_other S _ _ (by intro o h; cases h)⟩
    | out => exact ⟨hb1.1, boundedAns_other S _ _ (by intro o h; cases h)⟩

theorem repGo_bounds (S : List Char) (next : State → Reader → State × Ans) (selfP : Parser)
    (mn : Nat) (mx : Option Nat)
    (HB : ∀ st r, MemoOk st S → ROk S r →
      MemoOk (next st r).1 S ∧ BoundedAns S r.position (next st r).2) :
    ∀ k st acc rem, MemoOk st S → ROk S rem →
      MemoOk (repGo next selfP mn mx k st acc rem).1 S
      ∧ BoundedAns S rem.position (repGo next selfP mn mx k st acc rem).2 := by
  intro k
  induction k with
  | zero =>
    intro st acc rem hm hr
    exact ⟨hm, boundedAns_other S _ _ (by intro o h; cases h)⟩
  | succ n ih =>
    intro st acc rem hm hr
    have hexit : BoundedAns S rem.position (repExit acc mn rem) := by
      unfold repExit
      by_cases hmn : mn ≤ acc.length
      · rw [if_pos hmn]
        intro c hc
        injection hc with hc
        injection hc with hc
        subst hc
        exact ⟨Nat.le_refl _, hr⟩
      · rw [if_neg hmn]
        exact boundedAns_res_none S _
    by_cases hmx : underMax acc.length mx = true
    · rcases h1 : next st rem with ⟨st1, a1⟩
      have hb1 := HB st rem hm hr
      rw [h1] at hb1
      cases a1 with
      | res o =>
        cases o with
        | some c =>
          have hc := hb1.2 c rfl
          by_cases hpos : rem.position = c.remainder.position
          · have hred : repGo next selfP mn mx (n+1) st acc rem
                = (st1, .recursionError selfP rem) := by
              simp [repGo, hmx, h1, hpos]
            rw [hred]
            exact ⟨hb1.1, boundedAns_other S _ _ (by intro o h; cases h)⟩
          · have hred : repGo next selfP mn mx (n+1) st acc rem
                = repGo next selfP mn mx n st1 (acc ++ [c.value]) c.remainder := by
              simp [repGo, hmx, h1, hpos]
            rw [hred]
            have := ih st1 (acc ++ [c.value]) c.remainder hb1.1 hc.2
            refine ⟨this.1, ?_⟩
            intro c2 hc2
            have h2 := this.2 c2 hc2
            exact ⟨Nat.le_trans hc.1 h2.1, h2.2⟩
        | none =>
          have hred : repGo next selfP mn mx (n+1) st acc rem
              = (st1, repExit acc mn rem) := by
            simp [repGo, hmx, h1]
          rw [hred]
          exact ⟨hb1.1, hexit⟩
      | recursionError p ctx =>
        have hred : repGo next selfP mn mx (n+1) st acc rem
            = (st1, .recursionError p ctx) := by
          simp [repGo, hmx, h1]
        rw [hred]
        exact ⟨hb1.1, boundedAns_other S _ _ (by intro o h; cases h)⟩
      | wsCrash =>
        have hred : repGo next selfP mn mx (n+1) st acc rem = (st1, .wsCrash) := by
          simp [repGo, hmx, h1]
        rw [hred]
        exact ⟨hb1.1, boundedAns_other S _ _ (by intro o h; cases h)⟩
      | out =>
        have hred : repGo next selfP mn mx (n+1) st acc rem = (st1, .out) := by
          simp [repGo, hmx, h1]
        rw [hred]
        exact ⟨hb1.1, boundedAns_other S _ _ (by intro o h; cases h)⟩
    · have hred : repGo next selfP mn mx (n+1) st acc rem = (st, repExit acc mn rem) := by
        simp only [repGo]
        rw [if_neg (by simpa using hmx)]
      rw [hred]
      exact ⟨hm, hexit⟩

theorem rep1Go_bounds (S : List Char) (next : State → Reader → State × Ans) (selfP : Parser)
    (HB : ∀ st r, MemoOk st S → ROk S r →
      MemoOk (next st r).1 S ∧ BoundedAns S r.position (next st r).2) :
    ∀ k st acc rem, MemoOk st S → ROk S rem →
      MemoOk (rep1Go next selfP k st acc rem).1 S
      ∧ BoundedAns S rem.position (rep1Go next selfP k st acc rem).2 := by
  intro k
  induction k with
  | zero =>
    intro st acc rem hm hr
    exact ⟨hm, boundedAns_other S _ _ (by intro o h; cases h)⟩
  | succ n ih =>
    intro st acc rem hm hr
    rcases h1 : next st rem with ⟨st1, a1⟩
    have hb1 := HB st rem hm hr
    rw [h1] at hb1
    cases a1 with
    | res o =>
      cases o with
      | some c =>
        have hc := hb1.2 c rfl
        by_cases hpos : rem.position = c.remainder.position
        · have hred : rep1Go next selfP (n+1) st acc rem
              = (st1, .recursionError selfP rem) := by
            simp [rep1Go, h1, hpos]
          rw [hred]
          exact ⟨hb1.1, boundedAns_other S _ _ (by intro o h; cases h)⟩
        · have hred : rep1Go next selfP (n+1) st acc rem
              = rep1Go next selfP n st1 (acc ++ [c.value]) c.remainder := by
            simp [rep1Go, h1, hpos]
          rw [hred]
          have := ih st1 (acc ++ [c.value]) c.remainder hb1.1 hc.2
          refine ⟨this.1, ?_⟩
          intro c2 hc2
          have h2 := this.2 c2 hc2
          exact ⟨Nat.le_trans hc.1 h2.1, h2.2⟩
      | none =>
        have hred : rep1Go next selfP (n+1) st acc rem
            = (st1, .res (some ⟨rem, .list acc⟩)) := by
          simp [rep1Go, h1]
        rw [hred]
        refine ⟨hb1.1, ?_⟩
        intro c hc
        injection hc with hc
        injection hc with hc
        subst hc
        exact ⟨Nat.le_refl _, hr⟩
    | recursionError p ctx =>
      have hred : rep1Go next selfP (n+1) st acc rem = (st1, .recursionError p ctx) := by
        simp [rep1Go, h1]
      rw [hred]
      exact ⟨hb1.1, boundedAns_other S _ _ (by intro o h; cases h)⟩
    | wsCrash =>
      have hred : rep1Go next selfP (n+1) st acc rem = (st1, .wsCrash) := by
        simp [rep1Go, h1]
      rw [hred]
      exact ⟨hb1.1, boundedAns_other S _ _ (by intro o h; cases h)⟩
    | out =>
      have hred : rep1Go next selfP (n+1) st acc rem = (st1, .out) := by
        simp [rep1Go, h1]
      rw [hred]
      exact ⟨hb1.1, boundedAns_other S _ _ (by intro o h; cases h)⟩

end Parsita

namespace Parsita

theorem repsepGo_bounds (S : List Char) (nextP nextSep : State → Reader → State × Ans)
    (selfP : Parser) (mn : Nat) (mx : Option Nat)
    (HP : ∀ st r, MemoOk st S → ROk S r →
      MemoOk (nextP st r).1 S ∧ BoundedAns S r.position (nextP st r).2)
    (HS : ∀ st r, MemoOk st S → ROk S r →
      MemoOk (nextSep st r).1 S ∧ BoundedAns S r.position (nextSep st r).2) :
    ∀ k st acc rem, MemoOk st S → ROk S rem →
      MemoOk (repsepGo nextP nextSep selfP mn mx k st acc rem).1 S
      ∧ BoundedAns S rem.position (repsepGo nextP nextSep selfP mn mx k st acc rem).2 := by
  intro k
  induction k with
  | zero =>
    intro st acc rem hm hr
    exact ⟨hm, boundedAns_other S _ _ (by intro o h; cases h)⟩
  | succ n ih =>
    intro st acc rem hm hr
    have hexit : BoundedAns S rem.position (repExit acc mn rem) := by
      unfold repExit
      by_cases hmn : mn ≤ acc.length
      · rw [if_pos hmn]
        intro c hc
        injection hc with hc
        injection hc with hc
        subst hc
        exact ⟨Nat.le_refl _, hr⟩
      · rw [if_neg hmn]
        exact boundedAns_res_none S _
    by_cases hmx : underMax acc.length mx = true
    · rcases h1 : nextSep st rem with ⟨st1, a1⟩
      have hb1 := HS st rem hm hr
      rw [h1] at hb1
      cases a1 with
      | res o =>
        cases o with
        | some sc =>
          have hsc := hb1.2 sc rfl
          rcases h2 : nextP st1 sc.remainder with ⟨st2, a2⟩
          have hb2 := HP st1 sc.remainder hb1.1 hsc.2
          rw [h2] at hb2
          cases a2 with
          | res o2 =>
            cases o2 with
            | some pc =>
              have hpc := hb2.2 pc rfl
              by_cases hpos : rem.position = pc.remainder.position
              · have hred : repsepGo nextP nextSep selfP mn mx (n+1) st acc rem
                    = (st2, .recursionError selfP rem) := by
                  simp [repsepGo, hmx, h1, h2, hpos]
                rw [hred]
                exact ⟨hb2.1, boundedAns_other S _ _ (by intro o h; cases h)⟩
              · have hred : repsepGo nextP nextSep selfP mn mx (n+1) st acc rem
                    = repsepGo nextP nextSep selfP mn mx n st2 (acc ++ [pc.value])
                        pc.remainder := by
                  simp [repsepGo, hmx, h1, h2, hpos]
                rw [hred]
                have := ih st2 (acc ++ [pc.value]) pc.remainder hb2.1 hpc.2
                refine ⟨this.1, ?_⟩
                intro c2 hc2
                have h3 := this.2 c2 hc2
                exact ⟨Nat.le_trans (Nat.le_trans hsc.1 hpc.1) h3.1, h3.2⟩
            | none =>
              have hred : repsepGo nextP nextSep selfP mn mx (n+1) st acc rem
                  = (st2, repExit acc mn rem) := by
                simp [repsepGo, hmx, h1, h2]
              rw [hred]
              exact ⟨hb2.1, hexit⟩
          | recursionError p ctx =>
            have hred : repsepGo nextP nextSep selfP mn mx (n+1) st acc rem
                = (st2, .recursionError p ctx) := by
              simp [repsepGo, hmx, h1, h2]
            rw [hred]
            exact ⟨hb2.1, boundedAns_other S _ _ (by intro o h; cases h)⟩
          | wsCrash =>
            have hred : repsepGo nextP nextSep selfP mn mx (n+1) st acc rem
                = (st2, .wsCrash) := by
              simp [repsepGo, hmx, h1, h2]
            rw [hred]
            exact ⟨hb2.1, boundedAns_other S _ _ (by intro o h; cases h)⟩
          | out =>
            have hred : repsepGo nextP nextSep selfP mn mx (n+1) st acc rem
                = (st2, .out) := by
              simp [repsepGo, hmx, h1, h2]
            rw [hred]
            exact ⟨hb2.1, boundedAns_other S _ _ (by intro o h; cases h)⟩
        | none =>
          have hred : repsepGo nextP nextSep selfP mn mx (n+1) st acc rem
              = (st1, repExit acc mn rem) := by
            simp [repsepGo, hmx, h1]
          rw [hred]
          exact ⟨hb1.1, hexit⟩
      | recursionError p ctx =>
        have hred : repsepGo nextP nextSep selfP mn mx (n+1) st acc rem
            = (st1, .recursionError p ctx) := by
          simp [repsepGo, hmx, h1]
        rw [hred]
        exact ⟨hb1.1, boundedAns_other S _ _ (by intro o h; cases h)⟩
      | wsCrash =>
        have hred : repsepGo nextP nextSep selfP mn mx (n+1) st acc rem = (st1, .wsCrash) := by
          simp [repsepGo, hmx, h1]
        rw [hred]
        exact ⟨hb1.1, boundedAns_other S _ _ (by intro o h; cases h)⟩
      | out =>
        have hred : repsepGo nextP nextSep selfP mn mx (n+1) st acc rem = (st1, .out) := by
          simp [repsepGo, hmx, h1]
        rw [hred]
        exact ⟨hb1.1, boundedAns_other S _ _ (by intro o h; cases h)⟩
    · have hred : repsepGo nextP nextSep selfP mn mx (n+1) st acc rem
          = (st, repExit acc mn rem) := by
        simp only [repsepGo]
        rw [if_neg (by simpa using hmx)]
      rw [hred]
      exact ⟨hm, hexit⟩

theorem rep1sepGo_bounds (S : List Char) (nextP nextSep : State → Reader → State × Ans)
    (selfP : Parser)
    (HP : ∀ st r, MemoOk st S → ROk S r →
      MemoOk (nextP st r).1 S ∧ BoundedAns S r.position (nextP st r).2)
    (HS : ∀ st r, MemoOk st S → ROk S r →
      MemoOk (nextSep st r).1 S ∧ BoundedAns S r.position (nextSep st r).2) :
    ∀ k st acc rem, MemoOk st S → ROk S rem →
      MemoOk (rep1sepGo nextP nextSep selfP k st acc rem).1 S
      ∧ BoundedAns S rem.position (rep1sepGo nextP nextSep selfP k st acc rem).2 := by
  intro k
  induction k with
  | zero =>
    intro st acc rem hm hr
    exact ⟨hm, boundedAns_other S _ _ (by intro o h; cases h)⟩
  | succ n ih =>
    intro st acc rem hm hr
    have hself : BoundedAns S rem.position (.res (some ⟨rem, .list acc⟩)) := by
      intro c hc
      injection hc with hc
      injection hc with hc
      subst hc
      exact ⟨Nat.le_refl _, hr⟩
    rcases h1 : nextSep st rem with ⟨st1, a1⟩
    have hb1 := HS st rem hm hr
    rw [h1] at hb1
    cases a1 with
    | res o =>
      cases o with
      | some sc =>
        have hsc := hb1.2 sc rfl
        rcases h2 : nextP st1 sc.remainder with ⟨st2, a2⟩
        have hb2 := HP st1 sc.remainder hb1.1 hsc.2
        rw [h2] at hb2
        cases a2 with
        | res o2 =>
          cases o2 with
          | some pc =>
            have hpc := hb2.2 pc rfl
            by_cases hpos : rem.position = pc.remainder.position
            · have hred : rep1sepGo nextP nextSep selfP (n+1) st acc rem
                  = (st2, .recursionError selfP rem) := by
                simp [rep1sepGo, h1, h2, hpos]
              rw [hred]
              exact ⟨hb2.1, boundedAns_other S _ _ (by intro o h; cases h)⟩
            · have hred : rep1sepGo nextP nextSep selfP (n+1) st acc rem
                  = rep1sepGo nextP nextSep selfP n st2 (acc ++ [pc.value]) pc.remainder := by
                simp [rep1sepGo, h1, h2, hpos]
              rw [hred]
              have := ih st2 (acc ++ [pc.value]) pc.remainder hb2.1 hpc.2
              refine ⟨this.1, ?_⟩
              intro c2 hc2
              have h3 := this.2 c2 hc2
              exact ⟨Nat.le_trans (Nat.le_trans hsc.1 hpc.1) h3.1, h3.2⟩
          | none =>
            have hred : rep1sepGo nextP nextSep selfP (n+1) st acc rem
                = (st2, .res (some ⟨rem, .list acc⟩)) := by
              simp [rep1sepGo, h1, h2]
            rw [hred]
            exact ⟨hb2.1, hself⟩
        | recursionError p ctx =>
          have hred : rep1sepGo nextP nextSep selfP (n+1) st acc rem
              = (st2, .recursionError p ctx) := by
            simp [rep1sepGo, h1, h2]
          rw [hred]
          exact ⟨hb2.1, boundedAns_other S _ _ (by intro o h; cases h)⟩
        | wsCrash =>
          have hred : rep1sepGo nextP nextSep selfP (n+1) st acc rem = (st2, .wsCrash) := by
            simp [rep1sepGo, h1, h2]
          rw [hred]
          exact ⟨hb2.1, boundedAns_other S _ _ (by intro o h; cases h)⟩
        | out =>
          have hred : rep1sepGo nextP nextSep selfP (n+1) st acc rem = (st2, .out) := by
            simp [rep1sepGo, h1, h2]
          rw [hred]
          exact ⟨hb2.1, boundedAns_other S _ _ (by intro o h; cases h)⟩
      | none =>
        have hred : rep1sepGo nextP nextSep selfP (n+1) st acc rem
            = (st1, .res (some ⟨rem, .list acc⟩)) := by
          simp [rep1sepGo, h1]
        rw [hred]
        exact ⟨hb1.1, hself⟩
    | recursionError p ctx =>
      have hred : rep1sepGo nextP nextSep selfP (n+1) st acc rem
          = (st1, .recursionError p ctx) := by
        simp [rep1sepGo, h1]
      rw [hred]
      exact ⟨hb1.1, boundedAns_other S _ _ (by intro o h; cases h)⟩
    | wsCrash =>
      have hred : rep1sepGo nextP nextSep selfP (n+1) st acc rem = (st1, .wsCrash) := by
        simp [rep1sepGo, h1]
      rw [hred]
      exact ⟨hb1.1, boundedAns_other S _ _ (by intro o h; cases h)⟩
    | out =>
      have hred : rep1sepGo nextP nextSep selfP (n+1) st acc rem = (st1, .out) := by
        simp [rep1sepGo, h1]
      rw [hred]
      exact ⟨hb1.1, boundedAns_other S _ _ (by intro o h; cases h)⟩

theorem untilGo_bounds (S : List Char) (next : State → Reader → State × Ans)
    (HB : ∀ st r, MemoOk st S → ROk S r →
      MemoOk (next st r).1 S ∧ BoundedAns S r.position (next st r).2) :
    ∀ k (start : Nat) st r, MemoOk st S → ROk S r →
      MemoOk (untilGo next start k st r).1 S
      ∧ BoundedAns S r.position (untilGo next start k st r).2 := by
  intro k
  induction k with
  | zero =>
    intro start st r hm hr
    exact ⟨hm, boundedAns_other S _ _ (by intro o h; cases h)⟩
  | succ n ih =>
    intro start st r hm hr
    rcases h1 : next st r with ⟨st1, a1⟩
    have hb1 := HB st r hm hr
    rw [h1] at hb1
    cases a1 with
    | res o =>
      cases o with
      | some c =>
        have hred : untilGo next start (n+1) st r
            = (st1, .res (some ⟨r, .str ((r.source.drop start).take (r.position - start))⟩)) := by
          simp [untilGo, h1]
        rw [hred]
        refine ⟨hb1.1, ?_⟩
        intro c2 hc2
        injection hc2 with hc2
        injection hc2 with hc2
        subst hc2
        exact ⟨Nat.le_refl _, hr⟩
      | none =>
        by_cases hf : r.finished = true
        · have hred : untilGo next start (n+1) st r = (st1, .res none) := by
            simp [untilGo, h1, hf]
          rw [hred]
          exact ⟨hb1.1, boundedAns_res_none S _⟩
        · have hred : untilGo next start (n+1) st r = untilGo next start n st1 r.rest := by
            simp [untilGo, h1, hf]
          rw [hred]
          have hrest : ROk S r.rest := by
            refine ⟨hr.1, ?_⟩
            have : r.position < r.source.length := by
              unfold Reader.finished at hf
              simpa using hf
            show r.position + 1 ≤ S.length
            rw [← hr.1]
            exact this
          have := ih start st1 r.rest hb1.1 hrest
          refine ⟨this.1, ?_⟩
          intro c2 hc2
          have h2 := this.2 c2 hc2
          exact ⟨Nat.le_trans (Nat.le_succ _) h2.1, h2.2⟩
    | recursionError p ctx =>
      have hred : untilGo next start (n+1) st r = (st1, .recursionError p ctx) := by
        simp [untilGo, h1]
      rw [hred]
      exact ⟨hb1.1, boundedAns_other S _ _ (by intro o h; cases h)⟩
    | wsCrash =>
      have hred : untilGo next start (n+1) st r = (st1, .wsCrash) := by
        simp [untilGo, h1]
      rw [hred]
      exact ⟨hb1.1, boundedAns_other S _ _ (by intro o h; cases h)⟩
    | out =>
      have hred : untilGo next start (n+1) st r = (st1, .out) := by
        simp [untilGo, h1]
      rw [hred]
      exact ⟨hb1.1, boundedAns_other S _ _ (by intro o h; cases h)⟩

end Parsita

namespace Parsita

theorem pconsume_bounds (S : List Char) (next : Parser → State → Reader → State × Ans)
    (HB : ∀ q st r, MemoOk st S → ROk S r →
      MemoOk (next q st r).1 S ∧ BoundedAns S r.position (next q st r).2) :
    ∀ p st r, MemoOk st S → ROk S r →
      MemoOk (pconsume next p st r).1 S ∧ BoundedAns S r.position (pconsume next p st r).2 := by
  intro p st r hm hr
  have HWS : ∀ (ws : Option Parser),
      ∀ w, ws.map (fun w st1 r1 => next w st1 r1) = some w →
      ∀ st1 r1, MemoOk st1 S → ROk S r1 →
        MemoOk (w st1 r1).1 S ∧ BoundedAns S r1.position (w st1 r1).2 := by
    intro ws w hmap st1 r1 hm1 hr1
    cases ws with
    | none => cases hmap
    | some w0 =>
      injection hmap with hmap
      rw [← hmap]
      exact HB w0 st1 r1 hm1 hr1
  cases p with
  | literal i pattern ws => exact litGo_bounds S _ pattern (HWS ws) st r hm hr
  | regex i g ws => exact regGo_bounds S _ g (HWS ws) st r hm hr
  | endOfSource i =>
    by_cases hf : r.finished = true
    · have hred : pconsume next (.endOfSource i) st r = (st, .res (some ⟨r, .unit⟩)) := by
        simp [pconsume, hf]
      rw [hred]
      refine ⟨hm, ?_⟩
      intro c hc
      injection hc with hc
      injection hc with hc
      subst hc
      exact ⟨Nat.le_refl _, hr⟩
    · have hred : pconsume next (.endOfSource i) st r
          = (st.register_failure "end of source" r, .res none) := by
        simp [pconsume, hf]
      rw [hred]
      exact ⟨memoOk_register st S _ r hm, boundedAns_res_none S _⟩
  | anyElem i =>
    by_cases hf : r.finished = true
    · have hred : pconsume next (.anyElem i) st r
          = (st.register_failure "anything" r, .res none) := by
        simp [pconsume, hf]
      rw [hred]
      exact ⟨memoOk_register st S _ r hm, boundedAns_res_none S _⟩
    · have hred : pconsume next (.anyElem i) st r
          = (st, .res (some ⟨r.rest, .str [r.first]⟩)) := by
        simp [pconsume, hf]
      rw [hred]
      refine ⟨hm, ?_⟩
      intro c hc
      injection hc with hc
      injection hc with hc
      subst hc
      have : r.position < r.source.length := by
        unfold Reader.finished at hf
        simpa using hf
      refine ⟨Nat.le_succ _, hr.1, ?_⟩
      show r.position + 1 ≤ S.length
      rw [← hr.1]
      exact this
  | successP i v =>
    refine ⟨hm, ?_⟩
    intro c hc
    injection hc with hc
    injection hc with hc
    subst hc
    exact ⟨Nat.le_refl _, hr⟩
  | failureP i msg => exact ⟨memoOk_register st S _ r hm, boundedAns_res_none S _⟩
  | optional i q =>
    rcases h1 : next q st r with ⟨st1, a1⟩
    have hb1 := HB q st r hm hr
    rw [h1] at hb1
    cases a1 with
    | res o =>
      cases o with
      | some c =>
        have hc := hb1.2 c rfl
        have hred : pconsume next (.optional i q) st r
            = (st1, .res (some ⟨c.remainder, .list [c.value]⟩)) := by
          simp [pconsume, h1]
        rw [hred]
        refine ⟨hb1.1, ?_⟩
        intro c2 hc2
        injection hc2 with hc2
        injection hc2 with hc2
        subst hc2
        exact ⟨hc.1, hc.2⟩
      | none =>
        have hred : pconsume next (.optional i q) st r = (st1, .res (some ⟨r, .list []⟩)) := by
          simp [pconsume, h1]
        rw [hred]
        refine ⟨hb1.1, ?_⟩
        intro c2 hc2
        injection hc2 with hc2
        injection hc2 with hc2
        subst hc2
        exact ⟨Nat.le_refl _, hr⟩
    | recursionError p2 ctx =>
      have hred : pconsume next (.optional i q) st r = (st1, .recursionError p2 ctx) := by
        simp [pconsume, h1]
      rw [hred]
      exact ⟨hb1.1, boundedAns_other S _ _ (by intro o h; cases h)⟩
    | wsCrash =>
      have hred : pconsume next (.optional i q) st r = (st1, .wsCrash) := by
        simp [pconsume, h1]
      rw [hred]
      exact ⟨hb1.1, boundedAns_other S _ _ (by intro o h; cases h)⟩
    | out =>
      have hred : pconsume next (.optional i q) st r = (st1, .out) := by
        simp [pconsume, h1]
      rw [hred]
      exact ⟨hb1.1, boundedAns_other S _ _ (by intro o h; cases h)⟩
  | firstAlternative i ps =>
    exact firstGo_bounds S _ r.position
      (fun q st1 hm1 => HB q st1 r hm1 hr) ps st hm
  | longestAlternative i ps =>
    exact longestGo_bounds S _ r.position (fun q st1 hm1 => HB q st1 r hm1 hr) ps st none
      hm (boundedAns_res_none S _)
  | sequential i ps => exact seqGo_bounds S next HB ps st r [] hm hr
  | discardLeft i l rp =>
    rcases h1 : next l st r with ⟨st1, a1⟩
    have hb1 := HB l st r hm hr
    rw [h1] at hb1
    cases a1 with
    | res o =>
      cases o with
      | some c =>
        have hc := hb1.2 c rfl
        have hred : pconsume next (.discardLeft i l rp) st r = next rp st1 c.remainder := by
          simp [pconsume, h1]
        rw [hred]
        have := HB rp st1 c.remainder hb1.1 hc.2
        refine ⟨this.1, ?_⟩
        intro c2 hc2
        have h2 := this.2 c2 hc2
        exact ⟨Nat.le_trans hc.1 h2.1, h2.2⟩
      | none =>
        have hred : pconsume next (.discardLeft i l rp) st r = (st1, .res none) := by
          simp [pconsume, h1]
        rw [hred]
        exact ⟨hb1.1, boundedAns_res_none S _⟩
    | recursionError p2 ctx =>
      have hred : pconsume next (.discardLeft i l rp) st r = (st1, .recursionError p2 ctx) := by
        simp [pconsume, h1]
      rw [hred]
      exact ⟨hb1.1, boundedAns_other S _ _ (by intro o h; cases h)⟩
    | wsCrash =>
      have hred : pconsume next (.discardLeft i l rp) st r = (st1, .wsCrash) := by
        simp [pconsume, h1]
      rw [hred]
      exact ⟨hb1.1, boundedAns_other S _ _ (by intro o h; cases h)⟩
    | out =>
      have hred : pconsume next (.discardLeft i l rp) st r = (st1, .out) := by
        simp [pconsume, h1]
      rw [hred]
      exact ⟨hb1.1, boundedAns_other S _ _ (by intro o h; cases h)⟩
  | discardRight i l rp =>
    rcases h1 : next l st r with ⟨st1, a1⟩
    have hb1 := HB l st r hm hr
    rw [h1] at hb1
    cases a1 with
    | res o =>
      cases o with
      | some c1 =>
        have hc1 := hb1.2 c1 rfl
        rcases h2 : next rp st1 c1.remainder with ⟨st2, a2⟩
        have hb2 := HB rp st1 c1.remainder hb1.1 hc1.2
        rw [h2] at hb2
        cases a2 with
        | res o2 =>
          cases o2 with
          | some c2 =>
            have hc2 := hb2.2 c2 rfl
            have hred : pconsume next (.discardRight i l rp) st r
                = (st2, .res (some ⟨c2.remainder, c1.value⟩)) := by
              simp [pconsume, h1, h2]
            rw [hred]
            refine ⟨hb2.1, ?_⟩
            intro c3 hc3
            injection hc3 with hc3
            injection hc3 with hc3
            subst hc3
            exact ⟨Nat.le_trans hc1.1 hc2.1, hc2.2⟩
          | none =>
            have hred : pconsume next (.discardRight i l rp) st r = (st2, .res none) := by
              simp [pconsume, h1, h2]
            rw [hred]
            exact ⟨hb2.1, boundedAns_res_none S _⟩
        | recursionError p2 ctx =>
          have hred : pconsume next (.discardRight i l rp) st r
              = (st2, .recursionError p2 ctx) := by
            simp [pconsume, h1, h2]
          rw [hred]
          exact ⟨hb2.1, boundedAns_other S _ _ (by intro o h; cases h)⟩
        | wsCrash =>
          have hred : pconsume next (.discardRight i l rp) st r = (st2, .wsCrash) := by
            simp [pconsume, h1, h2]
          rw [hred]
          exact ⟨hb2.1, boundedAns_other S _ _ (by intro o h; cases h)⟩
        | out =>
          have hred : pconsume next (.discardRight i l rp) st r = (st2, .out) := by
            simp [pconsume, h1, h2]
          rw [hred]
          exact ⟨hb2.1, boundedAns_other S _ _ (by intro o h; cases h)⟩
      | none =>
        have hred : pconsume next (.discardRight i l rp) st r = (st1, .res none) := by
          simp [pconsume, h1]
        rw [hred]
        exact ⟨hb1.1, boundedAns_res_none S _⟩
    | recursionError p2 ctx =>
      have hred : pconsume next (.discardRight i l rp) st r = (st1, .recursionError p2 ctx) := by
        simp [pconsume, h1]
      rw [hred]
      exact ⟨hb1.1, boundedAns_other S _ _ (by intro o h; cases h)⟩
    | wsCrash =>
      have hred : pconsume next (.discardRight i l rp) st r = (st1, .wsCrash) := by
        simp [pconsume, h1]
      rw [hred]
      exact ⟨hb1.1, boundedAns_other S _ _ (by intro o h; cases h)⟩
    | out =>
      have hred : pconsume next (.discardRight i l rp) st r = (st1, .out) := by
        simp [pconsume, h1]
      rw [hred]
      exact ⟨hb1.1, boundedAns_other S _ _ (by intro o h; cases h)⟩
  | conversion i q f =>
    rcases h1 : next q st r with ⟨st1, a1⟩
    have hb1 := HB q st r hm hr
    rw [h1] at hb1
    cases a1 with
    | res o =>
      cases o with
      | some c =>
        have hc := hb1.2 c rfl
        have hred : pconsume next (.conversion i q f) st r
            = (st1, .res (some ⟨c.remainder, f c.value⟩)) := by
          simp [pconsume, h1]
        rw [hred]
        refine ⟨hb1.1, ?_⟩
        intro c2 hc2
        injection hc2 with hc2
        injection hc2 with hc2
        subst hc2
        exact ⟨hc.1, hc.2⟩
      | none =>
        have hred : pconsume next (.conversion i q f) st r = (st1, .res none) := by
          simp [pconsume, h1]
        rw [hred]
        exact ⟨hb1.1, boundedAns_res_none S _⟩
    | recursionError p2 ctx =>
      have hred : pconsume next (.conversion i q f) st r = (st1, .recursionError p2 ctx) := by
        simp [pconsume, h1]
      rw [hred]
      exact ⟨hb1.1, boundedAns_other S _ _ (by intro o h; cases h)⟩
    | wsCrash =>
      have hred : pconsume next (.conversion i q f) st r = (st1, .wsCrash) := by
        simp [pconsume, h1]
      rw [hred]
      exact ⟨hb1.1, boundedAns_other S _ _ (by intro o h; cases h)⟩
    | out =>
      have hred : pconsume next (.conversion i q f) st r = (st1, .out) := by
        simp [pconsume, h1]
      rw [hred]
      exact ⟨hb1.1, boundedAns_other S _ _ (by intro o h; cases h)⟩
  | repeated i q mn mx =>
    exact repGo_bounds S _ (.repeated i q mn mx) mn mx (fun st1 r1 => HB q st1 r1)
      _ st [] r hm hr
  | repeatedOnce i q =>
    rcases h1 : next q st r with ⟨st1, a1⟩
    have hb1 := HB q st r hm hr
    rw [h1] at hb1
    cases a1 with
    | res o =>
      cases o with
      | some c =>
        have hc := hb1.2 c rfl
        have hred : pconsume next (.repeatedOnce i q) st r
            = rep1Go (fun st1 r1 => next q st1 r1) (.repeatedOnce i q)
                (r.source.length + 1) st1 [c.value] c.remainder := by
          simp [pconsume, h1]
        rw [hred]
        have := rep1Go_bounds S _ (.repeatedOnce i q) (fun st1 r1 => HB q st1 r1)
          (r.source.length + 1) st1 [c.value] c.remainder hb1.1 hc.2
        refine ⟨this.1, ?_⟩
        intro c2 hc2
        have h2 := this.2 c2 hc2
        exact ⟨Nat.le_trans hc.1 h2.1, h2.2⟩
      | none =>
        have hred : pconsume next (.repeatedOnce i q) st r = (st1, .res none) := by
          simp [pconsume, h1]
        rw [hred]
        exact ⟨hb1.1, boundedAns_res_none S _⟩
    | recursionError p2 ctx =>
      have hred : pconsume next (.repeatedOnce i q) st r = (st1, .recursionError p2 ctx) := by
        simp [pconsume, h1]
      rw [hred]
      exact ⟨hb1.1, boundedAns_other S _ _ (by intro o h; cases h)⟩
    | wsCrash =>
      have hred : pconsume next (.repeatedOnce i q) st r = (st1, .wsCrash) := by
        simp [pconsume, h1]
      rw [hred]
      exact ⟨hb1.1, boundedAns_other S _ _ (by intro o h; cases h)⟩
    | out =>
      have hred : pconsume next (.repeatedOnce i q) st r = (st1, .out) := by
        simp [pconsume, h1]
      rw [hred]
      exact ⟨hb1.1, boundedAns_other S _ _ (by intro o h; cases h)⟩
  | repeatedSeparated i q sep mn mx =>
    rcases h1 : next q st r with ⟨st1, a1⟩
    have hb1 := HB q st r hm hr
    rw [h1] at hb1
    cases a1 with
    | res o =>
      cases o with
      | some c =>
        have hc := hb1.2 c rfl
        have hred : pconsume next (.repeatedSeparated i q sep mn mx) st r
            = repsepGo (fun st1 r1 => next q st1 r1) (fun st1 r1 => next sep st1 r1)
                (.repeatedSeparated i q sep mn mx) mn mx (r.source.length + 1) st1
                [c.value] c.remainder := by
          simp [pconsume, h1]
        rw [hred]
        have := repsepGo_bounds S _ _ (.repeatedSeparated i q sep mn mx) mn mx
          (fun st1 r1 => HB q st1 r1) (fun st1 r1 => HB sep st1 r1)
          (r.source.length + 1) st1 [c.value] c.remainder hb1.1 hc.2
        refine ⟨this.1, ?_⟩
        intro c2 hc2
        have h2 := this.2 c2 hc2
        exact ⟨Nat.le_trans hc.1 h2.1, h2.2⟩
      | none =>
        have hred : pconsume next (.repeatedSeparated i q sep mn mx) st r
            = (st1, repExit [] mn r) := by
          simp [pconsume, h1]
        rw [hred]
        refine ⟨hb1.1, ?_⟩
        unfold repExit
        by_cases hmn : mn ≤ ([] : List Value).length
        · rw [if_pos hmn]
          intro c2 hc2
          injection hc2 with hc2
          injection hc2 with hc2
          subst hc2
          exact ⟨Nat.le_refl _, hr⟩
        · rw [if_neg hmn]
          exact boundedAns_res_none S _
    | recursionError p2 ctx =>
      have hred : pconsume next (.repeatedSeparated i q sep mn mx) st r
          = (st1, .recursionError p2 ctx) := by
        simp [pconsume, h1]
      rw [hred]
      exact ⟨hb1.1, boundedAns_other S _ _ (by intro o h; cases h)⟩
    | wsCrash =>
      have hred : pconsume next (.repeatedSeparated i q sep mn mx) st r = (st1, .wsCrash) := by
        simp [pconsume, h1]
      rw [hred]
      exact ⟨hb1.1, boundedAns_other S _ _ (by intro o h; cases h)⟩
    | out =>
      have hred : pconsume next (.repeatedSeparated i q sep mn mx) st r = (st1, .out) := by
        simp [pconsume, h1]
      rw [hred]
      exact ⟨hb1.1, boundedAns_other S _ _ (by intro o h; cases h)⟩
  | repeatedOnceSeparated i q sep =>
    rcases h1 : next q st r with ⟨st1, a1⟩
    have hb1 := HB q st r hm hr
    rw [h1] at hb1
    cases a1 with
    | res o =>
      cases o with
      | some c =>
        have hc := hb1.2 c rfl
        have hred : pconsume next (.repeatedOnceSeparated i q sep) st r
            = rep1sepGo (fun st1 r1 => next q st1 r1) (fun st1 r1 => next sep st1 r1)
                (.repeatedOnceSeparated i q sep) (r.source.length + 1) st1
                [c.value] c.remainder := by
          simp [pconsume, h1]
        rw [hred]
        have := rep1sepGo_bounds S _ _ (.repeatedOnceSeparated i q sep)
          (fun st1 r1 => HB q st1 r1) (fun st1 r1 => HB sep st1 r1)
          (r.source.length + 1) st1 [c.value] c.remainder hb1.1 hc.2
        refine ⟨this.1, ?_⟩
        intro c2 hc2
        have h2 := this.2 c2 hc2
        exact ⟨Nat.le_trans hc.1 h2.1, h2.2⟩
      | none =>
        have hred : pconsume next (.repeatedOnceSeparated i q sep) st r = (st1, .res none) := by
          simp [pconsume, h1]
        rw [hred]
        exact ⟨hb1.1, boundedAns_res_none S _⟩
    | recursionError p2 ctx =>
      have hred : pconsume next (.repeatedOnceSeparated i q sep) st r
          = (st1, .recursionError p2 ctx) := by
        simp [pconsume, h1]
      rw [hred]
      exact ⟨hb1.1, boundedAns_other S _ _ (by intro o h; cases h)⟩
    | wsCrash =>
      have hred : pconsume next (.repeatedOnceSeparated i q sep) st r = (st1, .wsCrash) := by
        simp [pconsume, h1]
      rw [hred]
      exact ⟨hb1.1, boundedAns_other S _ _ (by intro o h; cases h)⟩
    | out =>
      have hred : pconsume next (.repeatedOnceSeparated i q sep) st r = (st1, .out) := by
        simp [pconsume, h1]
      rw [hred]
      exact ⟨hb1.1, boundedAns_other S _ _ (by intro o h; cases h)⟩
  | untilP i q =>
    exact untilGo_bounds S (fun st1 r1 => next q st1 r1) (fun st1 r1 => HB q st1 r1)
      (r.source.length + 1 - r.position) r.position st r hm hr

theorem consume_bounds (S : List Char) (m : Bool) :
    ∀ (n : Nat) (p : Parser) (st : State) (r : Reader),
      MemoOk st S → ROk S r →
      MemoOk (consume m n p st r).1 S ∧ BoundedAns S r.position (consume m n p st r).2 := by
  intro n
  induction n with
  | zero =>
    intro p st r hm hr
    exact ⟨hm, boundedAns_other S _ _ (by intro o h; cases h)⟩
  | succ n ih =>
    intro p st r hm hr
    cases m with
    | false =>
      exact pconsume_bounds S _ (fun q st1 r1 => ih q st1 r1) p st r hm hr
    | true =>
      rcases hlook : st.memo.lookup (p.pid, r.position) with _ | v
      · set stm : State :=
          { st with
              memo := ((p.pid, r.position), none) :: st.memo,
              trace := st.trace ++ [(p.pid, r.position)] } with hstm
        have hmm : MemoOk stm S := by
          intro k c hk
          rw [hstm] at hk
          simp only [List.lookup_cons] at hk
          by_cases hek : (k == (p.pid, r.position)) = true
          · rw [hek] at hk
            cases hk
          · rw [Bool.eq_false_iff.mpr hek] at hk
            exact hm k c hk
        rcases hbody : pconsume (fun q st1 r1 => consume true n q st1 r1) p stm r
            with ⟨st2, a⟩
        have hb2 := pconsume_bounds S _ (fun q st1 r1 => ih q st1 r1) p stm r hmm hr
        rw [hbody] at hb2
        cases a with
        | res o =>
          have hred : consume true (n+1) p st r
              = ({ st2 with memo := ((p.pid, r.position), o) :: st2.memo }, .res o) := by
            simp [consume, hlook, hbody]
          rw [hred]
          constructor
          · intro k c hk
            simp only [List.lookup_cons] at hk
            by_cases hek : (k == (p.pid, r.position)) = true
            · rw [hek] at hk
              injection hk with hk
              subst hk
              have := hb2.2 c rfl
              have hkeq : k = (p.pid, r.position) := by
                have := beq_iff_eq.mp hek
                exact this
              rw [hkeq]
              exact ⟨this.1, this.2⟩
            · rw [Bool.eq_false_iff.mpr hek] at hk
              exact hb2.1 k c hk
          · exact hb2.2
        | recursionError p2 ctx =>
          have hred : consume true (n+1) p st r = (st2, .recursionError p2 ctx) := by
            simp [consume, hlook, hbody]
          rw [hred]
          exact ⟨hb2.1, boundedAns_other S _ _ (by intro o h; cases h)⟩
        | wsCrash =>
          have hred : consume true (n+1) p st r = (st2, .wsCrash) := by
            simp [consume, hlook, hbody]
          rw [hred]
          exact ⟨hb2.1, boundedAns_other S _ _ (by intro o h; cases h)⟩
        | out =>
          have hred : consume true (n+1) p st r = (st2, .out) := by
            simp [consume, hlook, hbody]
          rw [hred]
          exact ⟨hb2.1, boundedAns_other S _ _ (by intro o h; cases h)⟩
      · have hred : consume true (n+1) p st r = (st, .res v) := by
          simp [consume, hlook]
        rw [hred]
        refine ⟨hm, ?_⟩
        intro c hc
        injection hc with hc
        subst hc
        exact hm (p.pid, r.position) c hlook

end Parsita

namespace Parsita

/-- A state whose memo claims the parser with id 5 consumed from position 0
to position 5 of a two-character source. -/
def poisonedAny : State :=
  { State.empty with memo := [((5, 0), some ⟨⟨"ab".toList, 5⟩, .unit⟩)] }

/-- C8 counterexample: the claim quantifies over *every* state, but
`consume` consults the memo first, so a state carrying an out-of-range
cached `Continue` makes `consume` succeed with a remainder position (5)
beyond the end of the source (length 2), violating `j ≤ n`. -/
theorem c8_counterexample :
    consume true 10 (.anyElem 5) poisonedAny ⟨"ab".toList, 0⟩
      = (poisonedAny, .res (some ⟨⟨"ab".toList, 5⟩, .unit⟩))
    ∧ ¬ (5 ≤ "ab".toList.length) := ⟨rfl, by decide⟩

/-- C8, amended: for every parser of the combinator family, every reader at
position `i ≤ n` over a source of length `n`, and every state whose memo is
position-consistent and bounded for that source (`MemoOk` — which holds for
every state arising in a parse of that source, the fresh state included):
whenever `consume` succeeds with a remainder at position `j`, then
`i ≤ j ≤ n`, the remainder shares the source, and the output state's memo
is again bounded. -/
theorem c8_positions (S : List Char) (m : Bool) (n : Nat) (p : Parser) (st : State)
    (r : Reader) (st' : State) (c : Continue)
    (hm : MemoOk st S) (hsrc : r.source = S) (hpos : r.position ≤ S.length)
    (hrun : consume m n p st r = (st', .res (some c))) :
    r.position ≤ c.remainder.position
    ∧ c.remainder.position ≤ S.length
    ∧ c.remainder.source = S
    ∧ MemoOk st' S := by
  have h := consume_bounds S m n p st r hm ⟨hsrc, hpos⟩
  rw [hrun] at h
  obtain ⟨h1, h2⟩ := h
  have h3 := h2 c rfl
  exact ⟨h3.1, h3.2.2, h3.2.1, h1⟩

theorem c8_witness :
    (0 : Nat) ≤ 1
    ∧ 1 ≤ ("ab".toList).length
    ∧ (⟨"ab".toList, 1⟩ : Reader).source = "ab".toList
    ∧ MemoOk (consume true 3 (.anyElem 0) State.empty ⟨"ab".toList, 0⟩).1 "ab".toList := by
  have h := c8_positions ("ab".toList) true 3 (.anyElem 0) State.empty ⟨"ab".toList, 0⟩
    (consume true 3 (.anyElem 0) State.empty ⟨"ab".toList, 0⟩).1
    ⟨⟨"ab".toList, 1⟩, .str ['a']⟩
    (by intro k c hk; cases hk) rfl (by decide) rfl
  exact ⟨h.1, h.2.1, h.2.2.1, h.2.2.2⟩

end Parsita

namespace Parsita

/-! ### C4: memoization does not change observable results.

First, structural facts about parser trees: depth, subterm membership, and
the injectivity of node identities in a well-formed tree (distinct Python
objects have distinct identities; `(allIds p).Nodup` states exactly that
about a tree). -/

mutual
def pdepth : Parser → Nat
  | .literal _ _ ws => pdepthO ws + 1
  | .regex _ _ ws => pdepthO ws + 1
  | .endOfSource _ => 1
  | .anyElem _ => 1
  | .successP _ _ => 1
  | .failureP _ _ => 1
  | .optional _ q => pdepth q + 1
  | .firstAlternative _ ps => pdepthL ps + 1
  | .longestAlternative _ ps => pdepthL ps + 1
  | .sequential _ ps => pdepthL ps + 1
  | .discardLeft _ l rp => max (pdepth l) (pdepth rp) + 1
  | .discardRight _ l rp => max (pdepth l) (pdepth rp) + 1
  | .conversion _ q _ => pdepth q + 1
  | .repeated _ q _ _ => pdepth q + 1
  | .repeatedOnce _ q => pdepth q + 1
  | .repeatedSeparated _ q sep _ _ => max (pdepth q) (pdepth sep) + 1
  | .repeatedOnceSeparated _ q sep => max (pdepth q) (pdepth sep) + 1
  | .untilP _ q => pdepth q + 1

def pdepthO : Option Parser → Nat
  | none => 0
  | some q => pdepth q

def pdepthL : List Parser → Nat
  | [] => 0
  | q :: qs => max (pdepth q) (pdepthL qs)
end

mutual
theorem mem_subterms_depth : ∀ (p a : Parser), a ∈ subterms p → pdepth a ≤ pdepth p
  | .literal i pat ws, a => by
    intro h
    rw [subterms] at h
    rcases List.mem_cons.mp h with h | h
    · subst h; exact Nat.le_refl _
    · exact Nat.le_trans (mem_subtermsO_depth ws a h) (Nat.le_succ_of_le (Nat.le_refl _))
  | .regex i g ws, a => by
    intro h
    rw [subterms] at h
    rcases List.mem_cons.mp h with h | h
    · subst h; exact Nat.le_refl _
    · exact Nat.le_trans (mem_subtermsO_depth ws a h) (Nat.le_succ_of_le (Nat.le_refl _))
  | .endOfSource i, a => by
    intro h
    rw [subterms] at h
    rcases List.mem_cons.mp h with h | h
    · subst h; exact Nat.le_refl _
    · cases h
  | .anyElem i, a => by
    intro h
    rw [subterms] at h
    rcases List.mem_cons.mp h with h | h
    · subst h; exact Nat.le_refl _
    · cases h
  | .successP i v, a => by
    intro h
    rw [subterms] at h
    rcases List.mem_cons.mp h with h | h
    · subst h; exact Nat.le_refl _
    · cases h
  | .failureP i e, a => by
    intro h
    rw [subterms] at h
    rcases List.mem_cons.mp h with h | h
    · subst h; exact Nat.le_refl _
    · cases h
  | .optional i q, a => by
    intro h
    rw [subterms] at h
    rcases List.mem_cons.mp h with h | h
    · subst h; exact Nat.le_refl _
    · exact Nat.le_succ_of_le (mem_subterms_depth q a h)
  | .firstAlternative i ps, a => by
    intro h
    rw [subterms] at h
    rcases List.mem_cons.mp h with h | h
    · subst h; exact Nat.le_refl _
    · exact Nat.le_succ_of_le (mem_subtermsL_depth ps a h)
  | .longestAlternative i ps, a => by
    intro h
    rw [subterms] at h
    rcases List.mem_cons.mp h with h | h
    · subst h; exact Nat.le_refl _
    · exact Nat.le_succ_of_le (mem_subtermsL_depth ps a h)
  | .sequential i ps, a => by
    intro h
    rw [subterms] at h
    rcases List.mem_cons.mp h with h | h
    · subst h; exact Nat.le_refl _
    · exact Nat.le_succ_of_le (mem_subtermsL_depth ps a h)
  | .discardLeft i l rp, a => by
    intro h
    rw [subterms] at h
    rcases List.mem_cons.mp h with h | h
    · subst h; exact Nat.le_refl _
    · rcases List.mem_append.mp h with h | h
      · exact Nat.le_succ_of_le (Nat.le_trans (mem_subterms_depth l a h) (Nat.le_max_left _ _))
      · exact Nat.le_succ_of_le (Nat.le_trans (mem_subterms_depth rp a h) (Nat.le_max_right _ _))
  | .discardRight i l rp, a => by
    intro h
    rw [subterms] at h
    rcases List.mem_cons.mp h with h | h
    · subst h; exact Nat.le_refl _
    · rcases List.mem_append.mp h with h | h
      · exact Nat.le_succ_of_le (Nat.le_trans (mem_subterms_depth l a h) (Nat.le_max_left _ _))
      · exact Nat.le_succ_of_le (Nat.le_trans (mem_subterms_depth rp a h) (Nat.le_max_right _ _))
  | .conversion i q f, a => by
    intro h
    rw [subterms] at h
    rcases List.mem_cons.mp h with h | h
    · subst h; exact Nat.le_refl _
    · exact Nat.le_succ_of_le (mem_subterms_depth q a h)
  | .repeated i q mn mx, a => by
    intro h
    rw [subterms] at h
    rcases List.mem_cons.mp h with h | h
    · subst h; exact Nat.le_refl _
    · exact Nat.le_succ_of_le (mem_subterms_depth q a h)
  | .repeatedOnce i q, a => by
    intro h
    rw [subterms] at h
    rcases List.mem_cons.mp h with h | h
    · subst h; exact Nat.le_refl _
    · exact Nat.le_succ_of_le (mem_subterms_depth q a h)
  | .repeatedSeparated i q sep mn mx, a => by
    intro h
    rw [subterms] at h
    rcases List.mem_cons.mp h with h | h
    · subst h; exact Nat.le_refl _
    · rcases List.mem_append.mp h with h | h
      · exact Nat.le_succ_of_le (Nat.le_trans (mem_subterms_depth q a h) (Nat.le_max_left _ _))
      · exact Nat.le_succ_of_le (Nat.le_trans (mem_subterms_depth sep a h) (Nat.le_max_right _ _))
  | .repeatedOnceSeparated i q sep, a => by
    intro h
    rw [subterms] at h
    rcases List.mem_cons.mp h with h | h
    · subst h; exact Nat.le_refl _
    · rcases List.mem_append.mp h with h | h
      · exact Nat.le_succ_of_le (Nat.le_trans (mem_subterms_depth q a h) (Nat.le_max_left _ _))
      · exact Nat.le_succ_of_le (Nat.le_trans (mem_subterms_depth sep a h) (Nat.le_max_right _ _))
  | .untilP i q, a => by
    intro h
    rw [subterms] at h
    rcases List.mem_cons.mp h with h | h
    · subst h; exact Nat.le_refl _
    · exact Nat.le_succ_of_le (mem_subterms_depth q a h)

theorem mem_subtermsO_depth : ∀ (ws : Option Parser) (a : Parser),
    a ∈ subtermsO ws → pdepth a ≤ pdepthO ws
  | none, a => by intro h; rw [subtermsO] at h; cases h
  | some q, a => by
    intro h
    rw [subtermsO] at h
    exact mem_subterms_depth q a h

theorem mem_subtermsL_depth : ∀ (ps : List Parser) (a : Parser),
    a ∈ subtermsL ps → pdepth a ≤ pdepthL ps
  | [], a => by intro h; rw [subtermsL] at h; cases h
  | q :: qs, a => by
    intro h
    rw [subtermsL] at h
    rcases List.mem_append.mp h with h | h
    · exact Nat.le_trans (mem_subterms_depth q a h) (Nat.le_max_left _ _)
    · exact Nat.le_trans (mem_subtermsL_depth qs a h) (Nat.le_max_right _ _)
end

theorem subterms_self (p : Parser) : p ∈ subterms p := by
  cases p <;> (rw [subterms]; exact List.mem_cons_self _ _)

end Parsita

namespace Parsita

mutual
theorem mem_subterms_trans : ∀ (p a b : Parser),
    a ∈ subterms b → b ∈ subterms p → a ∈ subterms p
  | .literal i pat ws, a, b => by
    intro hab hbp
    rw [subterms] at hbp ⊢
    rcases List.mem_cons.mp hbp with h | h
    · subst h; rw [subterms] at hab; exact hab
    · exact List.mem_cons_of_mem _ (mem_subtermsO_trans ws a b hab h)
  | .regex i g ws, a, b => by
    intro hab hbp
    rw [subterms] at hbp ⊢
    rcases List.mem_cons.mp hbp with h | h
    · subst h; rw [subterms] at hab; exact hab
    · exact List.mem_cons_of_mem _ (mem_subtermsO_trans ws a b hab h)
  | .endOfSource i, a, b => by
    intro hab hbp
    rw [subterms] at hbp
    rcases List.mem_cons.mp hbp with h | h
    · subst h; rw [subterms] at hab; exact hab
    · cases h
  | .anyElem i, a, b => by
    intro hab hbp
    rw [subterms] at hbp
    rcases List.mem_cons.mp hbp with h | h
    · subst h; rw [subterms] at hab; exact hab
    · cases h
  | .successP i v, a, b => by
    intro hab hbp
    rw [subterms] at hbp
    rcases List.mem_cons.mp hbp with h | h
    · subst h; rw [subterms] at hab; exact hab
    · cases h
  | .failureP i e, a, b => by
    intro hab hbp
    rw [subterms] at hbp
    rcases List.mem_cons.mp hbp with h | h
    · subst h; rw [subterms] at hab; exact hab
    · cases h
  | .optional i q, a, b => by
    intro hab hbp
    rw [subterms] at hbp ⊢
    rcases List.mem_cons.mp hbp with h | h
    · subst h; rw [subterms] at hab; exact hab
    · exact List.mem_cons_of_mem _ (mem_subterms_trans q a b hab h)
  | .firstAlternative i ps, a, b => by
    intro hab hbp
    rw [subterms] at hbp ⊢
    rcases List.mem_cons.mp hbp with h | h
    · subst h; rw [subterms] at hab; exact hab
    · exact List.mem_cons_of_mem _ (mem_subtermsL_trans ps a b hab h)
  | .longestAlternative i ps, a, b => by
    intro hab hbp
    rw [subterms] at hbp ⊢
    rcases List.mem_cons.mp hbp with h | h
    · subst h; rw [subterms] at hab; exact hab
    · exact List.mem_cons_of_mem _ (mem_subtermsL_trans ps a b hab h)
  | .sequential i ps, a, b => by
    intro hab hbp
    rw [subterms] at hbp ⊢
    rcases List.mem_cons.mp hbp with h | h
    · subst h; rw [subterms] at hab; exact hab
    · exact List.mem_cons_of_mem _ (mem_subtermsL_trans ps a b hab h)
  | .discardLeft i l rp, a, b => by
    intro hab hbp
    rw [subterms] at hbp ⊢
    rcases List.mem_cons.mp hbp with h | h
    · subst h; rw [subterms] at hab; exact hab
    · rcases List.mem_append.mp h with h | h
      · exact List.mem_cons_of_mem _ (List.mem_append_left _ (mem_subterms_trans l a b hab h))
      · exact List.mem_cons_of_mem _ (List.mem_append_right _ (mem_subterms_trans rp a b hab h))
  | .discardRight i l rp, a, b => by
    intro hab hbp
    rw [subterms] at hbp ⊢
    rcases List.mem_cons.mp hbp with h | h
    · subst h; rw [subterms] at hab; exact hab
    · rcases List.mem_append.mp h with h | h
      · exact List.mem_cons_of_mem _ (List.mem_append_left _ (mem_subterms_trans l a b hab h))
      · exact List.mem_cons_of_mem _ (List.mem_append_right _ (mem_subterms_trans rp a b hab h))
  | .conversion i q f, a, b => by
    intro hab hbp
    rw [subterms] at hbp ⊢
    rcases List.mem_cons.mp hbp with h | h
    · subst h; rw [subterms] at hab; exact hab
    · exact List.mem_cons_of_mem _ (mem_subterms_trans q a b hab h)
  | .repeated i q mn mx, a, b => by
    intro hab hbp
    rw [subterms] at hbp ⊢
    rcases List.mem_cons.mp hbp with h | h
    · subst h; rw [subterms] at hab; exact hab
    · exact List.mem_cons_of_mem _ (mem_subterms_trans q a b hab h)
  | .repeatedOnce i q, a, b => by
    intro hab hbp
    rw [subterms] at hbp ⊢
    rcases List.mem_cons.mp hbp with h | h
    · subst h; rw [subterms] at hab; exact hab
    · exact List.mem_cons_of_mem _ (mem_subterms_trans q a b hab h)
  | .repeatedSeparated i q sep mn mx, a, b => by
    intro hab hbp
    rw [subterms] at hbp ⊢
    rcases List.mem_cons.mp hbp with h | h
    · subst h; rw [subterms] at hab; exact hab
    · rcases List.mem_append.mp h with h | h
      · exact List.mem_cons_of_mem _ (List.mem_append_left _ (mem_subterms_trans q a b hab h))
      · exact List.mem_cons_of_mem _ (List.mem_append_right _ (mem_subterms_trans sep a b hab h))
  | .repeatedOnceSeparated i q sep, a, b => by
    intro hab hbp
    rw [subterms] at hbp ⊢
    rcases List.mem_cons.mp hbp with h | h
    · subst h; rw [subterms] at hab; exact hab
    · rcases List.mem_append.mp h with h | h
      · exact List.mem_cons_of_mem _ (List.mem_append_left _ (mem_subterms_trans q a b hab h))
      · exact List.mem_cons_of_mem _ (List.mem_append_right _ (mem_subterms_trans sep a b hab h))
  | .untilP i q, a, b => by
    intro hab hbp
    rw [subterms] at hbp ⊢
    rcases List.mem_cons.mp hbp with h | h
    · subst h; rw [subterms] at hab; exact hab
    · exact List.mem_cons_of_mem _ (mem_subterms_trans q a b hab h)

theorem mem_subtermsO_trans : ∀ (ws : Option Parser) (a b : Parser),
    a ∈ subterms b → b ∈ subtermsO ws → a ∈ subtermsO ws
  | none, a, b => by intro hab h; rw [subtermsO] at h; cases h
  | some q, a, b => by
    intro hab h
    rw [subtermsO] at h ⊢
    exact mem_subterms_trans q a b hab h

theorem mem_subtermsL_trans : ∀ (ps : List Parser) (a b : Parser),
    a ∈ subterms b → b ∈ subtermsL ps → a ∈ subtermsL ps
  | [], a, b => by intro hab h; rw [subtermsL] at h; cases h
  | q :: qs, a, b => by
    intro hab h
    rw [subtermsL] at h ⊢
    rcases List.mem_append.mp h with h | h
    · exact List.mem_append_left _ (mem_subterms_trans q a b hab h)
    · exact List.mem_append_right _ (mem_subtermsL_trans qs a b hab h)
end

/-- In a tree with duplicate-free node identities, the identity determines
the subterm. -/
theorem pid_injective {R : Parser} (hWF : (allIds R).Nodup) :
    ∀ a b, a ∈ subterms R → b ∈ subterms R → a.pid = b.pid → a = b := by
  unfold allIds at hWF
  have : ∀ (l : List Parser), (l.map Parser.pid).Nodup →
      ∀ a b, a ∈ l → b ∈ l → a.pid = b.pid → a = b := by
    intro l
    induction l with
    | nil => intro _ a b ha; cases ha
    | cons x xs ih =>
      intro hnd a b ha hb heq
      rw [List.map_cons, List.nodup_cons] at hnd
      rcases List.mem_cons.mp ha with ha2 | ha2
      · rcases List.mem_cons.mp hb with hb2 | hb2
        · rw [ha2, hb2]
        · exfalso
          apply hnd.1
          rw [ha2] at heq
          rw [heq]
          exact List.mem_map_of_mem Parser.pid hb2
      · rcases List.mem_cons.mp hb with hb2 | hb2
        · exfalso
          apply hnd.1
          rw [hb2] at heq
          rw [← heq]
          exact List.mem_map_of_mem Parser.pid ha2
        · exact ih hnd.2 a b ha2 hb2 heq
  exact this (subterms R) hWF

end Parsita

namespace Parsita

/-! ### C4, toolkit.

The unmemoized evaluator is state-oblivious: its only effect on the state
is a sequence of `register_failure` calls that depends only on the parser,
the reader and the fuel.  `applyJ` replays such a sequence. -/

def applyJ (st : State) (J : List (String × Reader)) : State :=
  J.foldl (fun s er => s.register_failure er.1 er.2) st

theorem applyJ_cons (st : State) (er : String × Reader) (J : List (String × Reader)) :
    applyJ st (er :: J) = applyJ (st.register_failure er.1 er.2) J := rfl

theorem applyJ_append (st : State) (J K : List (String × Reader)) :
    applyJ st (J ++ K) = applyJ (applyJ st J) K := by
  unfold applyJ
  rw [List.foldl_append]

theorem applyJ_single (st : State) (e : String) (r : Reader) :
    applyJ st [(e, r)] = st.register_failure e r := rfl

theorem mem_uniqueExpected :
    ∀ (l used : List String) (e : String),
      e ∈ uniqueExpected used l ↔ (e ∈ l ∧ e ∉ used) := by
  intro l
  induction l with
  | nil => intro used e; simp [uniqueExpected]
  | cons x l ih =>
    intro used e
    unfold uniqueExpected
    by_cases hx : x ∈ used
    · rw [if_pos hx, ih]
      constructor
      · rintro ⟨h1, h2⟩
        exact ⟨List.mem_cons_of_mem _ h1, h2⟩
      · rintro ⟨h1, h2⟩
        rcases List.mem_cons.mp h1 with h1 | h1
        · exact absurd (by rw [h1]; exact hx) h2
        · exact ⟨h1, h2⟩
    · rw [if_neg hx]
      constructor
      · intro h
        rcases List.mem_cons.mp h with h | h
        · rw [h]
          exact ⟨List.mem_cons_self _ _, hx⟩
        · rw [ih] at h
          refine ⟨List.mem_cons_of_mem _ h.1, ?_⟩
          intro hu
          exact h.2 (List.mem_cons_of_mem _ hu)
      · rintro ⟨h1, h2⟩
        by_cases hex : e = x
        · rw [hex]
          exact List.mem_cons_self _ _
        · rcases List.mem_cons.mp h1 with h1 | h1
          · exact absurd h1 hex
          · refine List.mem_cons_of_mem _ ?_
            rw [ih]
            refine ⟨h1, ?_⟩
            intro hu
            rcases List.mem_cons.mp hu with hu | hu
            · exact hex hu
            · exact h2 hu

theorem uniqueExpected_append_single :
    ∀ (l used : List String) (e : String),
      uniqueExpected used (l ++ [e]) =
        uniqueExpected used l ++ (if e ∈ used ∨ e ∈ l then [] else [e]) := by
  intro l
  induction l with
  | nil =>
    intro used e
    show (if e ∈ used then uniqueExpected (used) [] else e :: uniqueExpected (e :: used) [])
        = [] ++ (if e ∈ used ∨ e ∈ [] then [] else [e])
    by_cases h : e ∈ used
    · rw [if_pos h, if_pos (Or.inl h)]
      rfl
    · rw [if_neg h, if_neg (by rintro (hc | hc); exact h hc; cases hc)]
      rfl
  | cons x l ih =>
    intro used e
    rw [List.cons_append]
    show (if x ∈ used then uniqueExpected used (l ++ [e])
          else x :: uniqueExpected (x :: used) (l ++ [e]))
        = (if x ∈ used then uniqueExpected used l
           else x :: uniqueExpected (x :: used) l)
          ++ (if e ∈ used ∨ e ∈ x :: l then [] else [e])
    by_cases hx : x ∈ used
    · rw [if_pos hx, if_pos hx, ih]
      by_cases hd : e ∈ used ∨ e ∈ l
      · have hd2 : e ∈ used ∨ e ∈ x :: l := by
          rcases hd with h | h
          · exact Or.inl h
          · exact Or.inr (List.mem_cons_of_mem _ h)
        rw [if_pos hd, if_pos hd2]
      · have hd2 : ¬(e ∈ used ∨ e ∈ x :: l) := by
          rintro (h | h)
          · exact hd (Or.inl h)
          · rcases List.mem_cons.mp h with h | h
            · exact hd (Or.inl (by rw [h]; exact hx))
            · exact hd (Or.inr h)
        rw [if_neg hd, if_neg hd2]
    · rw [if_neg hx, if_neg hx, ih, List.cons_append]
      by_cases hd : e ∈ x :: used ∨ e ∈ l
      · have hd2 : e ∈ used ∨ e ∈ x :: l := by
          rcases hd with h | h
          · rcases List.mem_cons.mp h with h | h
            · exact Or.inr (by rw [h]; exact List.mem_cons_self x l)
            · exact Or.inl h
          · exact Or.inr (List.mem_cons_of_mem _ h)
        rw [if_pos hd, if_pos hd2]
      · have hd2 : ¬(e ∈ used ∨ e ∈ x :: l) := by
          rintro (h | h)
          · exact hd (Or.inl (List.mem_cons_of_mem _ h))
          · rcases List.mem_cons.mp h with h | h
            · exact hd (Or.inl (by rw [h]; exact List.mem_cons_self x used))
            · exact hd (Or.inr h)
        rw [if_neg hd, if_neg hd2]

/-- States that produce the same failure diagnostic in `parse`: equal
farthest readers and equal deduplicated expected lists. -/
def FEeq (s t : State) : Prop :=
  s.farthest = t.farthest ∧
    uniqueExpected [] s.expected = uniqueExpected [] t.expected

theorem FEeq_refl (s : State) : FEeq s s := ⟨rfl, rfl⟩

theorem FEeq_symm {s t : State} (h : FEeq s t) : FEeq t s := ⟨h.1.symm, h.2.symm⟩

theorem FEeq_trans {s t u : State} (h1 : FEeq s t) (h2 : FEeq t u) : FEeq s u :=
  ⟨h1.1.trans h2.1, h1.2.trans h2.2⟩

theorem mem_expected_iff {s t : State} (h : FEeq s t) (e : String) :
    e ∈ s.expected ↔ e ∈ t.expected := by
  have h1 := mem_uniqueExpected s.expected [] e
  have h2 := mem_uniqueExpected t.expected [] e
  constructor
  · intro hm
    have hu : e ∈ uniqueExpected [] s.expected := h1.mpr ⟨hm, by simp⟩
    rw [h.2] at hu
    exact (h2.mp hu).1
  · intro hm
    have hu : e ∈ uniqueExpected [] t.expected := h2.mpr ⟨hm, by simp⟩
    rw [← h.2] at hu
    exact (h1.mp hu).1

theorem register_farthest (st : State) (e : String) (r : Reader) :
    (st.register_failure e r).farthest = (regFE (st.farthest, st.expected) (e, r)).1 :=
  congrArg Prod.fst (register_failure_fields st e r).1

theorem register_expected (st : State) (e : String) (r : Reader) :
    (st.register_failure e r).expected = (regFE (st.farthest, st.expected) (e, r)).2 :=
  congrArg Prod.snd (register_failure_fields st e r).1

theorem FEeq_register {s t : State} (h : FEeq s t) (e : String) (r : Reader) :
    FEeq (s.register_failure e r) (t.register_failure e r) := by
  obtain ⟨hf, he⟩ := h
  constructor
  · rw [register_farthest, register_farthest, hf]
    cases t.farthest with
    | none => rfl
    | some f =>
      simp only [regFE]
      by_cases h1 : f.position < r.position
      · rw [if_pos h1, if_pos h1]
      · rw [if_neg h1, if_neg h1]
        by_cases h2 : f.position = r.position
        · rw [if_pos h2, if_pos h2]
        · rw [if_neg h2, if_neg h2]
  · rw [register_expected, register_expected, hf]
    cases t.farthest with
    | none => rfl
    | some f =>
      simp only [regFE]
      by_cases h1 : f.position < r.position
      · rw [if_pos h1, if_pos h1]
      · rw [if_neg h1, if_neg h1]
        by_cases h2 : f.position = r.position
        · rw [if_pos h2, if_pos h2]
          show uniqueExpected [] (s.expected ++ [e]) = uniqueExpected [] (t.expected ++ [e])
          rw [uniqueExpected_append_single, uniqueExpected_append_single, he]
          by_cases hes : e ∈ s.expected
          · have het : e ∈ t.expected := (mem_expected_iff ⟨hf, he⟩ e).mp hes
            rw [if_pos (Or.inr hes), if_pos (Or.inr het)]
          · have het : e ∉ t.expected := fun hc =>
              hes ((mem_expected_iff ⟨hf, he⟩ e).mpr hc)
            rw [if_neg (by rintro (hc | hc); simp at hc; exact hes hc),
                if_neg (by rintro (hc | hc); simp at hc; exact het hc)]
        · rw [if_neg h2, if_neg h2]
          exact he

theorem FEeq_applyJ {s t : State} (h : FEeq s t) :
    ∀ J, FEeq (applyJ s J) (applyJ t J) := by
  intro J
  induction J generalizing s t with
  | nil => exact h
  | cons er J ih =>
    rw [applyJ_cons, applyJ_cons]
    exact ih (FEeq_register h er.1 er.2)

end Parsita

namespace Parsita

/-- A registration already subsumed by the state: it lies strictly behind
the farthest failure, or it sits at the farthest position with its
description already recorded. -/
def CovElem (st : State) (er : String × Reader) : Prop :=
  ∃ f, st.farthest = some f ∧
    (er.2.position < f.position ∨
      (er.2.position = f.position ∧ er.1 ∈ st.expected))

def Covered (st : State) (J : List (String × Reader)) : Prop :=
  ∀ er, er ∈ J → CovElem st er

theorem covered_nil (st : State) : Covered st [] := by
  intro er h
  cases h

theorem covered_append {st : State} {J K : List (String × Reader)}
    (hJ : Covered st J) (hK : Covered st K) : Covered st (J ++ K) := by
  intro er h
  rcases List.mem_append.mp h with h | h
  · exact hJ er h
  · exact hK er h

theorem covElem_register {st : State} {er : String × Reader}
    (h : CovElem st er) (e : String) (r : Reader) :
    CovElem (st.register_failure e r) er := by
  obtain ⟨f, hf, hc⟩ := h
  unfold CovElem
  rw [register_farthest, register_expected, hf]
  simp only [regFE]
  by_cases h1 : f.position < r.position
  · rw [if_pos h1]
    refine ⟨r, rfl, Or.inl ?_⟩
    rcases hc with hc | hc
    · exact Nat.lt_trans hc h1
    · rw [hc.1]
      exact h1
  · rw [if_neg h1]
    by_cases h2 : f.position = r.position
    · rw [if_pos h2]
      refine ⟨f, rfl, ?_⟩
      rcases hc with hc | hc
      · exact Or.inl hc
      · exact Or.inr ⟨hc.1, List.mem_append_left _ hc.2⟩
    · rw [if_neg h2]
      exact ⟨f, rfl, hc⟩

theorem covElem_self (st : State) (e : String) (r : Reader) :
    CovElem (st.register_failure e r) (e, r) := by
  unfold CovElem
  rw [register_farthest, register_expected]
  cases st.farthest with
  | none =>
    simp only [regFE]
    exact ⟨r, rfl, Or.inr ⟨rfl, List.mem_singleton.mpr rfl⟩⟩
  | some f =>
    simp only [regFE]
    by_cases h1 : f.position < r.position
    · rw [if_pos h1]
      exact ⟨r, rfl, Or.inr ⟨rfl, List.mem_singleton.mpr rfl⟩⟩
    · rw [if_neg h1]
      by_cases h2 : f.position = r.position
      · rw [if_pos h2]
        exact ⟨f, rfl, Or.inr ⟨h2.symm,
          List.mem_append_right _ (List.mem_singleton.mpr rfl)⟩⟩
      · rw [if_neg h2]
        exact ⟨f, rfl, Or.inl (Nat.lt_of_le_of_ne (Nat.le_of_not_lt h1)
          (fun hh => h2 hh.symm))⟩

theorem covElem_pstep {st st' : State} (h : PStep st st') {er : String × Reader}
    (hc : CovElem st er) : CovElem st' er := by
  cases h with
  | reg e r st => exact covElem_register hc e r
  | mark k st hl => exact hc
  | store k o st => exact hc

theorem covElem_reaches {st st' : State} (h : Reaches st st') {er : String × Reader}
    (hc : CovElem st er) : CovElem st' er := by
  induction h with
  | refl => exact hc
  | tail _ hstep ih => exact covElem_pstep hstep ih

theorem covered_reaches {st st' : State} (h : Reaches st st')
    {J : List (String × Reader)} (hc : Covered st J) : Covered st' J :=
  fun er hm => covElem_reaches h (hc er hm)

theorem covered_register {st : State} {J : List (String × Reader)}
    (hc : Covered st J) (e : String) (r : Reader) :
    Covered (st.register_failure e r) J :=
  fun er hm => covElem_register (hc er hm) e r

theorem covElem_register_noop {st : State} {er : String × Reader} (h : CovElem st er) :
    FEeq (st.register_failure er.1 er.2) st := by
  obtain ⟨f, hf, hc⟩ := h
  have hnlt : ¬ f.position < er.2.position := by
    rcases hc with hc | hc
    · exact Nat.not_lt.mpr (Nat.le_of_lt hc)
    · rw [hc.1]
      exact Nat.lt_irrefl _
  constructor
  · rw [register_farthest, hf]
    simp only [regFE]
    rw [if_neg hnlt]
    rcases hc with hc | hc
    · rw [if_neg (fun hh => Nat.lt_irrefl f.position (by
        conv => lhs; rw [hh]
        exact hc))]
    · rw [if_pos hc.1.symm]
  · rw [register_expected, hf]
    simp only [regFE]
    rw [if_neg hnlt]
    rcases hc with hc | hc
    · rw [if_neg (fun hh => Nat.lt_irrefl f.position (by
        conv => lhs; rw [hh]
        exact hc))]
    · rw [if_pos hc.1.symm]
      show uniqueExpected [] (st.expected ++ [er.1]) = uniqueExpected [] st.expected
      rw [uniqueExpected_append_single, if_pos (Or.inr hc.2), List.append_nil]

theorem covered_applyJ {st : State} :
    ∀ J, Covered st J → FEeq (applyJ st J) st := by
  intro J
  induction J generalizing st with
  | nil => exact fun _ => FEeq_refl st
  | cons er J ih =>
    intro h
    have h1 : CovElem st er := h er (List.mem_cons_self _ _)
    have h2 : Covered (st.register_failure er.1 er.2) J := by
      intro x hx
      exact covElem_register (h x (List.mem_cons_of_mem _ hx)) er.1 er.2
    rw [applyJ_cons]
    exact FEeq_trans (ih h2) (covElem_register_noop h1)

end Parsita

namespace Parsita

/-- An unmemoized run described purely: for every sufficiently large fuel
and every starting state, the run applies the journal delta `J` to the
state and answers `a`. -/
def PureRun (q : Parser) (r : Reader) (n : Nat) (J : List (String × Reader))
    (a : Ans) : Prop :=
  ∀ m, n ≤ m → ∀ stx, consume false m q stx r = (applyJ stx J, a)

theorem pureRun_mono {q : Parser} {r : Reader} {n n2 : Nat}
    {J : List (String × Reader)} {a : Ans} (h : PureRun q r n J a) (hle : n ≤ n2) :
    PureRun q r n2 J a :=
  fun m hm stx => h m (Nat.le_trans hle hm) stx

theorem consume_false_succ (m : Nat) (q : Parser) (stx : State) (r : Reader) :
    consume false (m + 1) q stx r
      = pconsume (fun q2 st1 r1 => consume false m q2 st1 r1) q stx r := rfl

/-- The memo-table invariant of the memoized run, relative to the source
`SRC`, the root tree `R` and the list `E` of in-progress keys: every memo
entry that is not an in-progress marker is the answer of a pure run of the
node carrying the key's identity, whose registrations the current state
already subsumes. -/
def Inv (SRC : List Char) (R : Parser) (E : List (Nat × Nat)) (st : State) : Prop :=
  ∀ k o, st.memo.lookup k = some o →
    k ∈ E ∨
      ∃ q, q ∈ subterms R ∧ k.1 = q.pid ∧
        ∃ n J, PureRun q ⟨SRC, k.2⟩ n J (.res o) ∧ Covered st J ∧
          ∀ c, o = some c → c.remainder.source = SRC

/-- What the simulation yields for a normal (`.res`) answer: the final
memoized state is diagnostic-equal to its start state plus the pure delta,
the delta is subsumed, the memo invariant is maintained, and a returned
remainder stays on the source.  A fatal answer short-circuits `parse`, so
nothing about the state is needed then. -/
def ResGood (SRC : List Char) (R : Parser) (E : List (Nat × Nat)) (st : State)
    (J : List (String × Reader)) (st' : State) (a : Ans) : Prop :=
  match a with
  | .res o =>
    FEeq st' (applyJ st J) ∧ Covered st' J ∧ Inv SRC R E st' ∧
      ∀ c, o = some c → c.remainder.source = SRC
  | _ => True

/-- The induction hypothesis available for a member parser's `consume`
inside a combinator's `_consume`. -/
def Simcall (SRC : List Char) (R : Parser) (E : List (Nat × Nat)) (q : Parser)
    (next : State → Reader → State × Ans) : Prop :=
  ∀ st r st' a, r.source = SRC → Inv SRC R E st → next st r = (st', a) →
    a ≠ .out →
    ∃ n J, PureRun q r n J a ∧ ResGood SRC R E st J st' a

theorem inv_empty (SRC : List Char) (R : Parser) : Inv SRC R [] State.empty := by
  intro k o h
  simp [State.empty, List.lookup] at h

theorem inv_register {SRC : List Char} {R : Parser} {E : List (Nat × Nat)}
    {st : State} (h : Inv SRC R E st) (e : String) (r : Reader) :
    Inv SRC R E (st.register_failure e r) := by
  intro k o hl
  rw [register_failure_memo] at hl
  rcases h k o hl with hE | ⟨q, hq, hk, n, J, hpr, hcov, hsrc⟩
  · exact Or.inl hE
  · exact Or.inr ⟨q, hq, hk, n, J, hpr, covered_register hcov e r, hsrc⟩

theorem inv_mark {SRC : List Char} {R : Parser} {E : List (Nat × Nat)}
    {st : State} (h : Inv SRC R E st) (k0 : Nat × Nat) :
    Inv SRC R (k0 :: E)
      { st with memo := (k0, none) :: st.memo, trace := st.trace ++ [k0] } := by
  intro k o hl
  rw [List.lookup_cons] at hl
  by_cases hek : (k == k0) = true
  · exact Or.inl (by rw [List.mem_cons]; exact Or.inl (eq_of_beq hek))
  · rw [Bool.eq_false_iff.mpr hek] at hl
    rcases h k o hl with hE | ⟨q, hq, hk, n, J, hpr, hcov, hsrc⟩
    · exact Or.inl (List.mem_cons_of_mem _ hE)
    · exact Or.inr ⟨q, hq, hk, n, J, hpr, hcov, hsrc⟩

theorem mem_subtermsL_of_mem :
    ∀ (ps : List Parser) (q : Parser), q ∈ ps → q ∈ subtermsL ps := by
  intro ps
  induction ps with
  | nil => intro q h; cases h
  | cons x ps ih =>
    intro q h
    rw [subtermsL]
    rcases List.mem_cons.mp h with h | h
    · exact List.mem_append_left _ (by rw [h]; exact subterms_self x)
    · exact List.mem_append_right _ (ih q h)

theorem pdepth_le_pdepthL :
    ∀ (ps : List Parser) (q : Parser), q ∈ ps → pdepth q ≤ pdepthL ps := by
  intro ps
  induction ps with
  | nil => intro q h; cases h
  | cons x ps ih =>
    intro q h
    rw [pdepthL]
    rcases List.mem_cons.mp h with h | h
    · rw [h]
      exact Nat.le_max_left _ _
    · exact Nat.le_trans (ih q h) (Nat.le_max_right _ _)

end Parsita

namespace Parsita

/-! ### C4, simulation of each `_consume` body.

Each helper lemma says: if the helper driven by the memoized `consume` of
the member parsers returns a non-`out` answer, then the same helper driven
by the unmemoized `consume` (at any large enough fuel, from any state)
returns the same answer while merely applying a pure journal delta, and the
bookkeeping of `ResGood` holds. -/

theorem litMatch_sim (SRC : List Char) (R : Parser) (E : List (Nat × Nat))
    (mnext : Parser → State → Reader → State × Ans) (ws : Option Parser)
    (pattern : List Char)
    (hws : ∀ w, ws = some w → Simcall SRC R E w (fun st1 r1 => mnext w st1 r1)) :
    ∀ st r st' a, r.source = SRC → Inv SRC R E st →
      litMatch (ws.map (fun w st1 r1 => mnext w st1 r1)) pattern st r = (st', a) →
      a ≠ .out →
      ∃ n J, (∀ m, n ≤ m → ∀ stx,
          litMatch (ws.map (fun w st1 r1 => consume false m w st1 r1)) pattern stx r
            = (applyJ stx J, a)) ∧
        ResGood SRC R E st J st' a := by
  intro st r st' a hsrc hinv hrun hout
  by_cases hp : pattern.isPrefixOf (r.source.drop r.position)
  · cases ws with
    | none =>
      have hred : litMatch ((none : Option Parser).map (fun w st1 r1 => mnext w st1 r1))
          pattern st r = (st, .res (some ⟨r.drop pattern.length, .str pattern⟩)) := by
        simp [litMatch, hp]
      rw [hred] at hrun
      injection hrun with h1 h2
      subst h1
      subst h2
      refine ⟨0, [], ?_, ?_⟩
      · intro m hm stx
        simp [litMatch, hp, applyJ]
      · refine ⟨FEeq_refl st, covered_nil st, hinv, ?_⟩
        intro c hc
        injection hc with hc
        rw [← hc]
        exact hsrc
    | some w =>
      rcases hw : mnext w st (r.drop pattern.length) with ⟨st2, a2⟩
      have hcall := hws w rfl st (r.drop pattern.length) st2 a2 hsrc hinv hw
      cases a2 with
      | res o =>
        cases o with
        | some c2 =>
          have hred : litMatch ((some w).map (fun w st1 r1 => mnext w st1 r1))
              pattern st r = (st2, .res (some ⟨c2.remainder, .str pattern⟩)) := by
            simp [litMatch, hp, hw]
          rw [hred] at hrun
          injection hrun with h1 h2
          subst h1
          subst h2
          obtain ⟨n1, J1, hpr1, hrg1⟩ := hcall (fun hc => Ans.noConfusion hc)
          obtain ⟨hfe1, hcov1, hinv1, hsrc1⟩ := hrg1
          refine ⟨n1, J1, ?_, ?_⟩
          · intro m hm stx
            simp [litMatch, hp, hpr1 m hm stx]
          · refine ⟨hfe1, hcov1, hinv1, ?_⟩
            intro c hc
            injection hc with hc
            rw [← hc]
            exact hsrc1 c2 rfl
        | none =>
          have hred : litMatch ((some w).map (fun w st1 r1 => mnext w st1 r1))
              pattern st r = (st2, .wsCrash) := by
            simp [litMatch, hp, hw]
          rw [hred] at hrun
          injection hrun with h1 h2
          subst h1
          subst h2
          obtain ⟨n1, J1, hpr1, hrg1⟩ := hcall (fun hc => Ans.noConfusion hc)
          refine ⟨n1, J1, ?_, trivial⟩
          intro m hm stx
          simp [litMatch, hp, hpr1 m hm stx]
      | recursionError p2 ctx =>
        have hred : litMatch ((some w).map (fun w st1 r1 => mnext w st1 r1))
            pattern st r = (st2, .recursionError p2 ctx) := by
          simp [litMatch, hp, hw]
        rw [hred] at hrun
        injection hrun with h1 h2
        subst h1
        subst h2
        obtain ⟨n1, J1, hpr1, hrg1⟩ := hcall (fun hc => Ans.noConfusion hc)
        refine ⟨n1, J1, ?_, trivial⟩
        intro m hm stx
        simp [litMatch, hp, hpr1 m hm stx]
      | wsCrash =>
        have hred : litMatch ((some w).map (fun w st1 r1 => mnext w st1 r1))
            pattern st r = (st2, .wsCrash) := by
          simp [litMatch, hp, hw]
        rw [hred] at hrun
        injection hrun with h1 h2
        subst h1
        subst h2
        obtain ⟨n1, J1, hpr1, hrg1⟩ := hcall (fun hc => Ans.noConfusion hc)
        refine ⟨n1, J1, ?_, trivial⟩
        intro m hm stx
        simp [litMatch, hp, hpr1 m hm stx]
      | out =>
        have hred : litMatch ((some w).map (fun w st1 r1 => mnext w st1 r1))
            pattern st r = (st2, .out) := by
          simp [litMatch, hp, hw]
        rw [hred] at hrun
        injection hrun with h1 h2
        exact absurd h2.symm hout
  · have hred : ∀ (wsn : Option (State → Reader → State × Ans)),
        litMatch wsn pattern st r
          = (st.register_failure (quoteRepr pattern) r, .res none) := by
      intro wsn
      simp [litMatch, hp]
    rw [hred] at hrun
    injection hrun with h1 h2
    subst h1
    subst h2
    refine ⟨0, [(quoteRepr pattern, r)], ?_, ?_⟩
    · intro m hm stx
      have hred2 := hred
      simp [litMatch, hp, applyJ]
    · refine ⟨?_, ?_, inv_register hinv _ _, ?_⟩
      · rw [applyJ_single]
        exact FEeq_refl _
      · intro er hm
        rw [List.mem_singleton] at hm
        rw [hm]
        exact covElem_self st _ r
      · intro c hc
        cases hc

end Parsita

namespace Parsita

theorem litGo_sim (SRC : List Char) (R : Parser) (E : List (Nat × Nat))
    (mnext : Parser → State → Reader → State × Ans) (ws : Option Parser)
    (pattern : List Char)
    (hreach : ∀ q st r, Reaches st (mnext q st r).1)
    (hws : ∀ w, ws = some w → Simcall SRC R E w (fun st1 r1 => mnext w st1 r1)) :
    ∀ st r st' a, r.source = SRC → Inv SRC R E st →
      litGo (ws.map (fun w st1 r1 => mnext w st1 r1)) pattern st r = (st', a) →
      a ≠ .out →
      ∃ n J, (∀ m, n ≤ m → ∀ stx,
          litGo (ws.map (fun w st1 r1 => consume false m w st1 r1)) pattern stx r
            = (applyJ stx J, a)) ∧
        ResGood SRC R E st J st' a := by
  intro st r st' a hsrc hinv hrun hout
  cases ws with
  | none =>
    have hred : litGo ((none : Option Parser).map (fun w st1 r1 => mnext w st1 r1))
        pattern st r
        = litMatch ((none : Option Parser).map (fun w st1 r1 => mnext w st1 r1))
          pattern st r := by
      simp [litGo]
    rw [hred] at hrun
    obtain ⟨n1, J1, hpure1, hrg1⟩ :=
      litMatch_sim SRC R E mnext none pattern (fun w hw => nomatch hw) st r st' a
        hsrc hinv hrun hout
    refine ⟨n1, J1, ?_, hrg1⟩
    intro m hm stx
    have h2 := hpure1 m hm stx
    simpa [litGo] using h2
  | some w =>
    rcases hw : mnext w st r with ⟨st1, a1⟩
    have hcall := hws w rfl st r st1 a1 hsrc hinv hw
    cases a1 with
    | res o =>
      cases o with
      | some c1 =>
        obtain ⟨n1, J1, hpr1, hrg1⟩ := hcall (fun hc => Ans.noConfusion hc)
        obtain ⟨hfe1, hcov1, hinv1, hsrc1⟩ := hrg1
        have hred : litGo ((some w).map (fun w st1 r1 => mnext w st1 r1)) pattern st r
            = litMatch ((some w).map (fun w st1 r1 => mnext w st1 r1)) pattern st1
                c1.remainder := by
          simp [litGo, hw]
        rw [hred] at hrun
        obtain ⟨n2, J2, hpure2, hrg2⟩ :=
          litMatch_sim SRC R E mnext (some w) pattern hws st1 c1.remainder st' a
            (hsrc1 c1 rfl) hinv1 hrun hout
        have hr1 : Reaches st1 st' := by
          have hstep := litMatch_reaches ((some w).map (fun w st1 r1 => mnext w st1 r1))
            pattern (by
              intro ws0 heq st0 r0
              simp only [Option.map] at heq
              injection heq with heq
              rw [← heq]
              exact hreach w st0 r0) st1 c1.remainder
          rw [hrun] at hstep
          exact hstep
        refine ⟨max n1 n2, J1 ++ J2, ?_, ?_⟩
        · intro m hm stx
          have e1 := hpr1 m (Nat.le_trans (Nat.le_max_left _ _) hm) stx
          have e2 := hpure2 m (Nat.le_trans (Nat.le_max_right _ _) hm) (applyJ stx J1)
          simp [litGo, e1, applyJ_append]
          simpa using e2
        · cases a with
          | res o2 =>
            obtain ⟨hfe2, hcov2, hinv2, hsrc2⟩ := hrg2
            refine ⟨?_, ?_, hinv2, hsrc2⟩
            · rw [applyJ_append]
              exact FEeq_trans hfe2 (FEeq_applyJ hfe1 J2)
            · exact covered_append (covered_reaches hr1 hcov1) hcov2
          | recursionError p2 ctx => trivial
          | wsCrash => trivial
          | out => trivial
      | none =>
        have hred : litGo ((some w).map (fun w st1 r1 => mnext w st1 r1)) pattern st r
            = (st1, .wsCrash) := by
          simp [litGo, hw]
        rw [hred] at hrun
        injection hrun with h1 h2
        subst h1
        subst h2
        obtain ⟨n1, J1, hpr1, hrg1⟩ := hcall (fun hc => Ans.noConfusion hc)
        refine ⟨n1, J1, ?_, trivial⟩
        intro m hm stx
        simp [litGo, hpr1 m hm stx]
    | recursionError p2 ctx =>
      have hred : litGo ((some w).map (fun w st1 r1 => mnext w st1 r1)) pattern st r
          = (st1, .recursionError p2 ctx) := by
        simp [litGo, hw]
      rw [hred] at hrun
      injection hrun with h1 h2
      subst h1
      subst h2
      obtain ⟨n1, J1, hpr1, hrg1⟩ := hcall (fun hc => Ans.noConfusion hc)
      refine ⟨n1, J1, ?_, trivial⟩
      intro m hm stx
      simp [litGo, hpr1 m hm stx]
    | wsCrash =>
      have hred : litGo ((some w).map (fun w st1 r1 => mnext w st1 r1)) pattern st r
          = (st1, .wsCrash) := by
        simp [litGo, hw]
      rw [hred] at hrun
      injection hrun with h1 h2
      subst h1
      subst h2
      obtain ⟨n1, J1, hpr1, hrg1⟩ := hcall (fun hc => Ans.noConfusion hc)
      refine ⟨n1, J1, ?_, trivial⟩
      intro m hm stx
      simp [litGo, hpr1 m hm stx]
    | out =>
      have hred : litGo ((some w).map (fun w st1 r1 => mnext w st1 r1)) pattern st r
          = (st1, .out) := by
        simp [litGo, hw]
      rw [hred] at hrun
      injection hrun with h1 h2
      exact absurd h2.symm hout

end Parsita

namespace Parsita

theorem regMatch_sim (SRC : List Char) (R : Parser) (E : List (Nat × Nat))
    (mnext : Parser → State → Reader → State × Ans) (ws : Option Parser) (g : Rgx)
    (hws : ∀ w, ws = some w → Simcall SRC R E w (fun st1 r1 => mnext w st1 r1)) :
    ∀ st r st' a, r.source = SRC → Inv SRC R E st →
      regMatch (ws.map (fun w st1 r1 => mnext w st1 r1)) g st r = (st', a) →
      a ≠ .out →
      ∃ n J, (∀ m, n ≤ m → ∀ stx,
          regMatch (ws.map (fun w st1 r1 => consume false m w st1 r1)) g stx r
            = (applyJ stx J, a)) ∧
        ResGood SRC R E st J st' a := by
  intro st r st' a hsrc hinv hrun hout
  rcases hme : g.matchEnd r.source r.position with _ | epos
  · have hred : ∀ (wsn : Option (State → Reader → State × Ans)),
        regMatch wsn g st r = (st.register_failure (rgxRepr g) r, .res none) := by
      intro wsn
      simp [regMatch, hme]
    rw [hred] at hrun
    injection hrun with h1 h2
    subst h1
    subst h2
    refine ⟨0, [(rgxRepr g, r)], ?_, ?_⟩
    · intro m hm stx
      simp [regMatch, hme, applyJ]
    · refine ⟨?_, ?_, inv_register hinv _ _, ?_⟩
      · rw [applyJ_single]
        exact FEeq_refl _
      · intro er hm
        rw [List.mem_singleton] at hm
        rw [hm]
        exact covElem_self st _ r
      · intro c hc
        cases hc
  · cases ws with
    | none =>
      have hred : regMatch ((none : Option Parser).map (fun w st1 r1 => mnext w st1 r1))
          g st r = (st, .res (some ⟨r.drop ((r.source.drop r.position).take
            (epos - r.position)).length, .str ((r.source.drop r.position).take
            (epos - r.position))⟩)) := by
        simp [regMatch, hme]
      rw [hred] at hrun
      injection hrun with h1 h2
      subst h1
      subst h2
      refine ⟨0, [], ?_, ?_⟩
      · intro m hm stx
        simp [regMatch, hme, applyJ]
      · refine ⟨FEeq_refl st, covered_nil st, hinv, ?_⟩
        intro c hc
        injection hc with hc
        rw [← hc]
        exact hsrc
    | some w =>
      rcases hw : mnext w st (r.drop ((r.source.drop r.position).take
          (epos - r.position)).length) with ⟨st2, a2⟩
      simp only [List.length_take, List.length_drop] at hw
      have hcall := hws w rfl st _ st2 a2 (by exact hsrc) hinv hw
      cases a2 with
      | res o =>
        cases o with
        | some c2 =>
          have hred : regMatch ((some w).map (fun w st1 r1 => mnext w st1 r1))
              g st r = (st2, .res (some ⟨c2.remainder, .str ((r.source.drop
                r.position).take (epos - r.position))⟩)) := by
            simp [regMatch, hme, hw]
          rw [hred] at hrun
          injection hrun with h1 h2
          subst h1
          subst h2
          obtain ⟨n1, J1, hpr1, hrg1⟩ := hcall (fun hc => Ans.noConfusion hc)
          obtain ⟨hfe1, hcov1, hinv1, hsrc1⟩ := hrg1
          refine ⟨n1, J1, ?_, ?_⟩
          · intro m hm stx
            simp [regMatch, hme, hpr1 m hm stx]
          · refine ⟨hfe1, hcov1, hinv1, ?_⟩
            intro c hc
            injection hc with hc
            rw [← hc]
            exact hsrc1 c2 rfl
        | none =>
          have hred : regMatch ((some w).map (fun w st1 r1 => mnext w st1 r1))
              g st r = (st2, .wsCrash) := by
            simp [regMatch, hme, hw]
          rw [hred] at hrun
          injection hrun with h1 h2
          subst h1
          subst h2
          obtain ⟨n1, J1, hpr1, hrg1⟩ := hcall (fun hc => Ans.noConfusion hc)
          refine ⟨n1, J1, ?_, trivial⟩
          intro m hm stx
          simp [regMatch, hme, hpr1 m hm stx]
      | recursionError p2 ctx =>
        have hred : regMatch ((some w).map (fun w st1 r1 => mnext w st1 r1))
            g st r = (st2, .recursionError p2 ctx) := by
          simp [regMatch, hme, hw]
        rw [hred] at hrun
        injection hrun with h1 h2
        subst h1
        subst h2
        obtain ⟨n1, J1, hpr1, hrg1⟩ := hcall (fun hc => Ans.noConfusion hc)
        refine ⟨n1, J1, ?_, trivial⟩
        intro m hm stx
        simp [regMatch, hme, hpr1 m hm stx]
      | wsCrash =>
        have hred : regMatch ((some w).map (fun w st1 r1 => mnext w st1 r1))
            g st r = (st2, .wsCrash) := by
          simp [regMatch, hme, hw]
        rw [hred] at hrun
        injection hrun with h1 h2
        subst h1
        subst h2
        obtain ⟨n1, J1, hpr1, hrg1⟩ := hcall (fun hc => Ans.noConfusion hc)
        refine ⟨n1, J1, ?_, trivial⟩
        intro m hm stx
        simp [regMatch, hme, hpr1 m hm stx]
      | out =>
        have hred : regMatch ((some w).map (fun w st1 r1 => mnext w st1 r1))
            g st r = (st2, .out) := by
          simp [regMatch, hme, hw]
        rw [hred] at hrun
        injection hrun with h1 h2
        exact absurd h2.symm hout

theorem regGo_sim (SRC : List Char) (R : Parser) (E : List (Nat × Nat))
    (mnext : Parser → State → Reader → State × Ans) (ws : Option Parser) (g : Rgx)
    (hreach : ∀ q st r, Reaches st (mnext q st r).1)
    (hws : ∀ w, ws = some w → Simcall SRC R E w (fun st1 r1 => mnext w st1 r1)) :
    ∀ st r st' a, r.source = SRC → Inv SRC R E st →
      regGo (ws.map (fun w st1 r1 => mnext w st1 r1)) g st r = (st', a) →
      a ≠ .out →
      ∃ n J, (∀ m, n ≤ m → ∀ stx,
          regGo (ws.map (fun w st1 r1 => consume false m w st1 r1)) g stx r
            = (applyJ stx J, a)) ∧
        ResGood SRC R E st J st' a := by
  intro st r st' a hsrc hinv hrun hout
  cases ws with
  | none =>
    have hred : regGo ((none : Option Parser).map (fun w st1 r1 => mnext w st1 r1)) g st r
        = regMatch ((none : Option Parser).map (fun w st1 r1 => mnext w st1 r1)) g st r := by
      simp [regGo]
    rw [hred] at hrun
    obtain ⟨n1, J1, hpure1, hrg1⟩ :=
      regMatch_sim SRC R E mnext none g (fun w hw => nomatch hw) st r st' a
        hsrc hinv hrun hout
    refine ⟨n1, J1, ?_, hrg1⟩
    intro m hm stx
    have h2 := hpure1 m hm stx
    simpa [regGo] using h2
  | some w =>
    rcases hw : mnext w st r with ⟨st1, a1⟩
    have hcall := hws w rfl st r st1 a1 hsrc hinv hw
    cases a1 with
    | res o =>
      cases o with
      | some c1 =>
        obtain ⟨n1, J1, hpr1, hrg1⟩ := hcall (fun hc => Ans.noConfusion hc)
        obtain ⟨hfe1, hcov1, hinv1, hsrc1⟩ := hrg1
        have hred : regGo ((some w).map (fun w st1 r1 => mnext w st1 r1)) g st r
            = regMatch ((some w).map (fun w st1 r1 => mnext w st1 r1)) g st1
                c1.remainder := by
          simp [regGo, hw]
        rw [hred] at hrun
        obtain ⟨n2, J2, hpure2, hrg2⟩ :=
          regMatch_sim SRC R E mnext (some w) g hws st1 c1.remainder st' a
            (hsrc1 c1 rfl) hinv1 hrun hout
        have hr1 : Reaches st1 st' := by
          have hstep := regMatch_reaches ((some w).map (fun w st1 r1 => mnext w st1 r1))
            g (by
              intro ws0 heq st0 r0
              simp only [Option.map] at heq
              injection heq with heq
              rw [← heq]
              exact hreach w st0 r0) st1 c1.remainder
          rw [hrun] at hstep
          exact hstep
        refine ⟨max n1 n2, J1 ++ J2, ?_, ?_⟩
        · intro m hm stx
          have e1 := hpr1 m (Nat.le_trans (Nat.le_max_left _ _) hm) stx
          have e2 := hpure2 m (Nat.le_trans (Nat.le_max_right _ _) hm) (applyJ stx J1)
          simp [regGo, e1, applyJ_append]
          simpa using e2
        · cases a with
          | res o2 =>
            obtain ⟨hfe2, hcov2, hinv2, hsrc2⟩ := hrg2
            refine ⟨?_, ?_, hinv2, hsrc2⟩
            · rw [applyJ_append]
              exact FEeq_trans hfe2 (FEeq_applyJ hfe1 J2)
            · exact covered_append (covered_reaches hr1 hcov1) hcov2
          | recursionError p2 ctx => trivial
          | wsCrash => trivial
          | out => trivial
      | none =>
        have hred : regGo ((some w).map (fun w st1 r1 => mnext w st1 r1)) g st r
            = (st1, .wsCrash) := by
          simp [regGo, hw]
        rw [hred] at hrun
        injection hrun with h1 h2
        subst h1
        subst h2
        obtain ⟨n1, J1, hpr1, hrg1⟩ := hcall (fun hc => Ans.noConfusion hc)
        refine ⟨n1, J1, ?_, trivial⟩
        intro m hm stx
        simp [regGo, hpr1 m hm stx]
    | recursionError p2 ctx =>
      have hred : regGo ((some w).map (fun w st1 r1 => mnext w st1 r1)) g st r
          = (st1, .recursionError p2 ctx) := by
        simp [regGo, hw]
      rw [hred] at hrun
      injection hrun with h1 h2
      subst h1
      subst h2
      obtain ⟨n1, J1, hpr1, hrg1⟩ := hcall (fun hc => Ans.noConfusion hc)
      refine ⟨n1, J1, ?_, trivial⟩
      intro m hm stx
      simp [regGo, hpr1 m hm stx]
    | wsCrash =>
      have hred : regGo ((some w).map (fun w st1 r1 => mnext w st1 r1)) g st r
          = (st1, .wsCrash) := by
        simp [regGo, hw]
      rw [hred] at hrun
      injection hrun with h1 h2
      subst h1
      subst h2
      obtain ⟨n1, J1, hpr1, hrg1⟩ := hcall (fun hc => Ans.noConfusion hc)
      refine ⟨n1, J1, ?_, trivial⟩
      intro m hm stx
      simp [regGo, hpr1 m hm stx]
    | out =>
      have hred : regGo ((some w).map (fun w st1 r1 => mnext w st1 r1)) g st r
          = (st1, .out) := by
        simp [regGo, hw]
      rw [hred] at hrun
      injection hrun with h1 h2
      exact absurd h2.symm hout

end Parsita

namespace Parsita

theorem seqGo_sim (SRC : List Char) (R : Parser) (E : List (Nat × Nat))
    (mnext : Parser → State → Reader → State × Ans)
    (hreach : ∀ q st r, Reaches st (mnext q st r).1) :
    ∀ (qs : List Parser) (st : State) (rem : Reader) (acc : List Value)
      (st' : State) (a : Ans),
      (∀ q, q ∈ qs → Simcall SRC R E q (fun st1 r1 => mnext q st1 r1)) →
      rem.source = SRC → Inv SRC R E st →
      seqGo mnext qs st rem acc = (st', a) → a ≠ .out →
      ∃ n J, (∀ m, n ≤ m → ∀ stx,
          seqGo (fun q2 st1 r1 => consume false m q2 st1 r1) qs stx rem acc
            = (applyJ stx J, a)) ∧
        ResGood SRC R E st J st' a := by
  intro qs
  induction qs with
  | nil =>
    intro st rem acc st' a hq hsrc hinv hrun hout
    rw [seqGo] at hrun
    injection hrun with h1 h2
    subst h1
    subst h2
    refine ⟨0, [], ?_, ?_⟩
    · intro m hm stx
      rw [seqGo]
      rfl
    · exact ⟨FEeq_refl st, covered_nil st, hinv, fun c hc => by
        injection hc with hc
        rw [← hc]
        exact hsrc⟩
  | cons q qs ih =>
    intro st rem acc st' a hq hsrc hinv hrun hout
    rcases h1 : mnext q st rem with ⟨st1, a1⟩
    have hcall := hq q (List.mem_cons_self _ _) st rem st1 a1 hsrc hinv h1
    cases a1 with
    | res o =>
      cases o with
      | some c =>
        obtain ⟨n1, J1, hpr1, hrg1⟩ := hcall (fun hc => Ans.noConfusion hc)
        obtain ⟨hfe1, hcov1, hinv1, hsrc1⟩ := hrg1
        have hred : seqGo mnext (q :: qs) st rem acc
            = seqGo mnext qs st1 c.remainder (acc ++ [c.value]) := by
          simp [seqGo, h1]
        rw [hred] at hrun
        obtain ⟨n2, J2, hpure2, hrg2⟩ := ih st1 c.remainder (acc ++ [c.value]) st' a
          (fun q2 hq2 => hq q2 (List.mem_cons_of_mem _ hq2)) (hsrc1 c rfl) hinv1 hrun hout
        have hr1 : Reaches st1 st' := by
          have hstep := seqGo_reaches mnext hreach qs st1 c.remainder (acc ++ [c.value])
          rw [hrun] at hstep
          exact hstep
        refine ⟨max n1 n2, J1 ++ J2, ?_, ?_⟩
        · intro m hm stx
          have e1 := hpr1 m (Nat.le_trans (Nat.le_max_left _ _) hm) stx
          have e2 := hpure2 m (Nat.le_trans (Nat.le_max_right _ _) hm) (applyJ stx J1)
          simp [seqGo, e1, e2, applyJ_append]
        · cases a with
          | res o2 =>
            obtain ⟨hfe2, hcov2, hinv2, hsrc2⟩ := hrg2
            refine ⟨?_, covered_append (covered_reaches hr1 hcov1) hcov2, hinv2, hsrc2⟩
            rw [applyJ_append]
            exact FEeq_trans hfe2 (FEeq_applyJ hfe1 J2)
          | recursionError p2 ctx => trivial
          | wsCrash => trivial
          | out => trivial
      | none =>
        obtain ⟨n1, J1, hpr1, hrg1⟩ := hcall (fun hc => Ans.noConfusion hc)
        have hred : seqGo mnext (q :: qs) st rem acc = (st1, .res none) := by
          simp [seqGo, h1]
        rw [hred] at hrun
        injection hrun with h1b h2b
        subst h1b
        subst h2b
        refine ⟨n1, J1, ?_, hrg1⟩
        intro m hm stx
        simp [seqGo, hpr1 m hm stx]
    | recursionError p2 ctx =>
      obtain ⟨n1, J1, hpr1, hrg1⟩ := hcall (fun hc => Ans.noConfusion hc)
      have hred : seqGo mnext (q :: qs) st rem acc = (st1, .recursionError p2 ctx) := by
        simp [seqGo, h1]
      rw [hred] at hrun
      injection hrun with h1b h2b
      subst h1b
      subst h2b
      refine ⟨n1, J1, ?_, trivial⟩
      intro m hm stx
      simp [seqGo, hpr1 m hm stx]
    | wsCrash =>
      obtain ⟨n1, J1, hpr1, hrg1⟩ := hcall (fun hc => Ans.noConfusion hc)
      have hred : seqGo mnext (q :: qs) st rem acc = (st1, .wsCrash) := by
        simp [seqGo, h1]
      rw [hred] at hrun
      injection hrun with h1b h2b
      subst h1b
      subst h2b
      refine ⟨n1, J1, ?_, trivial⟩
      intro m hm stx
      simp [seqGo, hpr1 m hm stx]
    | out =>
      have hred : seqGo mnext (q :: qs) st rem acc = (st1, .out) := by
        simp [seqGo, h1]
      rw [hred] at hrun
      injection hrun with h1b h2b
      exact absurd h2b.symm hout

end Parsita

namespace Parsita

theorem firstGo_sim (SRC : List Char) (R : Parser) (E : List (Nat × Nat))
    (mnext : Parser → State → Reader → State × Ans)
    (hreach : ∀ q st r, Reaches st (mnext q st r).1) (r : Reader) :
    ∀ (qs : List Parser) (st : State) (st' : State) (a : Ans),
      (∀ q, q ∈ qs → Simcall SRC R E q (fun st1 r1 => mnext q st1 r1)) →
      r.source = SRC → Inv SRC R E st →
      firstGo (fun q2 st1 => mnext q2 st1 r) qs st = (st', a) → a ≠ .out →
      ∃ n J, (∀ m, n ≤ m → ∀ stx,
          firstGo (fun q2 st1 => consume false m q2 st1 r) qs stx = (applyJ stx J, a)) ∧
        ResGood SRC R E st J st' a := by
  intro qs
  induction qs with
  | nil =>
    intro st st' a hq hsrc hinv hrun hout
    rw [firstGo] at hrun
    injection hrun with h1 h2
    subst h1
    subst h2
    refine ⟨0, [], ?_, ?_⟩
    · intro m hm stx
      rw [firstGo]
      rfl
    · exact ⟨FEeq_refl st, covered_nil st, hinv, fun c hc => by cases hc⟩
  | cons q qs ih =>
    intro st st' a hq hsrc hinv hrun hout
    rcases h1 : mnext q st r with ⟨st1, a1⟩
    have hcall := hq q (List.mem_cons_self _ _) st r st1 a1 hsrc hinv h1
    cases a1 with
    | res o =>
      cases o with
      | some c =>
        obtain ⟨n1, J1, hpr1, hrg1⟩ := hcall (fun hc => Ans.noConfusion hc)
        have hred : firstGo (fun q2 st1 => mnext q2 st1 r) (q :: qs) st
            = (st1, .res (some c)) := by
          simp [firstGo, h1]
        rw [hred] at hrun
        injection hrun with h1b h2b
        subst h1b
        subst h2b
        refine ⟨n1, J1, ?_, hrg1⟩
        intro m hm stx
        simp [firstGo, hpr1 m hm stx]
      | none =>
        obtain ⟨n1, J1, hpr1, hrg1⟩ := hcall (fun hc => Ans.noConfusion hc)
        obtain ⟨hfe1, hcov1, hinv1, hsrc1⟩ := hrg1
        have hred : firstGo (fun q2 st1 => mnext q2 st1 r) (q :: qs) st
            = firstGo (fun q2 st1 => mnext q2 st1 r) qs st1 := by
          simp [firstGo, h1]
        rw [hred] at hrun
        obtain ⟨n2, J2, hpure2, hrg2⟩ := ih st1 st' a
          (fun q2 hq2 => hq q2 (List.mem_cons_of_mem _ hq2)) hsrc hinv1 hrun hout
        have hr1 : Reaches st1 st' := by
          have hstep := firstGo_reaches (fun q2 st1 => mnext q2 st1 r)
            (fun q2 st0 => hreach q2 st0 r) qs st1
          rw [hrun] at hstep
          exact hstep
        refine ⟨max n1 n2, J1 ++ J2, ?_, ?_⟩
        · intro m hm stx
          have e1 := hpr1 m (Nat.le_trans (Nat.le_max_left _ _) hm) stx
          have e2 := hpure2 m (Nat.le_trans (Nat.le_max_right _ _) hm) (applyJ stx J1)
          simp [firstGo, e1, e2, applyJ_append]
        · cases a with
          | res o2 =>
            obtain ⟨hfe2, hcov2, hinv2, hsrc2⟩ := hrg2
            refine ⟨?_, covered_append (covered_reaches hr1 hcov1) hcov2, hinv2, hsrc2⟩
            rw [applyJ_append]
            exact FEeq_trans hfe2 (FEeq_applyJ hfe1 J2)
          | recursionError p2 ctx => trivial
          | wsCrash => trivial
          | out => trivial
    | recursionError p2 ctx =>
      obtain ⟨n1, J1, hpr1, hrg1⟩ := hcall (fun hc => Ans.noConfusion hc)
      have hred : firstGo (fun q2 st1 => mnext q2 st1 r) (q :: qs) st
          = (st1, .recursionError p2 ctx) := by
        simp [firstGo, h1]
      rw [hred] at hrun
      injection hrun with h1b h2b
      subst h1b
      subst h2b
      refine ⟨n1, J1, ?_, trivial⟩
      intro m hm stx
      simp [firstGo, hpr1 m hm stx]
    | wsCrash =>
      obtain ⟨n1, J1, hpr1, hrg1⟩ := hcall (fun hc => Ans.noConfusion hc)
      have hred : firstGo (fun q2 st1 => mnext q2 st1 r) (q :: qs) st
          = (st1, .wsCrash) := by
        simp [firstGo, h1]
      rw [hred] at hrun
      injection hrun with h1b h2b
      subst h1b
      subst h2b
      refine ⟨n1, J1, ?_, trivial⟩
      intro m hm stx
      simp [firstGo, hpr1 m hm stx]
    | out =>
      have hred : firstGo (fun q2 st1 => mnext q2 st1 r) (q :: qs) st = (st1, .out) := by
        simp [firstGo, h1]
      rw [hred] at hrun
      injection hrun with h1b h2b
      exact absurd h2b.symm hout

end Parsita

namespace Parsita

theorem longestGo_sim (SRC : List Char) (R : Parser) (E : List (Nat × Nat))
    (mnext : Parser → State → Reader → State × Ans)
    (hreach : ∀ q st r, Reaches st (mnext q st r).1) (r : Reader) :
    ∀ (qs : List Parser) (st : State) (best : Option Continue) (st' : State) (a : Ans),
      (∀ q, q ∈ qs → Simcall SRC R E q (fun st1 r1 => mnext q st1 r1)) →
      r.source = SRC → Inv SRC R E st →
      (∀ c, best = some c → c.remainder.source = SRC) →
      longestGo (fun q2 st1 => mnext q2 st1 r) qs st best = (st', a) → a ≠ .out →
      ∃ n J, (∀ m, n ≤ m → ∀ stx,
          longestGo (fun q2 st1 => consume false m q2 st1 r) qs stx best
            = (applyJ stx J, a)) ∧
        ResGood SRC R E st J st' a := by
  intro qs
  induction qs with
  | nil =>
    intro st best st' a hq hsrc hinv hbest hrun hout
    rw [longestGo] at hrun
    injection hrun with h1 h2
    subst h1
    subst h2
    refine ⟨0, [], ?_, ?_⟩
    · intro m hm stx
      rw [longestGo]
      rfl
    · exact ⟨FEeq_refl st, covered_nil st, hinv, hbest⟩
  | cons q qs ih =>
    intro st best st' a hq hsrc hinv hbest hrun hout
    rcases h1 : mnext q st r with ⟨st1, a1⟩
    have hcall := hq q (List.mem_cons_self _ _) st r st1 a1 hsrc hinv h1
    have hqtail := fun q2 hq2 => hq q2 (List.mem_cons_of_mem _ hq2)
    cases a1 with
    | res o =>
      cases o with
      | some c =>
        obtain ⟨n1, J1, hpr1, hrg1⟩ := hcall (fun hc => Ans.noConfusion hc)
        obtain ⟨hfe1, hcov1, hinv1, hsrc1⟩ := hrg1
        have hcont : ∀ (best2 : Option Continue),
            (∀ c2, best2 = some c2 → c2.remainder.source = SRC) →
            longestGo (fun q2 st1 => mnext q2 st1 r) qs st1 best2 = (st', a) →
            ∃ n J, (∀ m, n ≤ m → ∀ stx,
                longestGo (fun q2 st1 => consume false m q2 st1 r) qs
                  (applyJ stx J1) best2 = (applyJ stx (J1 ++ J), a)) ∧
              ResGood SRC R E st (J1 ++ J) st' a := by
          intro best2 hbest2 hrun2
          obtain ⟨n2, J2, hpure2, hrg2⟩ := ih st1 best2 st' a hqtail hsrc hinv1
            hbest2 hrun2 hout
          have hr1 : Reaches st1 st' := by
            have hstep := longestGo_reaches (fun q2 st1 => mnext q2 st1 r)
              (fun q2 st0 => hreach q2 st0 r) qs st1 best2
            rw [hrun2] at hstep
            exact hstep
          refine ⟨max n1 n2, J2, ?_, ?_⟩
          · intro m hm stx
            have e2 := hpure2 m (Nat.le_trans (Nat.le_max_right _ _) hm) (applyJ stx J1)
            rw [e2, applyJ_append]
          · cases a with
            | res o2 =>
              obtain ⟨hfe2, hcov2, hinv2, hsrc2⟩ := hrg2
              refine ⟨?_, covered_append (covered_reaches hr1 hcov1) hcov2, hinv2, hsrc2⟩
              rw [applyJ_append]
              exact FEeq_trans hfe2 (FEeq_applyJ hfe1 J2)
            | recursionError p2 ctx => trivial
            | wsCrash => trivial
            | out => trivial
        cases best with
        | none =>
          have hred : longestGo (fun q2 st1 => mnext q2 st1 r) (q :: qs) st none
              = longestGo (fun q2 st1 => mnext q2 st1 r) qs st1 (some c) := by
            simp [longestGo, h1]
          rw [hred] at hrun
          obtain ⟨n3, J3, hpure3, hrg3⟩ := hcont (some c) (fun c2 hc2 => by
            injection hc2 with hc2
            rw [← hc2]
            exact hsrc1 c rfl) hrun
          refine ⟨max n1 n3, J1 ++ J3, ?_, hrg3⟩
          intro m hm stx
          have e1 := hpr1 m (Nat.le_trans (Nat.le_max_left _ _) hm) stx
          have e3 := hpure3 m (Nat.le_trans (Nat.le_max_right _ _) hm) stx
          simp only [longestGo, e1]
          exact e3
        | some b =>
          by_cases hgt : c.remainder.position > b.remainder.position
          · have hred : longestGo (fun q2 st1 => mnext q2 st1 r) (q :: qs) st (some b)
                = longestGo (fun q2 st1 => mnext q2 st1 r) qs st1 (some c) := by
              simp [longestGo, h1, hgt]
            rw [hred] at hrun
            obtain ⟨n3, J3, hpure3, hrg3⟩ := hcont (some c) (fun c2 hc2 => by
              injection hc2 with hc2
              rw [← hc2]
              exact hsrc1 c rfl) hrun
            refine ⟨max n1 n3, J1 ++ J3, ?_, hrg3⟩
            intro m hm stx
            have e1 := hpr1 m (Nat.le_trans (Nat.le_max_left _ _) hm) stx
            have e3 := hpure3 m (Nat.le_trans (Nat.le_max_right _ _) hm) stx
            simp only [longestGo, e1]
            simp only [if_pos hgt]
            exact e3
          · have hred : longestGo (fun q2 st1 => mnext q2 st1 r) (q :: qs) st (some b)
                = longestGo (fun q2 st1 => mnext q2 st1 r) qs st1 (some b) := by
              simp [longestGo, h1, hgt]
            rw [hred] at hrun
            obtain ⟨n3, J3, hpure3, hrg3⟩ := hcont (some b) hbest hrun
            refine ⟨max n1 n3, J1 ++ J3, ?_, hrg3⟩
            intro m hm stx
            have e1 := hpr1 m (Nat.le_trans (Nat.le_max_left _ _) hm) stx
            have e3 := hpure3 m (Nat.le_trans (Nat.le_max_right _ _) hm) stx
            simp only [longestGo, e1]
            simp only [if_neg hgt]
            exact e3
      | none =>
        obtain ⟨n1, J1, hpr1, hrg1⟩ := hcall (fun hc => Ans.noConfusion hc)
        obtain ⟨hfe1, hcov1, hinv1, hsrc1⟩ := hrg1
        have hred : longestGo (fun q2 st1 => mnext q2 st1 r) (q :: qs) st best
            = longestGo (fun q2 st1 => mnext q2 st1 r) qs st1 best := by
          simp [longestGo, h1]
        rw [hred] at hrun
        obtain ⟨n2, J2, hpure2, hrg2⟩ := ih st1 best st' a hqtail hsrc hinv1
          hbest hrun hout
        have hr1 : Reaches st1 st' := by
          have hstep := longestGo_reaches (fun q2 st1 => mnext q2 st1 r)
            (fun q2 st0 => hreach q2 st0 r) qs st1 best
          rw [hrun] at hstep
          exact hstep
        refine ⟨max n1 n2, J1 ++ J2, ?_, ?_⟩
        · intro m hm stx
          have e1 := hpr1 m (Nat.le_trans (Nat.le_max_left _ _) hm) stx
          have e2 := hpure2 m (Nat.le_trans (Nat.le_max_right _ _) hm) (applyJ stx J1)
          simp only [longestGo, e1]
          rw [e2, applyJ_append]
        · cases a with
          | res o2 =>
            obtain ⟨hfe2, hcov2, hinv2, hsrc2⟩ := hrg2
            refine ⟨?_, covered_append (covered_reaches hr1 hcov1) hcov2, hinv2, hsrc2⟩
            rw [applyJ_append]
            exact FEeq_trans hfe2 (FEeq_applyJ hfe1 J2)
          | recursionError p2 ctx => trivial
          | wsCrash => trivial
          | out => trivial
    | recursionError p2 ctx =>
      obtain ⟨n1, J1, hpr1, hrg1⟩ := hcall (fun hc => Ans.noConfusion hc)
      have hred : longestGo (fun q2 st1 => mnext q2 st1 r) (q :: qs) st best
          = (st1, .recursionError p2 ctx) := by
        simp [longestGo, h1]
      rw [hred] at hrun
      injection hrun with h1b h2b
      subst h1b
      subst h2b
      refine ⟨n1, J1, ?_, trivial⟩
      intro m hm stx
      simp [longestGo, hpr1 m hm stx]
    | wsCrash =>
      obtain ⟨n1, J1, hpr1, hrg1⟩ := hcall (fun hc => Ans.noConfusion hc)
      have hred : longestGo (fun q2 st1 => mnext q2 st1 r) (q :: qs) st best
          = (st1, .wsCrash) := by
        simp [longestGo, h1]
      rw [hred] at hrun
      injection hrun with h1b h2b
      subst h1b
      subst h2b
      refine ⟨n1, J1, ?_, trivial⟩
      intro m hm stx
      simp [longestGo, hpr1 m hm stx]
    | out =>
      have hred : longestGo (fun q2 st1 => mnext q2 st1 r) (q :: qs) st best
          = (st1, .out) := by
        simp [longestGo, h1]
      rw [hred] at hrun
      injection hrun with h1b h2b
      exact absurd h2b.symm hout

end Parsita

namespace Parsita

theorem repGo_sim (SRC : List Char) (R : Parser) (E : List (Nat × Nat))
    (next : State → Reader → State × Ans) (q selfP : Parser) (mn : Nat)
    (mx : Option Nat)
    (hreach : ∀ st r, Reaches st (next st r).1)
    (hnq : Simcall SRC R E q next) :
    ∀ (k : Nat) (st : State) (acc : List Value) (rem : Reader) (st' : State) (a : Ans),
      rem.source = SRC → Inv SRC R E st →
      repGo next selfP mn mx k st acc rem = (st', a) → a ≠ .out →
      ∃ n J, (∀ m, n ≤ m → ∀ stx,
          repGo (fun st1 r1 => consume false m q st1 r1) selfP mn mx k stx acc rem
            = (applyJ stx J, a)) ∧
        ResGood SRC R E st J st' a := by
  intro k
  induction k with
  | zero =>
    intro st acc rem st' a hsrc hinv hrun hout
    rw [repGo] at hrun
    injection hrun with h1b h2b
    exact absurd h2b.symm hout
  | succ k ih =>
    intro st acc rem st' a hsrc hinv hrun hout
    by_cases hmx : underMax acc.length mx = true
    · rcases h1 : next st rem with ⟨st1, a1⟩
      have hcall := hnq st rem st1 a1 hsrc hinv h1
      cases a1 with
      | res o =>
        cases o with
        | some c =>
          obtain ⟨n1, J1, hpr1, hrg1⟩ := hcall (fun hc => Ans.noConfusion hc)
          obtain ⟨hfe1, hcov1, hinv1, hsrc1⟩ := hrg1
          by_cases hpos : rem.position = c.remainder.position
          · have hred : repGo next selfP mn mx (k + 1) st acc rem
                = (st1, .recursionError selfP rem) := by
              simp [repGo, hmx, h1, hpos]
            rw [hred] at hrun
            injection hrun with h1b h2b
            subst h1b
            subst h2b
            refine ⟨n1, J1, ?_, trivial⟩
            intro m hm stx
            simp [repGo, hmx, hpr1 m hm stx, hpos]
          · have hred : repGo next selfP mn mx (k + 1) st acc rem
                = repGo next selfP mn mx k st1 (acc ++ [c.value]) c.remainder := by
              simp [repGo, hmx, h1, hpos]
            rw [hred] at hrun
            obtain ⟨n2, J2, hpure2, hrg2⟩ := ih st1 (acc ++ [c.value]) c.remainder st' a
              (hsrc1 c rfl) hinv1 hrun hout
            have hr1 : Reaches st1 st' := by
              have hstep := repGo_reaches next selfP mn mx hreach k st1
                (acc ++ [c.value]) c.remainder
              rw [hrun] at hstep
              exact hstep
            refine ⟨max n1 n2, J1 ++ J2, ?_, ?_⟩
            · intro m hm stx
              have e1 := hpr1 m (Nat.le_trans (Nat.le_max_left _ _) hm) stx
              have e2 := hpure2 m (Nat.le_trans (Nat.le_max_right _ _) hm) (applyJ stx J1)
              simp only [repGo, hmx, if_true, e1]
              simp only [if_neg hpos]
              rw [e2, applyJ_append]
            · cases a with
              | res o2 =>
                obtain ⟨hfe2, hcov2, hinv2, hsrc2⟩ := hrg2
                refine ⟨?_, covered_append (covered_reaches hr1 hcov1) hcov2, hinv2, hsrc2⟩
                rw [applyJ_append]
                exact FEeq_trans hfe2 (FEeq_applyJ hfe1 J2)
              | recursionError p2 ctx => trivial
              | wsCrash => trivial
              | out => trivial
        | none =>
          obtain ⟨n1, J1, hpr1, hrg1⟩ := hcall (fun hc => Ans.noConfusion hc)
          obtain ⟨hfe1, hcov1, hinv1, hsrc1⟩ := hrg1
          have hred : repGo next selfP mn mx (k + 1) st acc rem
              = (st1, repExit acc mn rem) := by
            simp [repGo, hmx, h1]
          rw [hred] at hrun
          injection hrun with h1b h2b
          subst h1b
          subst h2b
          refine ⟨n1, J1, ?_, ?_⟩
          · intro m hm stx
            simp [repGo, hmx, hpr1 m hm stx]
          · unfold repExit
            by_cases hmn : mn ≤ acc.length
            · rw [if_pos hmn]
              exact ⟨hfe1, hcov1, hinv1, fun c hc => by
                injection hc with hc
                rw [← hc]
                exact hsrc⟩
            · rw [if_neg hmn]
              exact ⟨hfe1, hcov1, hinv1, fun c hc => by cases hc⟩
      | recursionError p2 ctx =>
        obtain ⟨n1, J1, hpr1, hrg1⟩ := hcall (fun hc => Ans.noConfusion hc)
        have hred : repGo next selfP mn mx (k + 1) st acc rem
            = (st1, .recursionError p2 ctx) := by
          simp [repGo, hmx, h1]
        rw [hred] at hrun
        injection hrun with h1b h2b
        subst h1b
        subst h2b
        refine ⟨n1, J1, ?_, trivial⟩
        intro m hm stx
        simp [repGo, hmx, hpr1 m hm stx]
      | wsCrash =>
        obtain ⟨n1, J1, hpr1, hrg1⟩ := hcall (fun hc => Ans.noConfusion hc)
        have hred : repGo next selfP mn mx (k + 1) st acc rem = (st1, .wsCrash) := by
          simp [repGo, hmx, h1]
        rw [hred] at hrun
        injection hrun with h1b h2b
        subst h1b
        subst h2b
        refine ⟨n1, J1, ?_, trivial⟩
        intro m hm stx
        simp [repGo, hmx, hpr1 m hm stx]
      | out =>
        have hred : repGo next selfP mn mx (k + 1) st acc rem = (st1, .out) := by
          simp [repGo, hmx, h1]
        rw [hred] at hrun
        injection hrun with h1b h2b
        exact absurd h2b.symm hout
    · have hred : repGo next selfP mn mx (k + 1) st acc rem
          = (st, repExit acc mn rem) := by
        simp [repGo, hmx]
      rw [hred] at hrun
      injection hrun with h1b h2b
      subst h1b
      subst h2b
      refine ⟨0, [], ?_, ?_⟩
      · intro m hm stx
        simp [repGo, hmx, applyJ]
      · unfold repExit
        by_cases hmn : mn ≤ acc.length
        · rw [if_pos hmn]
          exact ⟨FEeq_refl st, covered_nil st, hinv, fun c hc => by
            injection hc with hc
            rw [← hc]
            exact hsrc⟩
        · rw [if_neg hmn]
          exact ⟨FEeq_refl st, covered_nil st, hinv, fun c hc => by cases hc⟩

theorem rep1Go_sim (SRC : List Char) (R : Parser) (E : List (Nat × Nat))
    (next : State → Reader → State × Ans) (q selfP : Parser)
    (hreach : ∀ st r, Reaches st (next st r).1)
    (hnq : Simcall SRC R E q next) :
    ∀ (k : Nat) (st : State) (acc : List Value) (rem : Reader) (st' : State) (a : Ans),
      rem.source = SRC → Inv SRC R E st →
      rep1Go next selfP k st acc rem = (st', a) → a ≠ .out →
      ∃ n J, (∀ m, n ≤ m → ∀ stx,
          rep1Go (fun st1 r1 => consume false m q st1 r1) selfP k stx acc rem
            = (applyJ stx J, a)) ∧
        ResGood SRC R E st J st' a := by
  intro k
  induction k with
  | zero =>
    intro st acc rem st' a hsrc hinv hrun hout
    rw [rep1Go] at hrun
    injection hrun with h1b h2b
    exact absurd h2b.symm hout
  | succ k ih =>
    intro st acc rem st' a hsrc hinv hrun hout
    rcases h1 : next st rem with ⟨st1, a1⟩
    have hcall := hnq st rem st1 a1 hsrc hinv h1
    cases a1 with
    | res o =>
      cases o with
      | some c =>
        obtain ⟨n1, J1, hpr1, hrg1⟩ := hcall (fun hc => Ans.noConfusion hc)
        obtain ⟨hfe1, hcov1, hinv1, hsrc1⟩ := hrg1
        by_cases hpos : rem.position = c.remainder.position
        · have hred : rep1Go next selfP (k + 1) st acc rem
              = (st1, .recursionError selfP rem) := by
            simp [rep1Go, h1, hpos]
          rw [hred] at hrun
          injection hrun with h1b h2b
          subst h1b
          subst h2b
          refine ⟨n1, J1, ?_, trivial⟩
          intro m hm stx
          simp [rep1Go, hpr1 m hm stx, hpos]
        · have hred : rep1Go next selfP (k + 1) st acc rem
              = rep1Go next selfP k st1 (acc ++ [c.value]) c.remainder := by
            simp [rep1Go, h1, hpos]
          rw [hred] at hrun
          obtain ⟨n2, J2, hpure2, hrg2⟩ := ih st1 (acc ++ [c.value]) c.remainder st' a
            (hsrc1 c rfl) hinv1 hrun hout
          have hr1 : Reaches st1 st' := by
            have hstep := rep1Go_reaches next selfP hreach k st1
              (acc ++ [c.value]) c.remainder
            rw [hrun] at hstep
            exact hstep
          refine ⟨max n1 n2, J1 ++ J2, ?_, ?_⟩
          · intro m hm stx
            have e1 := hpr1 m (Nat.le_trans (Nat.le_max_left _ _) hm) stx
            have e2 := hpure2 m (Nat.le_trans (Nat.le_max_right _ _) hm) (applyJ stx J1)
            simp only [rep1Go, e1]
            simp only [if_neg hpos]
            rw [e2, applyJ_append]
          · cases a with
            | res o2 =>
              obtain ⟨hfe2, hcov2, hinv2, hsrc2⟩ := hrg2
              refine ⟨?_, covered_append (covered_reaches hr1 hcov1) hcov2, hinv2, hsrc2⟩
              rw [applyJ_append]
              exact FEeq_trans hfe2 (FEeq_applyJ hfe1 J2)
            | recursionError p2 ctx => trivial
            | wsCrash => trivial
            | out => trivial
      | none =>
        obtain ⟨n1, J1, hpr1, hrg1⟩ := hcall (fun hc => Ans.noConfusion hc)
        obtain ⟨hfe1, hcov1, hinv1, hsrc1⟩ := hrg1
        have hred : rep1Go next selfP (k + 1) st acc rem
            = (st1, .res (some ⟨rem, .list acc⟩)) := by
          simp [rep1Go, h1]
        rw [hred] at hrun
        injection hrun with h1b h2b
        subst h1b
        subst h2b
        refine ⟨n1, J1, ?_, ?_⟩
        · intro m hm stx
          simp [rep1Go, hpr1 m hm stx]
        · exact ⟨hfe1, hcov1, hinv1, fun c hc => by
            injection hc with hc
            rw [← hc]
            exact hsrc⟩
    | recursionError p2 ctx =>
      obtain ⟨n1, J1, hpr1, hrg1⟩ := hcall (fun hc => Ans.noConfusion hc)
      have hred : rep1Go next selfP (k + 1) st acc rem
          = (st1, .recursionError p2 ctx) := by
        simp [rep1Go, h1]
      rw [hred] at hrun
      injection hrun with h1b h2b
      subst h1b
      subst h2b
      refine ⟨n1, J1, ?_, trivial⟩
      intro m hm stx
      simp [rep1Go, hpr1 m hm stx]
    | wsCrash =>
      obtain ⟨n1, J1, hpr1, hrg1⟩ := hcall (fun hc => Ans.noConfusion hc)
      have hred : rep1Go next selfP (k + 1) st acc rem = (st1, .wsCrash) := by
        simp [rep1Go, h1]
      rw [hred] at hrun
      injection hrun with h1b h2b
      subst h1b
      subst h2b
      refine ⟨n1, J1, ?_, trivial⟩
      intro m hm stx
      simp [rep1Go, hpr1 m hm stx]
    | out =>
      have hred : rep1Go next selfP (k + 1) st acc rem = (st1, .out) := by
        simp [rep1Go, h1]
      rw [hred] at hrun
      injection hrun with h1b h2b
      exact absurd h2b.symm hout

end Parsita

namespace Parsita

theorem repsepGo_sim (SRC : List Char) (R : Parser) (E : List (Nat × Nat))
    (nextP nextSep : State → Reader → State × Ans) (q sep selfP : Parser) (mn : Nat)
    (mx : Option Nat)
    (hreachP : ∀ st r, Reaches st (nextP st r).1)
    (hreachS : ∀ st r, Reaches st (nextSep st r).1)
    (hnq : Simcall SRC R E q nextP)
    (hns : Simcall SRC R E sep nextSep) :
    ∀ (k : Nat) (st : State) (acc : List Value) (rem : Reader) (st' : State) (a : Ans),
      rem.source = SRC → Inv SRC R E st →
      repsepGo nextP nextSep selfP mn mx k st acc rem = (st', a) → a ≠ .out →
      ∃ n J, (∀ m, n ≤ m → ∀ stx,
          repsepGo (fun st1 r1 => consume false m q st1 r1)
            (fun st1 r1 => consume false m sep st1 r1) selfP mn mx k stx acc rem
            = (applyJ stx J, a)) ∧
        ResGood SRC R E st J st' a := by
  intro k
  induction k with
  | zero =>
    intro st acc rem st' a hsrc hinv hrun hout
    rw [repsepGo] at hrun
    injection hrun with h1b h2b
    exact absurd h2b.symm hout
  | succ k ih =>
    intro st acc rem st' a hsrc hinv hrun hout
    by_cases hmx : underMax acc.length mx = true
    · rcases h1 : nextSep st rem with ⟨st1, a1⟩
      have hcallS := hns st rem st1 a1 hsrc hinv h1
      cases a1 with
      | res o =>
        cases o with
        | some sc =>
          obtain ⟨n1, J1, hpr1, hrg1⟩ := hcallS (fun hc => Ans.noConfusion hc)
          obtain ⟨hfe1, hcov1, hinv1, hsrc1⟩ := hrg1
          rcases h2 : nextP st1 sc.remainder with ⟨st2, a2⟩
          have hcallP := hnq st1 sc.remainder st2 a2 (hsrc1 sc rfl) hinv1 h2
          have hr12 : Reaches st1 st2 := by
            have hstep := hreachP st1 sc.remainder
            rw [h2] at hstep
            exact hstep
          cases a2 with
          | res o2 =>
            cases o2 with
            | some pc =>
              obtain ⟨n2, J2, hpr2, hrg2⟩ := hcallP (fun hc => Ans.noConfusion hc)
              obtain ⟨hfe2, hcov2, hinv2, hsrc2⟩ := hrg2
              by_cases hpos : rem.position = pc.remainder.position
              · have hred : repsepGo nextP nextSep selfP mn mx (k + 1) st acc rem
                    = (st2, .recursionError selfP rem) := by
                  simp [repsepGo, hmx, h1, h2, hpos]
                rw [hred] at hrun
                injection hrun with h1b h2b
                subst h1b
                subst h2b
                refine ⟨max n1 n2, J1 ++ J2, ?_, trivial⟩
                intro m hm stx
                have e1 := hpr1 m (Nat.le_trans (Nat.le_max_left _ _) hm) stx
                have e2 := hpr2 m (Nat.le_trans (Nat.le_max_right _ _) hm) (applyJ stx J1)
                simp [repsepGo, hmx, e1, e2, hpos, applyJ_append]
              · have hred : repsepGo nextP nextSep selfP mn mx (k + 1) st acc rem
                    = repsepGo nextP nextSep selfP mn mx k st2 (acc ++ [pc.value])
                        pc.remainder := by
                  simp [repsepGo, hmx, h1, h2, hpos]
                rw [hred] at hrun
                obtain ⟨n3, J3, hpure3, hrg3⟩ := ih st2 (acc ++ [pc.value]) pc.remainder
                  st' a (hsrc2 pc rfl) hinv2 hrun hout
                have hr23 : Reaches st2 st' := by
                  have hstep := repsepGo_reaches nextP nextSep selfP mn mx hreachP hreachS
                    k st2 (acc ++ [pc.value]) pc.remainder
                  rw [hrun] at hstep
                  exact hstep
                refine ⟨max (max n1 n2) n3, (J1 ++ J2) ++ J3, ?_, ?_⟩
                · intro m hm stx
                  have e1 := hpr1 m (Nat.le_trans (Nat.le_trans (Nat.le_max_left _ _)
                    (Nat.le_max_left _ _)) hm) stx
                  have e2 := hpr2 m (Nat.le_trans (Nat.le_trans (Nat.le_max_right _ _)
                    (Nat.le_max_left _ _)) hm) (applyJ stx J1)
                  have e3 := hpure3 m (Nat.le_trans (Nat.le_max_right _ _) hm)
                    (applyJ (applyJ stx J1) J2)
                  simp only [repsepGo, hmx, if_true, e1]
                  simp only [e2]
                  simp only [if_neg hpos]
                  rw [e3, applyJ_append, applyJ_append]
                · cases a with
                  | res o3 =>
                    obtain ⟨hfe3, hcov3, hinv3, hsrc3⟩ := hrg3
                    refine ⟨?_, ?_, hinv3, hsrc3⟩
                    · rw [applyJ_append, applyJ_append]
                      exact FEeq_trans hfe3 (FEeq_applyJ
                        (FEeq_trans hfe2 (FEeq_applyJ hfe1 J2)) J3)
                    · refine covered_append (covered_append ?_ ?_) hcov3
                      · exact covered_reaches (hr12.trans hr23) hcov1
                      · exact covered_reaches hr23 hcov2
                  | recursionError p2 ctx => trivial
                  | wsCrash => trivial
                  | out => trivial
            | none =>
              obtain ⟨n2, J2, hpr2, hrg2⟩ := hcallP (fun hc => Ans.noConfusion hc)
              obtain ⟨hfe2, hcov2, hinv2, hsrc2⟩ := hrg2
              have hred : repsepGo nextP nextSep selfP mn mx (k + 1) st acc rem
                  = (st2, repExit acc mn rem) := by
                simp [repsepGo, hmx, h1, h2]
              rw [hred] at hrun
              injection hrun with h1b h2b
              subst h1b
              subst h2b
              refine ⟨max n1 n2, J1 ++ J2, ?_, ?_⟩
              · intro m hm stx
                have e1 := hpr1 m (Nat.le_trans (Nat.le_max_left _ _) hm) stx
                have e2 := hpr2 m (Nat.le_trans (Nat.le_max_right _ _) hm) (applyJ stx J1)
                simp [repsepGo, hmx, e1, e2, applyJ_append]
              · have hfe12 : FEeq st2 (applyJ st (J1 ++ J2)) := by
                  rw [applyJ_append]
                  exact FEeq_trans hfe2 (FEeq_applyJ hfe1 J2)
                have hcov12 : Covered st2 (J1 ++ J2) :=
                  covered_append (covered_reaches hr12 hcov1) hcov2
                unfold repExit
                by_cases hmn : mn ≤ acc.length
                · rw [if_pos hmn]
                  exact ⟨hfe12, hcov12, hinv2, fun c hc => by
                    injection hc with hc
                    rw [← hc]
                    exact hsrc⟩
                · rw [if_neg hmn]
                  exact ⟨hfe12, hcov12, hinv2, fun c hc => by cases hc⟩
          | recursionError p2 ctx =>
            obtain ⟨n2, J2, hpr2, hrg2⟩ := hcallP (fun hc => Ans.noConfusion hc)
            have hred : repsepGo nextP nextSep selfP mn mx (k + 1) st acc rem
                = (st2, .recursionError p2 ctx) := by
              simp [repsepGo, hmx, h1, h2]
            rw [hred] at hrun
            injection hrun with h1b h2b
            subst h1b
            subst h2b
            refine ⟨max n1 n2, J1 ++ J2, ?_, trivial⟩
            intro m hm stx
            have e1 := hpr1 m (Nat.le_trans (Nat.le_max_left _ _) hm) stx
            have e2 := hpr2 m (Nat.le_trans (Nat.le_max_right _ _) hm) (applyJ stx J1)
            simp [repsepGo, hmx, e1, e2, applyJ_append]
          | wsCrash =>
            obtain ⟨n2, J2, hpr2, hrg2⟩ := hcallP (fun hc => Ans.noConfusion hc)
            have hred : repsepGo nextP nextSep selfP mn mx (k + 1) st acc rem
                = (st2, .wsCrash) := by
              simp [repsepGo, hmx, h1, h2]
            rw [hred] at hrun
            injection hrun with h1b h2b
            subst h1b
            subst h2b
            refine ⟨max n1 n2, J1 ++ J2, ?_, trivial⟩
            intro m hm stx
            have e1 := hpr1 m (Nat.le_trans (Nat.le_max_left _ _) hm) stx
            have e2 := hpr2 m (Nat.le_trans (Nat.le_max_right _ _) hm) (applyJ stx J1)
            simp [repsepGo, hmx, e1, e2, applyJ_append]
          | out =>
            have hred : repsepGo nextP nextSep selfP mn mx (k + 1) st acc rem
                = (st2, .out) := by
              simp [repsepGo, hmx, h1, h2]
            rw [hred] at hrun
            injection hrun with h1b h2b
            exact absurd h2b.symm hout
        | none =>
          obtain ⟨n1, J1, hpr1, hrg1⟩ := hcallS (fun hc => Ans.noConfusion hc)
          obtain ⟨hfe1, hcov1, hinv1, hsrc1⟩ := hrg1
          have hred : repsepGo nextP nextSep selfP mn mx (k + 1) st acc rem
              = (st1, repExit acc mn rem) := by
            simp [repsepGo, hmx, h1]
          rw [hred] at hrun
          injection hrun with h1b h2b
          subst h1b
          subst h2b
          refine ⟨n1, J1, ?_, ?_⟩
          · intro m hm stx
            simp [repsepGo, hmx, hpr1 m hm stx]
          · unfold repExit
            by_cases hmn : mn ≤ acc.length
            · rw [if_pos hmn]
              exact ⟨hfe1, hcov1, hinv1, fun c hc => by
                injection hc with hc
                rw [← hc]
                exact hsrc⟩
            · rw [if_neg hmn]
              exact ⟨hfe1, hcov1, hinv1, fun c hc => by cases hc⟩
      | recursionError p2 ctx =>
        obtain ⟨n1, J1, hpr1, hrg1⟩ := hcallS (fun hc => Ans.noConfusion hc)
        have hred : repsepGo nextP nextSep selfP mn mx (k + 1) st acc rem
            = (st1, .recursionError p2 ctx) := by
          simp [repsepGo, hmx, h1]
        rw [hred] at hrun
        injection hrun with h1b h2b
        subst h1b
        subst h2b
        refine ⟨n1, J1, ?_, trivial⟩
        intro m hm stx
        simp [repsepGo, hmx, hpr1 m hm stx]
      | wsCrash =>
        obtain ⟨n1, J1, hpr1, hrg1⟩ := hcallS (fun hc => Ans.noConfusion hc)
        have hred : repsepGo nextP nextSep selfP mn mx (k + 1) st acc rem
            = (st1, .wsCrash) := by
          simp [repsepGo, hmx, h1]
        rw [hred] at hrun
        injection hrun with h1b h2b
        subst h1b
        subst h2b
        refine ⟨n1, J1, ?_, trivial⟩
        intro m hm stx
        simp [repsepGo, hmx, hpr1 m hm stx]
      | out =>
        have hred : repsepGo nextP nextSep selfP mn mx (k + 1) st acc rem
            = (st1, .out) := by
          simp [repsepGo, hmx, h1]
        rw [hred] at hrun
        injection hrun with h1b h2b
        exact absurd h2b.symm hout
    · have hred : repsepGo nextP nextSep selfP mn mx (k + 1) st acc rem
          = (st, repExit acc mn rem) := by
        simp [repsepGo, hmx]
      rw [hred] at hrun
      injection hrun with h1b h2b
      subst h1b
      subst h2b
      refine ⟨0, [], ?_, ?_⟩
      · intro m hm stx
        simp [repsepGo, hmx, applyJ]
      · unfold repExit
        by_cases hmn : mn ≤ acc.length
        · rw [if_pos hmn]
          exact ⟨FEeq_refl st, covered_nil st, hinv, fun c hc => by
            injection hc with hc
            rw [← hc]
            exact hsrc⟩
        · rw [if_neg hmn]
          exact ⟨FEeq_refl st, covered_nil st, hinv, fun c hc => by cases hc⟩

end Parsita

namespace Parsita

theorem rep1sepGo_sim (SRC : List Char) (R : Parser) (E : List (Nat × Nat))
    (nextP nextSep : State → Reader → State × Ans) (q sep selfP : Parser)
    (hreachP : ∀ st r, Reaches st (nextP st r).1)
    (hreachS : ∀ st r, Reaches st (nextSep st r).1)
    (hnq : Simcall SRC R E q nextP)
    (hns : Simcall SRC R E sep nextSep) :
    ∀ (k : Nat) (st : State) (acc : List Value) (rem : Reader) (st' : State) (a : Ans),
      rem.source = SRC → Inv SRC R E st →
      rep1sepGo nextP nextSep selfP k st acc rem = (st', a) → a ≠ .out →
      ∃ n J, (∀ m, n ≤ m → ∀ stx,
          rep1sepGo (fun st1 r1 => consume false m q st1 r1)
            (fun st1 r1 => consume false m sep st1 r1) selfP k stx acc rem
            = (applyJ stx J, a)) ∧
        ResGood SRC R E st J st' a := by
  intro k
  induction k with
  | zero =>
    intro st acc rem st' a hsrc hinv hrun hout
    rw [rep1sepGo] at hrun
    injection hrun with h1b h2b
    exact absurd h2b.symm hout
  | succ k ih =>
    intro st acc rem st' a hsrc hinv hrun hout
    rcases h1 : nextSep st rem with ⟨st1, a1⟩
    have hcallS := hns st rem st1 a1 hsrc hinv h1
    cases a1 with
    | res o =>
      cases o with
      | some sc =>
        obtain ⟨n1, J1, hpr1, hrg1⟩ := hcallS (fun hc => Ans.noConfusion hc)
        obtain ⟨hfe1, hcov1, hinv1, hsrc1⟩ := hrg1
        rcases h2 : nextP st1 sc.remainder with ⟨st2, a2⟩
        have hcallP := hnq st1 sc.remainder st2 a2 (hsrc1 sc rfl) hinv1 h2
        have hr12 : Reaches st1 st2 := by
          have hstep := hreachP st1 sc.remainder
          rw [h2] at hstep
          exact hstep
        cases a2 with
        | res o2 =>
          cases o2 with
          | some pc =>
            obtain ⟨n2, J2, hpr2, hrg2⟩ := hcallP (fun hc => Ans.noConfusion hc)
            obtain ⟨hfe2, hcov2, hinv2, hsrc2⟩ := hrg2
            by_cases hpos : rem.position = pc.remainder.position
            · have hred : rep1sepGo nextP nextSep selfP (k + 1) st acc rem
                  = (st2, .recursionError selfP rem) := by
                simp [rep1sepGo, h1, h2, hpos]
              rw [hred] at hrun
              injection hrun with h1b h2b
              subst h1b
              subst h2b
              refine ⟨max n1 n2, J1 ++ J2, ?_, trivial⟩
              intro m hm stx
              have e1 := hpr1 m (Nat.le_trans (Nat.le_max_left _ _) hm) stx
              have e2 := hpr2 m (Nat.le_trans (Nat.le_max_right _ _) hm) (applyJ stx J1)
              simp [rep1sepGo, e1, e2, hpos, applyJ_append]
            · have hred : rep1sepGo nextP nextSep selfP (k + 1) st acc rem
                  = rep1sepGo nextP nextSep selfP k st2 (acc ++ [pc.value])
                      pc.remainder := by
                simp [rep1sepGo, h1, h2, hpos]
              rw [hred] at hrun
              obtain ⟨n3, J3, hpure3, hrg3⟩ := ih st2 (acc ++ [pc.value]) pc.remainder
                st' a (hsrc2 pc rfl) hinv2 hrun hout
              have hr23 : Reaches st2 st' := by
                have hstep := rep1sepGo_reaches nextP nextSep selfP hreachP hreachS
                  k st2 (acc ++ [pc.value]) pc.remainder
                rw [hrun] at hstep
                exact hstep
              refine ⟨max (max n1 n2) n3, (J1 ++ J2) ++ J3, ?_, ?_⟩
              · intro m hm stx
                have e1 := hpr1 m (Nat.le_trans (Nat.le_trans (Nat.le_max_left _ _)
                  (Nat.le_max_left _ _)) hm) stx
                have e2 := hpr2 m (Nat.le_trans (Nat.le_trans (Nat.le_max_right _ _)
                  (Nat.le_max_left _ _)) hm) (applyJ stx J1)
                have e3 := hpure3 m (Nat.le_trans (Nat.le_max_right _ _) hm)
                  (applyJ (applyJ stx J1) J2)
                simp only [rep1sepGo, e1]
                simp only [e2]
                simp only [if_neg hpos]
                rw [e3, applyJ_append, applyJ_append]
              · cases a with
                | res o3 =>
                  obtain ⟨hfe3, hcov3, hinv3, hsrc3⟩ := hrg3
                  refine ⟨?_, ?_, hinv3, hsrc3⟩
                  · rw [applyJ_append, applyJ_append]
                    exact FEeq_trans hfe3 (FEeq_applyJ
                      (FEeq_trans hfe2 (FEeq_applyJ hfe1 J2)) J3)
                  · refine covered_append (covered_append ?_ ?_) hcov3
                    · exact covered_reaches (hr12.trans hr23) hcov1
                    · exact covered_reaches hr23 hcov2
                | recursionError p2 ctx => trivial
                | wsCrash => trivial
                | out => trivial
          | none =>
            obtain ⟨n2, J2, hpr2, hrg2⟩ := hcallP (fun hc => Ans.noConfusion hc)
            obtain ⟨hfe2, hcov2, hinv2, hsrc2⟩ := hrg2
            have hred : rep1sepGo nextP nextSep selfP (k + 1) st acc rem
                = (st2, .res (some ⟨rem, .list acc⟩)) := by
              simp [rep1sepGo, h1, h2]
            rw [hred] at hrun
            injection hrun with h1b h2b
            subst h1b
            subst h2b
            refine ⟨max n1 n2, J1 ++ J2, ?_, ?_⟩
            · intro m hm stx
              have e1 := hpr1 m (Nat.le_trans (Nat.le_max_left _ _) hm) stx
              have e2 := hpr2 m (Nat.le_trans (Nat.le_max_right _ _) hm) (applyJ stx J1)
              simp [rep1sepGo, e1, e2, applyJ_append]
            · refine ⟨?_, covered_append (covered_reaches hr12 hcov1) hcov2, hinv2,
                fun c hc => by
                  injection hc with hc
                  rw [← hc]
                  exact hsrc⟩
              rw [applyJ_append]
              exact FEeq_trans hfe2 (FEeq_applyJ hfe1 J2)
        | recursionError p2 ctx =>
          obtain ⟨n2, J2, hpr2, hrg2⟩ := hcallP (fun hc => Ans.noConfusion hc)
          have hred : rep1sepGo nextP nextSep selfP (k + 1) st acc rem
              = (st2, .recursionError p2 ctx) := by
            simp [rep1sepGo, h1, h2]
          rw [hred] at hrun
          injection hrun with h1b h2b
          subst h1b
          subst h2b
          refine ⟨max n1 n2, J1 ++ J2, ?_, trivial⟩
          intro m hm stx
          have e1 := hpr1 m (Nat.le_trans (Nat.le_max_left _ _) hm) stx
          have e2 := hpr2 m (Nat.le_trans (Nat.le_max_right _ _) hm) (applyJ stx J1)
          simp [rep1sepGo, e1, e2, applyJ_append]
        | wsCrash =>
          obtain ⟨n2, J2, hpr2, hrg2⟩ := hcallP (fun hc => Ans.noConfusion hc)
          have hred : rep1sepGo nextP nextSep selfP (k + 1) st acc rem
              = (st2, .wsCrash) := by
            simp [rep1sepGo, h1, h2]
          rw [hred] at hrun
          injection hrun with h1b h2b
          subst h1b
          subst h2b
          refine ⟨max n1 n2, J1 ++ J2, ?_, trivial⟩
          intro m hm stx
          have e1 := hpr1 m (Nat.le_trans (Nat.le_max_left _ _) hm) stx
          have e2 := hpr2 m (Nat.le_trans (Nat.le_max_right _ _) hm) (applyJ stx J1)
          simp [rep1sepGo, e1, e2, applyJ_append]
        | out =>
          have hred : rep1sepGo nextP nextSep selfP (k + 1) st acc rem
              = (st2, .out) := by
            simp [rep1sepGo, h1, h2]
          rw [hred] at hrun
          injection hrun with h1b h2b
          exact absurd h2b.symm hout
      | none =>
        obtain ⟨n1, J1, hpr1, hrg1⟩ := hcallS (fun hc => Ans.noConfusion hc)
        obtain ⟨hfe1, hcov1, hinv1, hsrc1⟩ := hrg1
        have hred : rep1sepGo nextP nextSep selfP (k + 1) st acc rem
            = (st1, .res (some ⟨rem, .list acc⟩)) := by
          simp [rep1sepGo, h1]
        rw [hred] at hrun
        injection hrun with h1b h2b
        subst h1b
        subst h2b
        refine ⟨n1, J1, ?_, ?_⟩
        · intro m hm stx
          simp [rep1sepGo, hpr1 m hm stx]
        · exact ⟨hfe1, hcov1, hinv1, fun c hc => by
            injection hc with hc
            rw [← hc]
            exact hsrc⟩
    | recursionError p2 ctx =>
      obtain ⟨n1, J1, hpr1, hrg1⟩ := hcallS (fun hc => Ans.noConfusion hc)
      have hred : rep1sepGo nextP nextSep selfP (k + 1) st acc rem
          = (st1, .recursionError p2 ctx) := by
        simp [rep1sepGo, h1]
      rw [hred] at hrun
      injection hrun with h1b h2b
      subst h1b
      subst h2b
      refine ⟨n1, J1, ?_, trivial⟩
      intro m hm stx
      simp [rep1sepGo, hpr1 m hm stx]
    | wsCrash =>
      obtain ⟨n1, J1, hpr1, hrg1⟩ := hcallS (fun hc => Ans.noConfusion hc)
      have hred : rep1sepGo nextP nextSep selfP (k + 1) st acc rem
          = (st1, .wsCrash) := by
        simp [rep1sepGo, h1]
      rw [hred] at hrun
      injection hrun with h1b h2b
      subst h1b
      subst h2b
      refine ⟨n1, J1, ?_, trivial⟩
      intro m hm stx
      simp [rep1sepGo, hpr1 m hm stx]
    | out =>
      have hred : rep1sepGo nextP nextSep selfP (k + 1) st acc rem = (st1, .out) := by
        simp [rep1sepGo, h1]
      rw [hred] at hrun
      injection hrun with h1b h2b
      exact absurd h2b.symm hout

theorem untilGo_sim (SRC : List Char) (R : Parser) (E : List (Nat × Nat))
    (next : State → Reader → State × Ans) (q : Parser) (start : Nat)
    (hreach : ∀ st r, Reaches st (next st r).1)
    (hnq : Simcall SRC R E q next) :
    ∀ (k : Nat) (st : State) (r : Reader) (st' : State) (a : Ans),
      r.source = SRC → Inv SRC R E st →
      untilGo next start k st r = (st', a) → a ≠ .out →
      ∃ n J, (∀ m, n ≤ m → ∀ stx,
          untilGo (fun st1 r1 => consume false m q st1 r1) start k stx r
            = (applyJ stx J, a)) ∧
        ResGood SRC R E st J st' a := by
  intro k
  induction k with
  | zero =>
    intro st r st' a hsrc hinv hrun hout
    rw [untilGo] at hrun
    injection hrun with h1b h2b
    exact absurd h2b.symm hout
  | succ k ih =>
    intro st r st' a hsrc hinv hrun hout
    rcases h1 : next st r with ⟨st1, a1⟩
    have hcall := hnq st r st1 a1 hsrc hinv h1
    cases a1 with
    | res o =>
      cases o with
      | some c =>
        obtain ⟨n1, J1, hpr1, hrg1⟩ := hcall (fun hc => Ans.noConfusion hc)
        obtain ⟨hfe1, hcov1, hinv1, hsrc1⟩ := hrg1
        have hred : untilGo next start (k + 1) st r
            = (st1, .res (some ⟨r, .str ((r.source.drop start).take
                (r.position - start))⟩)) := by
          simp [untilGo, h1]
        rw [hred] at hrun
        injection hrun with h1b h2b
        subst h1b
        subst h2b
        refine ⟨n1, J1, ?_, ?_⟩
        · intro m hm stx
          simp [untilGo, hpr1 m hm stx]
        · exact ⟨hfe1, hcov1, hinv1, fun c2 hc2 => by
            injection hc2 with hc2
            rw [← hc2]
            exact hsrc⟩
      | none =>
        obtain ⟨n1, J1, hpr1, hrg1⟩ := hcall (fun hc => Ans.noConfusion hc)
        obtain ⟨hfe1, hcov1, hinv1, hsrc1⟩ := hrg1
        by_cases hf : r.finished
        · have hred : untilGo next start (k + 1) st r = (st1, .res none) := by
            simp [untilGo, h1, hf]
          rw [hred] at hrun
          injection hrun with h1b h2b
          subst h1b
          subst h2b
          refine ⟨n1, J1, ?_, ⟨hfe1, hcov1, hinv1, hsrc1⟩⟩
          intro m hm stx
          simp [untilGo, hpr1 m hm stx, hf]
        · have hred : untilGo next start (k + 1) st r
              = untilGo next start k st1 r.rest := by
            simp [untilGo, h1, hf]
          rw [hred] at hrun
          obtain ⟨n2, J2, hpure2, hrg2⟩ := ih st1 r.rest st' a hsrc hinv1 hrun hout
          have hr1 : Reaches st1 st' := by
            have hstep := untilGo_reaches next start hreach k st1 r.rest
            rw [hrun] at hstep
            exact hstep
          refine ⟨max n1 n2, J1 ++ J2, ?_, ?_⟩
          · intro m hm stx
            have e1 := hpr1 m (Nat.le_trans (Nat.le_max_left _ _) hm) stx
            have e2 := hpure2 m (Nat.le_trans (Nat.le_max_right _ _) hm) (applyJ stx J1)
            simp only [untilGo, e1]
            simp only [if_neg hf]
            rw [e2, applyJ_append]
          · cases a with
            | res o2 =>
              obtain ⟨hfe2, hcov2, hinv2, hsrc2⟩ := hrg2
              refine ⟨?_, covered_append (covered_reaches hr1 hcov1) hcov2, hinv2, hsrc2⟩
              rw [applyJ_append]
              exact FEeq_trans hfe2 (FEeq_applyJ hfe1 J2)
            | recursionError p2 ctx => trivial
            | wsCrash => trivial
            | out => trivial
    | recursionError p2 ctx =>
      obtain ⟨n1, J1, hpr1, hrg1⟩ := hcall (fun hc => Ans.noConfusion hc)
      have hred : untilGo next start (k + 1) st r = (st1, .recursionError p2 ctx) := by
        simp [untilGo, h1]
      rw [hred] at hrun
      injection hrun with h1b h2b
      subst h1b
      subst h2b
      refine ⟨n1, J1, ?_, trivial⟩
      intro m hm stx
      simp [untilGo, hpr1 m hm stx]
    | wsCrash =>
      obtain ⟨n1, J1, hpr1, hrg1⟩ := hcall (fun hc => Ans.noConfusion hc)
      have hred : untilGo next start (k + 1) st r = (st1, .wsCrash) := by
        simp [untilGo, h1]
      rw [hred] at hrun
      injection hrun with h1b h2b
      subst h1b
      subst h2b
      refine ⟨n1, J1, ?_, trivial⟩
      intro m hm stx
      simp [untilGo, hpr1 m hm stx]
    | out =>
      have hred : untilGo next start (k + 1) st r = (st1, .out) := by
        simp [untilGo, h1]
      rw [hred] at hrun
      injection hrun with h1b h2b
      exact absurd h2b.symm hout

end Parsita

namespace Parsita

theorem pconsume_sim (SRC : List Char) (R : Parser) (E : List (Nat × Nat))
    (mnext : Parser → State → Reader → State × Ans)
    (hreach : ∀ q st r, Reaches st (mnext q st r).1)
    (p : Parser) (hp : p ∈ subterms R)
    (hnext : ∀ q2, q2 ∈ subterms R → pdepth q2 < pdepth p →
      Simcall SRC R E q2 (fun st1 r1 => mnext q2 st1 r1)) :
    ∀ st r st' a, r.source = SRC → Inv SRC R E st →
      pconsume mnext p st r = (st', a) → a ≠ .out →
      ∃ n J, (∀ m, n ≤ m → ∀ stx,
          pconsume (fun q2 st1 r1 => consume false m q2 st1 r1) p stx r
            = (applyJ stx J, a)) ∧
        ResGood SRC R E st J st' a := by
  intro st r st' a hsrc hinv hrun hout
  cases p with
  | literal i pattern ws =>
    have hws : ∀ w, ws = some w → Simcall SRC R E w (fun st1 r1 => mnext w st1 r1) := by
      intro w hw
      subst hw
      refine hnext w ?_ ?_
      · refine mem_subterms_trans R w (.literal i pattern (some w)) ?_ hp
        rw [subterms]
        refine List.mem_cons_of_mem _ ?_
        rw [subtermsO]
        exact subterms_self w
      · rw [pdepth, pdepthO]
        exact Nat.lt_succ_self _
    exact litGo_sim SRC R E mnext ws pattern hreach hws st r st' a hsrc hinv hrun hout
  | regex i g ws =>
    have hws : ∀ w, ws = some w → Simcall SRC R E w (fun st1 r1 => mnext w st1 r1) := by
      intro w hw
      subst hw
      refine hnext w ?_ ?_
      · refine mem_subterms_trans R w (.regex i g (some w)) ?_ hp
        rw [subterms]
        refine List.mem_cons_of_mem _ ?_
        rw [subtermsO]
        exact subterms_self w
      · rw [pdepth, pdepthO]
        exact Nat.lt_succ_self _
    exact regGo_sim SRC R E mnext ws g hreach hws st r st' a hsrc hinv hrun hout
  | endOfSource i =>
    by_cases hf : r.finished = true
    · have hred : pconsume mnext (.endOfSource i) st r = (st, .res (some ⟨r, .unit⟩)) := by
        simp [pconsume, hf]
      rw [hred] at hrun
      injection hrun with h1b h2b
      subst h1b
      subst h2b
      refine ⟨0, [], ?_, ?_⟩
      · intro m hm stx
        simp [pconsume, hf, applyJ]
      · exact ⟨FEeq_refl st, covered_nil st, hinv, fun c hc => by
          injection hc with hc
          rw [← hc]
          exact hsrc⟩
    · have hred : pconsume mnext (.endOfSource i) st r
          = (st.register_failure "end of source" r, .res none) := by
        simp [pconsume, hf]
      rw [hred] at hrun
      injection hrun with h1b h2b
      subst h1b
      subst h2b
      refine ⟨0, [("end of source", r)], ?_, ?_⟩
      · intro m hm stx
        simp [pconsume, hf, applyJ]
      · refine ⟨?_, ?_, inv_register hinv _ _, fun c hc => by cases hc⟩
        · rw [applyJ_single]
          exact FEeq_refl _
        · intro er hm
          rw [List.mem_singleton] at hm
          rw [hm]
          exact covElem_self st _ r
  | anyElem i =>
    by_cases hf : r.finished = true
    · have hred : pconsume mnext (.anyElem i) st r
          = (st.register_failure "anything" r, .res none) := by
        simp [pconsume, hf]
      rw [hred] at hrun
      injection hrun with h1b h2b
      subst h1b
      subst h2b
      refine ⟨0, [("anything", r)], ?_, ?_⟩
      · intro m hm stx
        simp [pconsume, hf, applyJ]
      · refine ⟨?_, ?_, inv_register hinv _ _, fun c hc => by cases hc⟩
        · rw [applyJ_single]
          exact FEeq_refl _
        · intro er hm
          rw [List.mem_singleton] at hm
          rw [hm]
          exact covElem_self st _ r
    · have hred : pconsume mnext (.anyElem i) st r
          = (st, .res (some ⟨r.rest, .str [r.first]⟩)) := by
        simp [pconsume, hf]
      rw [hred] at hrun
      injection hrun with h1b h2b
      subst h1b
      subst h2b
      refine ⟨0, [], ?_, ?_⟩
      · intro m hm stx
        simp [pconsume, hf, applyJ]
      · exact ⟨FEeq_refl st, covered_nil st, hinv, fun c hc => by
          injection hc with hc
          rw [← hc]
          exact hsrc⟩
  | successP i v =>
    have hred : pconsume mnext (.successP i v) st r = (st, .res (some ⟨r, v⟩)) := rfl
    rw [hred] at hrun
    injection hrun with h1b h2b
    subst h1b
    subst h2b
    refine ⟨0, [], ?_, ?_⟩
    · intro m hm stx
      rfl
    · exact ⟨FEeq_refl st, covered_nil st, hinv, fun c hc => by
        injection hc with hc
        rw [← hc]
        exact hsrc⟩
  | failureP i msg =>
    have hred : pconsume mnext (.failureP i msg) st r
        = (st.register_failure msg r, .res none) := rfl
    rw [hred] at hrun
    injection hrun with h1b h2b
    subst h1b
    subst h2b
    refine ⟨0, [(msg, r)], ?_, ?_⟩
    · intro m hm stx
      rfl
    · refine ⟨?_, ?_, inv_register hinv _ _, fun c hc => by cases hc⟩
      · rw [applyJ_single]
        exact FEeq_refl _
      · intro er hm
        rw [List.mem_singleton] at hm
        rw [hm]
        exact covElem_self st _ r
  | optional i q =>
    have hnq : Simcall SRC R E q (fun st1 r1 => mnext q st1 r1) := by
      refine hnext q ?_ ?_
      · refine mem_subterms_trans R q (.optional i q) ?_ hp
        rw [subterms]
        exact List.mem_cons_of_mem _ (subterms_self q)
      · rw [pdepth]
        exact Nat.lt_succ_self _
    rcases h1 : mnext q st r with ⟨st1, a1⟩
    have hcall := hnq st r st1 a1 hsrc hinv h1
    cases a1 with
    | res o =>
      cases o with
      | some c =>
        obtain ⟨n1, J1, hpr1, hrg1⟩ := hcall (fun hc => Ans.noConfusion hc)
        obtain ⟨hfe1, hcov1, hinv1, hsrc1⟩ := hrg1
        have hred : pconsume mnext (.optional i q) st r
            = (st1, .res (some ⟨c.remainder, .list [c.value]⟩)) := by
          simp [pconsume, h1]
        rw [hred] at hrun
        injection hrun with h1b h2b
        subst h1b
        subst h2b
        refine ⟨n1, J1, ?_, ?_⟩
        · intro m hm stx
          simp [pconsume, hpr1 m hm stx]
        · exact ⟨hfe1, hcov1, hinv1, fun c2 hc2 => by
            injection hc2 with hc2
            rw [← hc2]
            exact hsrc1 c rfl⟩
      | none =>
        obtain ⟨n1, J1, hpr1, hrg1⟩ := hcall (fun hc => Ans.noConfusion hc)
        obtain ⟨hfe1, hcov1, hinv1, hsrc1⟩ := hrg1
        have hred : pconsume mnext (.optional i q) st r
            = (st1, .res (some ⟨r, .list []⟩)) := by
          simp [pconsume, h1]
        rw [hred] at hrun
        injection hrun with h1b h2b
        subst h1b
        subst h2b
        refine ⟨n1, J1, ?_, ?_⟩
        · intro m hm stx
          simp [pconsume, hpr1 m hm stx]
        · exact ⟨hfe1, hcov1, hinv1, fun c2 hc2 => by
            injection hc2 with hc2
            rw [← hc2]
            exact hsrc⟩
    | recursionError p2 ctx =>
      obtain ⟨n1, J1, hpr1, hrg1⟩ := hcall (fun hc => Ans.noConfusion hc)
      have hred : pconsume mnext (.optional i q) st r
          = (st1, .recursionError p2 ctx) := by
        simp [pconsume, h1]
      rw [hred] at hrun
      injection hrun with h1b h2b
      subst h1b
      subst h2b
      refine ⟨n1, J1, ?_, trivial⟩
      intro m hm stx
      simp [pconsume, hpr1 m hm stx]
    | wsCrash =>
      obtain ⟨n1, J1, hpr1, hrg1⟩ := hcall (fun hc => Ans.noConfusion hc)
      have hred : pconsume mnext (.optional i q) st r = (st1, .wsCrash) := by
        simp [pconsume, h1]
      rw [hred] at hrun
      injection hrun with h1b h2b
      subst h1b
      subst h2b
      refine ⟨n1, J1, ?_, trivial⟩
      intro m hm stx
      simp [pconsume, hpr1 m hm stx]
    | out =>
      have hred : pconsume mnext (.optional i q) st r = (st1, .out) := by
        simp [pconsume, h1]
      rw [hred] at hrun
      injection hrun with h1b h2b
      exact absurd h2b.symm hout
  | firstAlternative i ps =>
    have hq : ∀ q2, q2 ∈ ps → Simcall SRC R E q2 (fun st1 r1 => mnext q2 st1 r1) := by
      intro q2 hq2
      refine hnext q2 ?_ ?_
      · refine mem_subterms_trans R q2 (.firstAlternative i ps) ?_ hp
        rw [subterms]
        exact List.mem_cons_of_mem _ (mem_subtermsL_of_mem ps q2 hq2)
      · rw [pdepth]
        exact Nat.lt_succ_of_le (pdepth_le_pdepthL ps q2 hq2)
    exact firstGo_sim SRC R E mnext hreach r ps st st' a hq hsrc hinv hrun hout
  | longestAlternative i ps =>
    have hq : ∀ q2, q2 ∈ ps → Simcall SRC R E q2 (fun st1 r1 => mnext q2 st1 r1) := by
      intro q2 hq2
      refine hnext q2 ?_ ?_
      · refine mem_subterms_trans R q2 (.longestAlternative i ps) ?_ hp
        rw [subterms]
        exact List.mem_cons_of_mem _ (mem_subtermsL_of_mem ps q2 hq2)
      · rw [pdepth]
        exact Nat.lt_succ_of_le (pdepth_le_pdepthL ps q2 hq2)
    exact longestGo_sim SRC R E mnext hreach r ps st none st' a hq hsrc hinv
      (fun c hc => by cases hc) hrun hout
  | sequential i ps =>
    have hq : ∀ q2, q2 ∈ ps → Simcall SRC R E q2 (fun st1 r1 => mnext q2 st1 r1) := by
      intro q2 hq2
      refine hnext q2 ?_ ?_
      · refine mem_subterms_trans R q2 (.sequential i ps) ?_ hp
        rw [subterms]
        exact List.mem_cons_of_mem _ (mem_subtermsL_of_mem ps q2 hq2)
      · rw [pdepth]
        exact Nat.lt_succ_of_le (pdepth_le_pdepthL ps q2 hq2)
    exact seqGo_sim SRC R E mnext hreach ps st r [] st' a hq hsrc hinv hrun hout
  | discardLeft i l rp =>
    have hnl : Simcall SRC R E l (fun st1 r1 => mnext l st1 r1) := by
      refine hnext l ?_ ?_
      · refine mem_subterms_trans R l (.discardLeft i l rp) ?_ hp
        rw [subterms]
        exact List.mem_cons_of_mem _ (List.mem_append_left _ (subterms_self l))
      · rw [pdepth]
        exact Nat.lt_succ_of_le (Nat.le_max_left _ _)
    have hnr : Simcall SRC R E rp (fun st1 r1 => mnext rp st1 r1) := by
      refine hnext rp ?_ ?_
      · refine mem_subterms_trans R rp (.discardLeft i l rp) ?_ hp
        rw [subterms]
        exact List.mem_cons_of_mem _ (List.mem_append_right _ (subterms_self rp))
      · rw [pdepth]
        exact Nat.lt_succ_of_le (Nat.le_max_right _ _)
    rcases h1 : mnext l st r with ⟨st1, a1⟩
    have hcall := hnl st r st1 a1 hsrc hinv h1
    cases a1 with
    | res o =>
      cases o with
      | some c =>
        obtain ⟨n1, J1, hpr1, hrg1⟩ := hcall (fun hc => Ans.noConfusion hc)
        obtain ⟨hfe1, hcov1, hinv1, hsrc1⟩ := hrg1
        have hred : pconsume mnext (.discardLeft i l rp) st r
            = mnext rp st1 c.remainder := by
          simp [pconsume, h1]
        rw [hred] at hrun
        obtain ⟨n2, J2, hpr2, hrg2⟩ := hnr st1 c.remainder st' a (hsrc1 c rfl)
          hinv1 hrun hout
        have hr1 : Reaches st1 st' := by
          have hstep := hreach rp st1 c.remainder
          rw [hrun] at hstep
          exact hstep
        refine ⟨max n1 n2, J1 ++ J2, ?_, ?_⟩
        · intro m hm stx
          have e1 := hpr1 m (Nat.le_trans (Nat.le_max_left _ _) hm) stx
          have e2 := hpr2 m (Nat.le_trans (Nat.le_max_right _ _) hm) (applyJ stx J1)
          simp only [pconsume, e1]
          rw [e2, applyJ_append]
        · cases a with
          | res o2 =>
            obtain ⟨hfe2, hcov2, hinv2, hsrc2⟩ := hrg2
            refine ⟨?_, covered_append (covered_reaches hr1 hcov1) hcov2, hinv2, hsrc2⟩
            rw [applyJ_append]
            exact FEeq_trans hfe2 (FEeq_applyJ hfe1 J2)
          | recursionError p2 ctx => trivial
          | wsCrash => trivial
          | out => trivial
      | none =>
        obtain ⟨n1, J1, hpr1, hrg1⟩ := hcall (fun hc => Ans.noConfusion hc)
        have hred : pconsume mnext (.discardLeft i l rp) st r = (st1, .res none) := by
          simp [pconsume, h1]
        rw [hred] at hrun
        injection hrun with h1b h2b
        subst h1b
        subst h2b
        refine ⟨n1, J1, ?_, hrg1⟩
        intro m hm stx
        simp [pconsume, hpr1 m hm stx]
    | recursionError p2 ctx =>
      obtain ⟨n1, J1, hpr1, hrg1⟩ := hcall (fun hc => Ans.noConfusion hc)
      have hred : pconsume mnext (.discardLeft i l rp) st r
          = (st1, .recursionError p2 ctx) := by
        simp [pconsume, h1]
      rw [hred] at hrun
      injection hrun with h1b h2b
      subst h1b
      subst h2b
      refine ⟨n1, J1, ?_, trivial⟩
      intro m hm stx
      simp [pconsume, hpr1 m hm stx]
    | wsCrash =>
      obtain ⟨n1, J1, hpr1, hrg1⟩ := hcall (fun hc => Ans.noConfusion hc)
      have hred : pconsume mnext (.discardLeft i l rp) st r = (st1, .wsCrash) := by
        simp [pconsume, h1]
      rw [hred] at hrun
      injection hrun with h1b h2b
      subst h1b
      subst h2b
      refine ⟨n1, J1, ?_, trivial⟩
      intro m hm stx
      simp [pconsume, hpr1 m hm stx]
    | out =>
      have hred : pconsume mnext (.discardLeft i l rp) st r = (st1, .out) := by
        simp [pconsume, h1]
      rw [hred] at hrun
      injection hrun with h1b h2b
      exact absurd h2b.symm hout
  | discardRight i l rp =>
    have hnl : Simcall SRC R E l (fun st1 r1 => mnext l st1 r1) := by
      refine hnext l ?_ ?_
      · refine mem_subterms_trans R l (.discardRight i l rp) ?_ hp
        rw [subterms]
        exact List.mem_cons_of_mem _ (List.mem_append_left _ (subterms_self l))
      · rw [pdepth]
        exact Nat.lt_succ_of_le (Nat.le_max_left _ _)
    have hnr : Simcall SRC R E rp (fun st1 r1 => mnext rp st1 r1) := by
      refine hnext rp ?_ ?_
      · refine mem_subterms_trans R rp (.discardRight i l rp) ?_ hp
        rw [subterms]
        exact List.mem_cons_of_mem _ (List.mem_append_right _ (subterms_self rp))
      · rw [pdepth]
        exact Nat.lt_succ_of_le (Nat.le_max_right _ _)
    rcases h1 : mnext l st r with ⟨st1, a1⟩
    have hcall := hnl st r st1 a1 hsrc hinv h1
    cases a1 with
    | res o =>
      cases o with
      | some c1 =>
        obtain ⟨n1, J1, hpr1, hrg1⟩ := hcall (fun hc => Ans.noConfusion hc)
        obtain ⟨hfe1, hcov1, hinv1, hsrc1⟩ := hrg1
        rcases h2 : mnext rp st1 c1.remainder with ⟨st2, a2⟩
        have hcall2 := hnr st1 c1.remainder st2 a2 (hsrc1 c1 rfl) hinv1 h2
        have hr12 : Reaches st1 st2 := by
          have hstep := hreach rp st1 c1.remainder
          rw [h2] at hstep
          exact hstep
        cases a2 with
        | res o2 =>
          cases o2 with
          | some c2 =>
            obtain ⟨n2, J2, hpr2, hrg2⟩ := hcall2 (fun hc => Ans.noConfusion hc)
            obtain ⟨hfe2, hcov2, hinv2, hsrc2⟩ := hrg2
            have hred : pconsume mnext (.discardRight i l rp) st r
                = (st2, .res (some ⟨c2.remainder, c1.value⟩)) := by
              simp [pconsume, h1, h2]
            rw [hred] at hrun
            injection hrun with h1b h2b
            subst h1b
            subst h2b
            refine ⟨max n1 n2, J1 ++ J2, ?_, ?_⟩
            · intro m hm stx
              have e1 := hpr1 m (Nat.le_trans (Nat.le_max_left _ _) hm) stx
              have e2 := hpr2 m (Nat.le_trans (Nat.le_max_right _ _) hm) (applyJ stx J1)
              simp [pconsume, e1, e2, applyJ_append]
            · refine ⟨?_, covered_append (covered_reaches hr12 hcov1) hcov2, hinv2,
                fun c3 hc3 => by
                  injection hc3 with hc3
                  rw [← hc3]
                  exact hsrc2 c2 rfl⟩
              rw [applyJ_append]
              exact FEeq_trans hfe2 (FEeq_applyJ hfe1 J2)
          | none =>
            obtain ⟨n2, J2, hpr2, hrg2⟩ := hcall2 (fun hc => Ans.noConfusion hc)
            obtain ⟨hfe2, hcov2, hinv2, hsrc2⟩ := hrg2
            have hred : pconsume mnext (.discardRight i l rp) st r
                = (st2, .res none) := by
              simp [pconsume, h1, h2]
            rw [hred] at hrun
            injection hrun with h1b h2b
            subst h1b
            subst h2b
            refine ⟨max n1 n2, J1 ++ J2, ?_, ?_⟩
            · intro m hm stx
              have e1 := hpr1 m (Nat.le_trans (Nat.le_max_left _ _) hm) stx
              have e2 := hpr2 m (Nat.le_trans (Nat.le_max_right _ _) hm) (applyJ stx J1)
              simp [pconsume, e1, e2, applyJ_append]
            · refine ⟨?_, covered_append (covered_reaches hr12 hcov1) hcov2, hinv2,
                fun c3 hc3 => by cases hc3⟩
              rw [applyJ_append]
              exact FEeq_trans hfe2 (FEeq_applyJ hfe1 J2)
        | recursionError p2 ctx =>
          obtain ⟨n2, J2, hpr2, hrg2⟩ := hcall2 (fun hc => Ans.noConfusion hc)
          have hred : pconsume mnext (.discardRight i l rp) st r
              = (st2, .recursionError p2 ctx) := by
            simp [pconsume, h1, h2]
          rw [hred] at hrun
          injection hrun with h1b h2b
          subst h1b
          subst h2b
          refine ⟨max n1 n2, J1 ++ J2, ?_, trivial⟩
          intro m hm stx
          have e1 := hpr1 m (Nat.le_trans (Nat.le_max_left _ _) hm) stx
          have e2 := hpr2 m (Nat.le_trans (Nat.le_max_right _ _) hm) (applyJ stx J1)
          simp [pconsume, e1, e2, applyJ_append]
        | wsCrash =>
          obtain ⟨n2, J2, hpr2, hrg2⟩ := hcall2 (fun hc => Ans.noConfusion hc)
          have hred : pconsume mnext (.discardRight i l rp) st r
              = (st2, .wsCrash) := by
            simp [pconsume, h1, h2]
          rw [hred] at hrun
          injection hrun with h1b h2b
          subst h1b
          subst h2b
          refine ⟨max n1 n2, J1 ++ J2, ?_, trivial⟩
          intro m hm stx
          have e1 := hpr1 m (Nat.le_trans (Nat.le_max_left _ _) hm) stx
          have e2 := hpr2 m (Nat.le_trans (Nat.le_max_right _ _) hm) (applyJ stx J1)
          simp [pconsume, e1, e2, applyJ_append]
        | out =>
          have hred : pconsume mnext (.discardRight i l rp) st r = (st2, .out) := by
            simp [pconsume, h1, h2]
          rw [hred] at hrun
          injection hrun with h1b h2b
          exact absurd h2b.symm hout
      | none =>
        obtain ⟨n1, J1, hpr1, hrg1⟩ := hcall (fun hc => Ans.noConfusion hc)
        have hred : pconsume mnext (.discardRight i l rp) st r = (st1, .res none) := by
          simp [pconsume, h1]
        rw [hred] at hrun
        injection hrun with h1b h2b
        subst h1b
        subst h2b
        refine ⟨n1, J1, ?_, hrg1⟩
        intro m hm stx
        simp [pconsume, hpr1 m hm stx]
    | recursionError p2 ctx =>
      obtain ⟨n1, J1, hpr1, hrg1⟩ := hcall (fun hc => Ans.noConfusion hc)
      have hred : pconsume mnext (.discardRight i l rp) st r
          = (st1, .recursionError p2 ctx) := by
        simp [pconsume, h1]
      rw [hred] at hrun
      injection hrun with h1b h2b
      subst h1b
      subst h2b
      refine ⟨n1, J1, ?_, trivial⟩
      intro m hm stx
      simp [pconsume, hpr1 m hm stx]
    | wsCrash =>
      obtain ⟨n1, J1, hpr1, hrg1⟩ := hcall (fun hc => Ans.noConfusion hc)
      have hred : pconsume mnext (.discardRight i l rp) st r = (st1, .wsCrash) := by
        simp [pconsume, h1]
      rw [hred] at hrun
      injection hrun with h1b h2b
      subst h1b
      subst h2b
      refine ⟨n1, J1, ?_, trivial⟩
      intro m hm stx
      simp [pconsume, hpr1 m hm stx]
    | out =>
      have hred : pconsume mnext (.discardRight i l rp) st r = (st1, .out) := by
        simp [pconsume, h1]
      rw [hred] at hrun
      injection hrun with h1b h2b
      exact absurd h2b.symm hout
  | conversion i q f =>
    have hnq : Simcall SRC R E q (fun st1 r1 => mnext q st1 r1) := by
      refine hnext q ?_ ?_
      · refine mem_subterms_trans R q (.conversion i q f) ?_ hp
        rw [subterms]
        exact List.mem_cons_of_mem _ (subterms_self q)
      · rw [pdepth]
        exact Nat.lt_succ_self _
    rcases h1 : mnext q st r with ⟨st1, a1⟩
    have hcall := hnq st r st1 a1 hsrc hinv h1
    cases a1 with
    | res o =>
      cases o with
      | some c =>
        obtain ⟨n1, J1, hpr1, hrg1⟩ := hcall (fun hc => Ans.noConfusion hc)
        obtain ⟨hfe1, hcov1, hinv1, hsrc1⟩ := hrg1
        have hred : pconsume mnext (.conversion i q f) st r
            = (st1, .res (some ⟨c.remainder, f c.value⟩)) := by
          simp [pconsume, h1]
        rw [hred] at hrun
        injection hrun with h1b h2b
        subst h1b
        subst h2b
        refine ⟨n1, J1, ?_, ?_⟩
        · intro m hm stx
          simp [pconsume, hpr1 m hm stx]
        · exact ⟨hfe1, hcov1, hinv1, fun c2 hc2 => by
            injection hc2 with hc2
            rw [← hc2]
            exact hsrc1 c rfl⟩
      | none =>
        obtain ⟨n1, J1, hpr1, hrg1⟩ := hcall (fun hc => Ans.noConfusion hc)
        have hred : pconsume mnext (.conversion i q f) st r = (st1, .res none) := by
          simp [pconsume, h1]
        rw [hred] at hrun
        injection hrun with h1b h2b
        subst h1b
        subst h2b
        refine ⟨n1, J1, ?_, hrg1⟩
        intro m hm stx
        simp [pconsume, hpr1 m hm stx]
    | recursionError p2 ctx =>
      obtain ⟨n1, J1, hpr1, hrg1⟩ := hcall (fun hc => Ans.noConfusion hc)
      have hred : pconsume mnext (.conversion i q f) st r
          = (st1, .recursionError p2 ctx) := by
        simp [pconsume, h1]
      rw [hred] at hrun
      injection hrun with h1b h2b
      subst h1b
      subst h2b
      refine ⟨n1, J1, ?_, trivial⟩
      intro m hm stx
      simp [pconsume, hpr1 m hm stx]
    | wsCrash =>
      obtain ⟨n1, J1, hpr1, hrg1⟩ := hcall (fun hc => Ans.noConfusion hc)
      have hred : pconsume mnext (.conversion i q f) st r = (st1, .wsCrash) := by
        simp [pconsume, h1]
      rw [hred] at hrun
      injection hrun with h1b h2b
      subst h1b
      subst h2b
      refine ⟨n1, J1, ?_, trivial⟩
      intro m hm stx
      simp [pconsume, hpr1 m hm stx]
    | out =>
      have hred : pconsume mnext (.conversion i q f) st r = (st1, .out) := by
        simp [pconsume, h1]
      rw [hred] at hrun
      injection hrun with h1b h2b
      exact absurd h2b.symm hout
  | repeated i q mn mx =>
    have hnq : Simcall SRC R E q (fun st1 r1 => mnext q st1 r1) := by
      refine hnext q ?_ ?_
      · refine mem_subterms_trans R q (.repeated i q mn mx) ?_ hp
        rw [subterms]
        exact List.mem_cons_of_mem _ (subterms_self q)
      · rw [pdepth]
        exact Nat.lt_succ_self _
    exact repGo_sim SRC R E (fun st1 r1 => mnext q st1 r1) q (.repeated i q mn mx)
      mn mx (fun st1 r1 => hreach q st1 r1) hnq (r.source.length + 1) st [] r st' a
      hsrc hinv hrun hout
  | repeatedOnce i q =>
    have hnq : Simcall SRC R E q (fun st1 r1 => mnext q st1 r1) := by
      refine hnext q ?_ ?_
      · refine mem_subterms_trans R q (.repeatedOnce i q) ?_ hp
        rw [subterms]
        exact List.mem_cons_of_mem _ (subterms_self q)
      · rw [pdepth]
        exact Nat.lt_succ_self _
    rcases h1 : mnext q st r with ⟨st1, a1⟩
    have hcall := hnq st r st1 a1 hsrc hinv h1
    cases a1 with
    | res o =>
      cases o with
      | some c =>
        obtain ⟨n1, J1, hpr1, hrg1⟩ := hcall (fun hc => Ans.noConfusion hc)
        obtain ⟨hfe1, hcov1, hinv1, hsrc1⟩ := hrg1
        have hred : pconsume mnext (.repeatedOnce i q) st r
            = rep1Go (fun st1 r1 => mnext q st1 r1) (.repeatedOnce i q)
                (r.source.length + 1) st1 [c.value] c.remainder := by
          simp [pconsume, h1]
        rw [hred] at hrun
        obtain ⟨n2, J2, hpure2, hrg2⟩ := rep1Go_sim SRC R E
          (fun st1 r1 => mnext q st1 r1) q (.repeatedOnce i q)
          (fun st1 r1 => hreach q st1 r1) hnq (r.source.length + 1) st1 [c.value]
          c.remainder st' a (hsrc1 c rfl) hinv1 hrun hout
        have hr1 : Reaches st1 st' := by
          have hstep := rep1Go_reaches (fun st1 r1 => mnext q st1 r1) (.repeatedOnce i q)
            (fun st1 r1 => hreach q st1 r1) (r.source.length + 1) st1 [c.value]
            c.remainder
          rw [hrun] at hstep
          exact hstep
        refine ⟨max n1 n2, J1 ++ J2, ?_, ?_⟩
        · intro m hm stx
          have e1 := hpr1 m (Nat.le_trans (Nat.le_max_left _ _) hm) stx
          have e2 := hpure2 m (Nat.le_trans (Nat.le_max_right _ _) hm) (applyJ stx J1)
          simp only [pconsume, e1]
          rw [e2, applyJ_append]
        · cases a with
          | res o2 =>
            obtain ⟨hfe2, hcov2, hinv2, hsrc2⟩ := hrg2
            refine ⟨?_, covered_append (covered_reaches hr1 hcov1) hcov2, hinv2, hsrc2⟩
            rw [applyJ_append]
            exact FEeq_trans hfe2 (FEeq_applyJ hfe1 J2)
          | recursionError p2 ctx => trivial
          | wsCrash => trivial
          | out => trivial
      | none =>
        obtain ⟨n1, J1, hpr1, hrg1⟩ := hcall (fun hc => Ans.noConfusion hc)
        have hred : pconsume mnext (.repeatedOnce i q) st r = (st1, .res none) := by
          simp [pconsume, h1]
        rw [hred] at hrun
        injection hrun with h1b h2b
        subst h1b
        subst h2b
        refine ⟨n1, J1, ?_, hrg1⟩
        intro m hm stx
        simp [pconsume, hpr1 m hm stx]
    | recursionError p2 ctx =>
      obtain ⟨n1, J1, hpr1, hrg1⟩ := hcall (fun hc => Ans.noConfusion hc)
      have hred : pconsume mnext (.repeatedOnce i q) st r
          = (st1, .recursionError p2 ctx) := by
        simp [pconsume, h1]
      rw [hred] at hrun
      injection hrun with h1b h2b
      subst h1b
      subst h2b
      refine ⟨n1, J1, ?_, trivial⟩
      intro m hm stx
      simp [pconsume, hpr1 m hm stx]
    | wsCrash =>
      obtain ⟨n1, J1, hpr1, hrg1⟩ := hcall (fun hc => Ans.noConfusion hc)
      have hred : pconsume mnext (.repeatedOnce i q) st r = (st1, .wsCrash) := by
        simp [pconsume, h1]
      rw [hred] at hrun
      injection hrun with h1b h2b
      subst h1b
      subst h2b
      refine ⟨n1, J1, ?_, trivial⟩
      intro m hm stx
      simp [pconsume, hpr1 m hm stx]
    | out =>
      have hred : pconsume mnext (.repeatedOnce i q) st r = (st1, .out) := by
        simp [pconsume, h1]
      rw [hred] at hrun
      injection hrun with h1b h2b
      exact absurd h2b.symm hout
  | repeatedSeparated i q sep mn mx =>
    have hnq : Simcall SRC R E q (fun st1 r1 => mnext q st1 r1) := by
      refine hnext q ?_ ?_
      · refine mem_subterms_trans R q (.repeatedSeparated i q sep mn mx) ?_ hp
        rw [subterms]
        exact List.mem_cons_of_mem _ (List.mem_append_left _ (subterms_self q))
      · rw [pdepth]
        exact Nat.lt_succ_of_le (Nat.le_max_left _ _)
    have hns : Simcall SRC R E sep (fun st1 r1 => mnext sep st1 r1) := by
      refine hnext sep ?_ ?_
      · refine mem_subterms_trans R sep (.repeatedSeparated i q sep mn mx) ?_ hp
        rw [subterms]
        exact List.mem_cons_of_mem _ (List.mem_append_right _ (subterms_self sep))
      · rw [pdepth]
        exact Nat.lt_succ_of_le (Nat.le_max_right _ _)
    rcases h1 : mnext q st r with ⟨st1, a1⟩
    have hcall := hnq st r st1 a1 hsrc hinv h1
    cases a1 with
    | res o =>
      cases o with
      | some c =>
        obtain ⟨n1, J1, hpr1, hrg1⟩ := hcall (fun hc => Ans.noConfusion hc)
        obtain ⟨hfe1, hcov1, hinv1, hsrc1⟩ := hrg1
        have hred : pconsume mnext (.repeatedSeparated i q sep mn mx) st r
            = repsepGo (fun st1 r1 => mnext q st1 r1) (fun st1 r1 => mnext sep st1 r1)
                (.repeatedSeparated i q sep mn mx) mn mx (r.source.length + 1) st1
                [c.value] c.remainder := by
          simp [pconsume, h1]
        rw [hred] at hrun
        obtain ⟨n2, J2, hpure2, hrg2⟩ := repsepGo_sim SRC R E
          (fun st1 r1 => mnext q st1 r1) (fun st1 r1 => mnext sep st1 r1) q sep
          (.repeatedSeparated i q sep mn mx) mn mx
          (fun st1 r1 => hreach q st1 r1) (fun st1 r1 => hreach sep st1 r1) hnq hns
          (r.source.length + 1) st1 [c.value] c.remainder st' a (hsrc1 c rfl)
          hinv1 hrun hout
        have hr1 : Reaches st1 st' := by
          have hstep := repsepGo_reaches (fun st1 r1 => mnext q st1 r1)
            (fun st1 r1 => mnext sep st1 r1) (.repeatedSeparated i q sep mn mx) mn mx
            (fun st1 r1 => hreach q st1 r1) (fun st1 r1 => hreach sep st1 r1)
            (r.source.length + 1) st1 [c.value] c.remainder
          rw [hrun] at hstep
          exact hstep
        refine ⟨max n1 n2, J1 ++ J2, ?_, ?_⟩
        · intro m hm stx
          have e1 := hpr1 m (Nat.le_trans (Nat.le_max_left _ _) hm) stx
          have e2 := hpure2 m (Nat.le_trans (Nat.le_max_right _ _) hm) (applyJ stx J1)
          simp only [pconsume, e1]
          rw [e2, applyJ_append]
        · cases a with
          | res o2 =>
            obtain ⟨hfe2, hcov2, hinv2, hsrc2⟩ := hrg2
            refine ⟨?_, covered_append (covered_reaches hr1 hcov1) hcov2, hinv2, hsrc2⟩
            rw [applyJ_append]
            exact FEeq_trans hfe2 (FEeq_applyJ hfe1 J2)
          | recursionError p2 ctx => trivial
          | wsCrash => trivial
          | out => trivial
      | none =>
        obtain ⟨n1, J1, hpr1, hrg1⟩ := hcall (fun hc => Ans.noConfusion hc)
        obtain ⟨hfe1, hcov1, hinv1, hsrc1⟩ := hrg1
        have hred : pconsume mnext (.repeatedSeparated i q sep mn mx) st r
            = (st1, repExit [] mn r) := by
          simp [pconsume, h1]
        rw [hred] at hrun
        injection hrun with h1b h2b
        subst h1b
        subst h2b
        refine ⟨n1, J1, ?_, ?_⟩
        · intro m hm stx
          simp [pconsume, hpr1 m hm stx]
        · unfold repExit
          by_cases hmn : mn ≤ ([] : List Value).length
          · rw [if_pos hmn]
            exact ⟨hfe1, hcov1, hinv1, fun c2 hc2 => by
              injection hc2 with hc2
              rw [← hc2]
              exact hsrc⟩
          · rw [if_neg hmn]
            exact ⟨hfe1, hcov1, hinv1, fun c2 hc2 => by cases hc2⟩
    | recursionError p2 ctx =>
      obtain ⟨n1, J1, hpr1, hrg1⟩ := hcall (fun hc => Ans.noConfusion hc)
      have hred : pconsume mnext (.repeatedSeparated i q sep mn mx) st r
          = (st1, .recursionError p2 ctx) := by
        simp [pconsume, h1]
      rw [hred] at hrun
      injection hrun with h1b h2b
      subst h1b
      subst h2b
      refine ⟨n1, J1, ?_, trivial⟩
      intro m hm stx
      simp [pconsume, hpr1 m hm stx]
    | wsCrash =>
      obtain ⟨n1, J1, hpr1, hrg1⟩ := hcall (fun hc => Ans.noConfusion hc)
      have hred : pconsume mnext (.repeatedSeparated i q sep mn mx) st r
          = (st1, .wsCrash) := by
        simp [pconsume, h1]
      rw [hred] at hrun
      injection hrun with h1b h2b
      subst h1b
      subst h2b
      refine ⟨n1, J1, ?_, trivial⟩
      intro m hm stx
      simp [pconsume, hpr1 m hm stx]
    | out =>
      have hred : pconsume mnext (.repeatedSeparated i q sep mn mx) st r
          = (st1, .out) := by
        simp [pconsume, h1]
      rw [hred] at hrun
      injection hrun with h1b h2b
      exact absurd h2b.symm hout
  | repeatedOnceSeparated i q sep =>
    have hnq : Simcall SRC R E q (fun st1 r1 => mnext q st1 r1) := by
      refine hnext q ?_ ?_
      · refine mem_subterms_trans R q (.repeatedOnceSeparated i q sep) ?_ hp
        rw [subterms]
        exact List.mem_cons_of_mem _ (List.mem_append_left _ (subterms_self q))
      · rw [pdepth]
        exact Nat.lt_succ_of_le (Nat.le_max_left _ _)
    have hns : Simcall SRC R E sep (fun st1 r1 => mnext sep st1 r1) := by
      refine hnext sep ?_ ?_
      · refine mem_subterms_trans R sep (.repeatedOnceSeparated i q sep) ?_ hp
        rw [subterms]
        exact List.mem_cons_of_mem _ (List.mem_append_right _ (subterms_self sep))
      · rw [pdepth]
        exact Nat.lt_succ_of_le (Nat.le_max_right _ _)
    rcases h1 : mnext q st r with ⟨st1, a1⟩
    have hcall := hnq st r st1 a1 hsrc hinv h1
    cases a1 with
    | res o =>
      cases o with
      | some c =>
        obtain ⟨n1, J1, hpr1, hrg1⟩ := hcall (fun hc => Ans.noConfusion hc)
        obtain ⟨hfe1, hcov1, hinv1, hsrc1⟩ := hrg1
        have hred : pconsume mnext (.repeatedOnceSeparated i q sep) st r
            = rep1sepGo (fun st1 r1 => mnext q st1 r1) (fun st1 r1 => mnext sep st1 r1)
                (.repeatedOnceSeparated i q sep) (r.source.length + 1) st1
                [c.value] c.remainder := by
          simp [pconsume, h1]
        rw [hred] at hrun
        obtain ⟨n2, J2, hpure2, hrg2⟩ := rep1sepGo_sim SRC R E
          (fun st1 r1 => mnext q st1 r1) (fun st1 r1 => mnext sep st1 r1) q sep
          (.repeatedOnceSeparated i q sep)
          (fun st1 r1 => hreach q st1 r1) (fun st1 r1 => hreach sep st1 r1) hnq hns
          (r.source.length + 1) st1 [c.value] c.remainder st' a (hsrc1 c rfl)
          hinv1 hrun hout
        have hr1 : Reaches st1 st' := by
          have hstep := rep1sepGo_reaches (fun st1 r1 => mnext q st1 r1)
            (fun st1 r1 => mnext sep st1 r1) (.repeatedOnceSeparated i q sep)
            (fun st1 r1 => hreach q st1 r1) (fun st1 r1 => hreach sep st1 r1)
            (r.source.length + 1) st1 [c.value] c.remainder
          rw [hrun] at hstep
          exact hstep
        refine ⟨max n1 n2, J1 ++ J2, ?_, ?_⟩
        · intro m hm stx
          have e1 := hpr1 m (Nat.le_trans (Nat.le_max_left _ _) hm) stx
          have e2 := hpure2 m (Nat.le_trans (Nat.le_max_right _ _) hm) (applyJ stx J1)
          simp only [pconsume, e1]
          rw [e2, applyJ_append]
        · cases a with
          | res o2 =>
            obtain ⟨hfe2, hcov2, hinv2, hsrc2⟩ := hrg2
            refine ⟨?_, covered_append (covered_reaches hr1 hcov1) hcov2, hinv2, hsrc2⟩
            rw [applyJ_append]
            exact FEeq_trans hfe2 (FEeq_applyJ hfe1 J2)
          | recursionError p2 ctx => trivial
          | wsCrash => trivial
          | out => trivial
      | none =>
        obtain ⟨n1, J1, hpr1, hrg1⟩ := hcall (fun hc => Ans.noConfusion hc)
        have hred : pconsume mnext (.repeatedOnceSeparated i q sep) st r
            = (st1, .res none) := by
          simp [pconsume, h1]
        rw [hred] at hrun
        injection hrun with h1b h2b
        subst h1b
        subst h2b
        refine ⟨n1, J1, ?_, hrg1⟩
        intro m hm stx
        simp [pconsume, hpr1 m hm stx]
    | recursionError p2 ctx =>
      obtain ⟨n1, J1, hpr1, hrg1⟩ := hcall (fun hc => Ans.noConfusion hc)
      have hred : pconsume mnext (.repeatedOnceSeparated i q sep) st r
          = (st1, .recursionError p2 ctx) := by
        simp [pconsume, h1]
      rw [hred] at hrun
      injection hrun with h1b h2b
      subst h1b
      subst h2b
      refine ⟨n1, J1, ?_, trivial⟩
      intro m hm stx
      simp [pconsume, hpr1 m hm stx]
    | wsCrash =>
      obtain ⟨n1, J1, hpr1, hrg1⟩ := hcall (fun hc => Ans.noConfusion hc)
      have hred : pconsume mnext (.repeatedOnceSeparated i q sep) st r
          = (st1, .wsCrash) := by
        simp [pconsume, h1]
      rw [hred] at hrun
      injection hrun with h1b h2b
      subst h1b
      subst h2b
      refine ⟨n1, J1, ?_, trivial⟩
      intro m hm stx
      simp [pconsume, hpr1 m hm stx]
    | out =>
      have hred : pconsume mnext (.repeatedOnceSeparated i q sep) st r
          = (st1, .out) := by
        simp [pconsume, h1]
      rw [hred] at hrun
      injection hrun with h1b h2b
      exact absurd h2b.symm hout
  | untilP i q =>
    have hnq : Simcall SRC R E q (fun st1 r1 => mnext q st1 r1) := by
      refine hnext q ?_ ?_
      · refine mem_subterms_trans R q (.untilP i q) ?_ hp
        rw [subterms]
        exact List.mem_cons_of_mem _ (subterms_self q)
      · rw [pdepth]
        exact Nat.lt_succ_self _
    exact untilGo_sim SRC R E (fun st1 r1 => mnext q st1 r1) q r.position
      (fun st1 r1 => hreach q st1 r1) hnq (r.source.length + 1 - r.position) st r st' a
      hsrc hinv hrun hout

end Parsita

namespace Parsita

theorem consume_sim (SRC : List Char) (R : Parser) (hWF : (allIds R).Nodup) :
    ∀ (f : Nat) (q : Parser) (E : List (Nat × Nat)) (st : State) (r : Reader)
      (st' : State) (a : Ans),
      q ∈ subterms R →
      (∀ k, k ∈ E → ∃ b, b ∈ subterms R ∧ k.1 = b.pid ∧ pdepth q < pdepth b) →
      r.source = SRC → Inv SRC R E st →
      consume true f q st r = (st', a) → a ≠ .out →
      ∃ n J, PureRun q r n J a ∧ ResGood SRC R E st J st' a := by
  intro f
  induction f with
  | zero =>
    intro q E st r st' a hq hE hsrc hinv hrun hout
    rw [consume] at hrun
    injection hrun with h1b h2b
    exact absurd h2b.symm hout
  | succ f ih =>
    intro q E st r st' a hq hE hsrc hinv hrun hout
    have hrr : (⟨SRC, r.position⟩ : Reader) = r := by
      rw [← hsrc]
    rcases hlook : st.memo.lookup (q.pid, r.position) with _ | v
    · -- memo miss: mark, run the body, store
      set stm : State :=
        { st with
            memo := ((q.pid, r.position), none) :: st.memo,
            trace := st.trace ++ [(q.pid, r.position)] } with hstm
      rcases hbody : pconsume (fun q2 st1 r1 => consume true f q2 st1 r1) q stm r
        with ⟨st2, a2⟩
      have hinvm : Inv SRC R ((q.pid, r.position) :: E) stm := inv_mark hinv _
      have hnext : ∀ q2, q2 ∈ subterms R → pdepth q2 < pdepth q →
          Simcall SRC R ((q.pid, r.position) :: E) q2
            (fun st1 r1 => consume true f q2 st1 r1) := by
        intro q2 hq2 hd2 st0 r0 st0' a0 hsrc0 hinv0 hrun0 hout0
        refine ih q2 ((q.pid, r.position) :: E) st0 r0 st0' a0 hq2 ?_ hsrc0 hinv0
          hrun0 hout0
        intro k hk
        rcases List.mem_cons.mp hk with hk | hk
        · refine ⟨q, hq, ?_, hd2⟩
          rw [hk]
        · obtain ⟨b, hb, hkb, hdb⟩ := hE k hk
          exact ⟨b, hb, hkb, Nat.lt_trans hd2 hdb⟩
      cases a2 with
      | res o =>
        have hred : consume true (f + 1) q st r
            = ({ st2 with memo := ((q.pid, r.position), o) :: st2.memo }, .res o) := by
          simp [consume, hlook, hbody]
        rw [hred] at hrun
        injection hrun with h1b h2b
        subst h1b
        subst h2b
        obtain ⟨n2, J, hpureHelper, hrg⟩ := pconsume_sim SRC R ((q.pid, r.position) :: E)
          (fun q2 st1 r1 => consume true f q2 st1 r1)
          (fun q2 st1 r1 => consume_reaches true f q2 st1 r1) q hq hnext stm r st2
          (.res o) hsrc hinvm hbody (fun hc => Ans.noConfusion hc)
        obtain ⟨hfe2, hcov2, hinv2, hsrcv⟩ := hrg
        have hpr : PureRun q r (n2 + 1) J (.res o) := by
          intro m hm stx
          rcases m with _ | m2
          · exact absurd hm (Nat.not_succ_le_zero n2)
          · rw [consume_false_succ]
            exact hpureHelper m2 (Nat.le_of_succ_le_succ hm) stx
        refine ⟨n2 + 1, J, hpr, ?_, ?_, ?_, hsrcv⟩
        · have hfest : FEeq stm st := ⟨rfl, rfl⟩
          have hfes2 : FEeq { st2 with memo := ((q.pid, r.position), o) :: st2.memo } st2 :=
            ⟨rfl, rfl⟩
          exact FEeq_trans (FEeq_trans hfes2 hfe2) (FEeq_applyJ hfest J)
        · exact fun er hm => hcov2 er hm
        · intro k o2 hl
          rw [List.lookup_cons] at hl
          by_cases hek : (k == (q.pid, r.position)) = true
          · rw [hek] at hl
            injection hl with hl
            subst hl
            refine Or.inr ⟨q, hq, ?_, n2 + 1, J, ?_, ?_, hsrcv⟩
            · rw [eq_of_beq hek]
            · have hk2 : k = (q.pid, r.position) := eq_of_beq hek
              rw [hk2]
              show PureRun q ⟨SRC, r.position⟩ (n2 + 1) J (.res o)
              rw [hrr]
              exact hpr
            · exact fun er hm => hcov2 er hm
          · rw [Bool.eq_false_iff.mpr hek] at hl
            rcases hinv2 k o2 hl with hk | ⟨q3, hq3, hpid3, n3, J3, hpr3, hcov3, hsrc3⟩
            · rcases List.mem_cons.mp hk with hk | hk
              · exact absurd (by rw [hk]; exact beq_self_eq_true (q.pid, r.position))
                  hek
              · exact Or.inl hk
            · exact Or.inr ⟨q3, hq3, hpid3, n3, J3, hpr3,
                (fun er hm => hcov3 er hm), hsrc3⟩
      | recursionError p2 ctx =>
        have hred : consume true (f + 1) q st r = (st2, .recursionError p2 ctx) := by
          simp [consume, hlook, hbody]
        rw [hred] at hrun
        injection hrun with h1b h2b
        subst h1b
        subst h2b
        obtain ⟨n2, J, hpureHelper, hrg⟩ := pconsume_sim SRC R ((q.pid, r.position) :: E)
          (fun q2 st1 r1 => consume true f q2 st1 r1)
          (fun q2 st1 r1 => consume_reaches true f q2 st1 r1) q hq hnext stm r st2
          (.recursionError p2 ctx) hsrc hinvm hbody (fun hc => Ans.noConfusion hc)
        refine ⟨n2 + 1, J, ?_, trivial⟩
        intro m hm stx
        rcases m with _ | m2
        · exact absurd hm (Nat.not_succ_le_zero n2)
        · rw [consume_false_succ]
          exact hpureHelper m2 (Nat.le_of_succ_le_succ hm) stx
      | wsCrash =>
        have hred : consume true (f + 1) q st r = (st2, .wsCrash) := by
          simp [consume, hlook, hbody]
        rw [hred] at hrun
        injection hrun with h1b h2b
        subst h1b
        subst h2b
        obtain ⟨n2, J, hpureHelper, hrg⟩ := pconsume_sim SRC R ((q.pid, r.position) :: E)
          (fun q2 st1 r1 => consume true f q2 st1 r1)
          (fun q2 st1 r1 => consume_reaches true f q2 st1 r1) q hq hnext stm r st2
          .wsCrash hsrc hinvm hbody (fun hc => Ans.noConfusion hc)
        refine ⟨n2 + 1, J, ?_, trivial⟩
        intro m hm stx
        rcases m with _ | m2
        · exact absurd hm (Nat.not_succ_le_zero n2)
        · rw [consume_false_succ]
          exact hpureHelper m2 (Nat.le_of_succ_le_succ hm) stx
      | out =>
        have hred : consume true (f + 1) q st r = (st2, .out) := by
          simp [consume, hlook, hbody]
        rw [hred] at hrun
        injection hrun with h1b h2b
        exact absurd h2b.symm hout
    · -- memo hit
      have hred : consume true (f + 1) q st r = (st, .res v) := by
        simp [consume, hlook]
      rw [hred] at hrun
      injection hrun with h1b h2b
      subst h1b
      subst h2b
      have hkE : (q.pid, r.position) ∉ E := by
        intro hk
        obtain ⟨b, hb, hpidb, hdb⟩ := hE _ hk
        have hqb : q = b := pid_injective hWF q b hq hb hpidb
        rw [hqb] at hdb
        exact Nat.lt_irrefl _ hdb
      rcases hinv _ _ hlook with hk | ⟨q2, hq2, hpid2, n, J, hpr, hcov, hsrcv⟩
      · exact absurd hk hkE
      · have hq2q : q2 = q := (pid_injective hWF q q2 hq hq2 hpid2).symm
        subst hq2q
        refine ⟨n, J, ?_, ?_⟩
        · rw [← hrr]
          exact hpr
        · exact ⟨FEeq_symm (covered_applyJ J hcov), hcov, hinv, hsrcv⟩

end Parsita


namespace Parsita

/-! ### C4, fuel monotonicity of the unmemoized evaluator.

A non-`out` answer is stable under giving the evaluator more fuel: `out`
only arises from exhausted fuel, and every helper propagates it. -/

def NextMono (next1 next2 : Parser → State → Reader → State × Ans) : Prop :=
  ∀ q st r, (next1 q st r).2 ≠ .out → next2 q st r = next1 q st r

theorem litMatch_mono (ws : Option Parser)
    (next1 next2 : Parser → State → Reader → State × Ans) (h : NextMono next1 next2)
    (pattern : List Char) :
    ∀ st r, (litMatch (ws.map (fun w st1 r1 => next1 w st1 r1)) pattern st r).2 ≠ .out →
      litMatch (ws.map (fun w st1 r1 => next2 w st1 r1)) pattern st r
        = litMatch (ws.map (fun w st1 r1 => next1 w st1 r1)) pattern st r := by
  intro st r hne
  by_cases hp : pattern.isPrefixOf (r.source.drop r.position)
  · cases ws with
    | none => rfl
    | some w =>
      rcases h1 : next1 w st (r.drop pattern.length) with ⟨st2, a2⟩
      cases a2 with
      | out =>
        have hredL : litMatch ((some w).map (fun w st1 r1 => next1 w st1 r1))
            pattern st r = (st2, .out) := by
          simp [litMatch, hp, h1]
        rw [hredL] at hne
        exact absurd rfl hne
      | res o =>
        have hno : (next1 w st (r.drop pattern.length)).2 ≠ .out := by
          rw [h1]
          exact fun hc => Ans.noConfusion hc
        have h2 : next2 w st (r.drop pattern.length) = (st2, .res o) := by
          rw [h w st (r.drop pattern.length) hno, h1]
        cases o with
        | some c2 => simp [litMatch, hp, h1, h2]
        | none => simp [litMatch, hp, h1, h2]
      | recursionError p2 ctx =>
        have hno : (next1 w st (r.drop pattern.length)).2 ≠ .out := by
          rw [h1]
          exact fun hc => Ans.noConfusion hc
        have h2 : next2 w st (r.drop pattern.length) = (st2, .recursionError p2 ctx) := by
          rw [h w st (r.drop pattern.length) hno, h1]
        simp [litMatch, hp, h1, h2]
      | wsCrash =>
        have hno : (next1 w st (r.drop pattern.length)).2 ≠ .out := by
          rw [h1]
          exact fun hc => Ans.noConfusion hc
        have h2 : next2 w st (r.drop pattern.length) = (st2, .wsCrash) := by
          rw [h w st (r.drop pattern.length) hno, h1]
        simp [litMatch, hp, h1, h2]
  · simp [litMatch, hp]

theorem litGo_mono (ws : Option Parser)
    (next1 next2 : Parser → State → Reader → State × Ans) (h : NextMono next1 next2)
    (pattern : List Char) :
    ∀ st r, (litGo (ws.map (fun w st1 r1 => next1 w st1 r1)) pattern st r).2 ≠ .out →
      litGo (ws.map (fun w st1 r1 => next2 w st1 r1)) pattern st r
        = litGo (ws.map (fun w st1 r1 => next1 w st1 r1)) pattern st r := by
  intro st r hne
  cases ws with
  | none =>
    show litMatch ((none : Option Parser).map (fun w st1 r1 => next2 w st1 r1))
        pattern st r = _
    exact litMatch_mono none next1 next2 h pattern st r hne
  | some w =>
    rcases h1 : next1 w st r with ⟨st1, a1⟩
    cases a1 with
    | out =>
      have hredL : litGo ((some w).map (fun w st1 r1 => next1 w st1 r1)) pattern st r
          = (st1, .out) := by
        simp [litGo, h1]
      rw [hredL] at hne
      exact absurd rfl hne
    | res o =>
      have hno : (next1 w st r).2 ≠ .out := by
        rw [h1]
        exact fun hc => Ans.noConfusion hc
      have h2 : next2 w st r = (st1, .res o) := by
        rw [h w st r hno, h1]
      cases o with
      | some c1 =>
        have hredL : litGo ((some w).map (fun w st1 r1 => next1 w st1 r1)) pattern st r
            = litMatch ((some w).map (fun w st1 r1 => next1 w st1 r1)) pattern st1
                c1.remainder := by
          simp [litGo, h1]
        have hredR : litGo ((some w).map (fun w st1 r1 => next2 w st1 r1)) pattern st r
            = litMatch ((some w).map (fun w st1 r1 => next2 w st1 r1)) pattern st1
                c1.remainder := by
          simp [litGo, h2]
        rw [hredL] at hne
        rw [hredR, hredL]
        exact litMatch_mono (some w) next1 next2 h pattern st1 c1.remainder hne
      | none =>
        simp [litGo, h1, h2]
    | recursionError p2 ctx =>
      have hno : (next1 w st r).2 ≠ .out := by
        rw [h1]
        exact fun hc => Ans.noConfusion hc
      have h2 : next2 w st r = (st1, .recursionError p2 ctx) := by
        rw [h w st r hno, h1]
      simp [litGo, h1, h2]
    | wsCrash =>
      have hno : (next1 w st r).2 ≠ .out := by
        rw [h1]
        exact fun hc => Ans.noConfusion hc
      have h2 : next2 w st r = (st1, .wsCrash) := by
        rw [h w st r hno, h1]
      simp [litGo, h1, h2]

theorem regMatch_mono (ws : Option Parser)
    (next1 next2 : Parser → State → Reader → State × Ans) (h : NextMono next1 next2)
    (g : Rgx) :
    ∀ st r, (regMatch (ws.map (fun w st1 r1 => next1 w st1 r1)) g st r).2 ≠ .out →
      regMatch (ws.map (fun w st1 r1 => next2 w st1 r1)) g st r
        = regMatch (ws.map (fun w st1 r1 => next1 w st1 r1)) g st r := by
  intro st r hne
  rcases hme : g.matchEnd r.source r.position with _ | epos
  · simp [regMatch, hme]
  · cases ws with
    | none => rfl
    | some w =>
      rcases h1 : next1 w st (r.drop ((r.source.drop r.position).take
          (epos - r.position)).length) with ⟨st2, a2⟩
      simp only [List.length_take, List.length_drop] at h1
      cases a2 with
      | out =>
        have hredL : regMatch ((some w).map (fun w st1 r1 => next1 w st1 r1)) g st r
            = (st2, .out) := by
          simp [regMatch, hme, h1]
        rw [hredL] at hne
        exact absurd rfl hne
      | res o =>
        have hno : (next1 w st (r.drop (min (epos - r.position)
            (r.source.length - r.position)))).2 ≠ .out := by
          rw [h1]
          exact fun hc => Ans.noConfusion hc
        have h2 : next2 w st (r.drop (min (epos - r.position)
            (r.source.length - r.position))) = (st2, .res o) := by
          rw [h w st _ hno, h1]
        cases o with
        | some c2 => simp [regMatch, hme, h1, h2]
        | none => simp [regMatch, hme, h1, h2]
      | recursionError p2 ctx =>
        have hno : (next1 w st (r.drop (min (epos - r.position)
            (r.source.length - r.position)))).2 ≠ .out := by
          rw [h1]
          exact fun hc => Ans.noConfusion hc
        have h2 : next2 w st (r.drop (min (epos - r.position)
            (r.source.length - r.position))) = (st2, .recursionError p2 ctx) := by
          rw [h w st _ hno, h1]
        simp [regMatch, hme, h1, h2]
      | wsCrash =>
        have hno : (next1 w st (r.drop (min (epos - r.position)
            (r.source.length - r.position)))).2 ≠ .out := by
          rw [h1]
          exact fun hc => Ans.noConfusion hc
        have h2 : next2 w st (r.drop (min (epos - r.position)
            (r.source.length - r.position))) = (st2, .wsCrash) := by
          rw [h w st _ hno, h1]
        simp [regMatch, hme, h1, h2]

theorem regGo_mono (ws : Option Parser)
    (next1 next2 : Parser → State → Reader → State × Ans) (h : NextMono next1 next2)
    (g : Rgx) :
    ∀ st r, (regGo (ws.map (fun w st1 r1 => next1 w st1 r1)) g st r).2 ≠ .out →
      regGo (ws.map (fun w st1 r1 => next2 w st1 r1)) g st r
        = regGo (ws.map (fun w st1 r1 => next1 w st1 r1)) g st r := by
  intro st r hne
  cases ws with
  | none =>
    show regMatch ((none : Option Parser).map (fun w st1 r1 => next2 w st1 r1)) g st r = _
    exact regMatch_mono none next1 next2 h g st r hne
  | some w =>
    rcases h1 : next1 w st r with ⟨st1, a1⟩
    cases a1 with
    | out =>
      have hredL : regGo ((some w).map (fun w st1 r1 => next1 w st1 r1)) g st r
          = (st1, .out) := by
        simp [regGo, h1]
      rw [hredL] at hne
      exact absurd rfl hne
    | res o =>
      have hno : (next1 w st r).2 ≠ .out := by
        rw [h1]
        exact fun hc => Ans.noConfusion hc
      have h2 : next2 w st r = (st1, .res o) := by
        rw [h w st r hno, h1]
      cases o with
      | some c1 =>
        have hredL : regGo ((some w).map (fun w st1 r1 => next1 w st1 r1)) g st r
            = regMatch ((some w).map (fun w st1 r1 => next1 w st1 r1)) g st1
                c1.remainder := by
          simp [regGo, h1]
        have hredR : regGo ((some w).map (fun w st1 r1 => next2 w st1 r1)) g st r
            = regMatch ((some w).map (fun w st1 r1 => next2 w st1 r1)) g st1
                c1.remainder := by
          simp [regGo, h2]
        rw [hredL] at hne
        rw [hredR, hredL]
        exact regMatch_mono (some w) next1 next2 h g st1 c1.remainder hne
      | none =>
        simp [regGo, h1, h2]
    | recursionError p2 ctx =>
      have hno : (next1 w st r).2 ≠ .out := by
        rw [h1]
        exact fun hc => Ans.noConfusion hc
      have h2 : next2 w st r = (st1, .recursionError p2 ctx) := by
        rw [h w st r hno, h1]
      simp [regGo, h1, h2]
    | wsCrash =>
      have hno : (next1 w st r).2 ≠ .out := by
        rw [h1]
        exact fun hc => Ans.noConfusion hc
      have h2 : next2 w st r = (st1, .wsCrash) := by
        rw [h w st r hno, h1]
      simp [regGo, h1, h2]

end Parsita

namespace Parsita

theorem seqGo_mono (next1 next2 : Parser → State → Reader → State × Ans)
    (h : NextMono next1 next2) :
    ∀ (qs : List Parser) (st : State) (rem : Reader) (acc : List Value),
      (seqGo next1 qs st rem acc).2 ≠ .out →
      seqGo next2 qs st rem acc = seqGo next1 qs st rem acc := by
  intro qs
  induction qs with
  | nil => intro st rem acc hne; rfl
  | cons q qs ih =>
    intro st rem acc hne
    rcases h1 : next1 q st rem with ⟨st1, a1⟩
    cases a1 with
    | out =>
      have hredL : seqGo next1 (q :: qs) st rem acc = (st1, .out) := by
        simp [seqGo, h1]
      rw [hredL] at hne
      exact absurd rfl hne
    | res o =>
      have hno : (next1 q st rem).2 ≠ .out := by
        rw [h1]
        exact fun hc => Ans.noConfusion hc
      have h2 : next2 q st rem = (st1, .res o) := by
        rw [h q st rem hno, h1]
      cases o with
      | some c =>
        have hredL : seqGo next1 (q :: qs) st rem acc
            = seqGo next1 qs st1 c.remainder (acc ++ [c.value]) := by
          simp [seqGo, h1]
        have hredR : seqGo next2 (q :: qs) st rem acc
            = seqGo next2 qs st1 c.remainder (acc ++ [c.value]) := by
          simp [seqGo, h2]
        rw [hredL] at hne
        rw [hredR, hredL]
        exact ih st1 c.remainder (acc ++ [c.value]) hne
      | none => simp [seqGo, h1, h2]
    | recursionError p2 ctx =>
      have hno : (next1 q st rem).2 ≠ .out := by
        rw [h1]
        exact fun hc => Ans.noConfusion hc
      have h2 : next2 q st rem = (st1, .recursionError p2 ctx) := by
        rw [h q st rem hno, h1]
      simp [seqGo, h1, h2]
    | wsCrash =>
      have hno : (next1 q st rem).2 ≠ .out := by
        rw [h1]
        exact fun hc => Ans.noConfusion hc
      have h2 : next2 q st rem = (st1, .wsCrash) := by
        rw [h q st rem hno, h1]
      simp [seqGo, h1, h2]

theorem firstGo_mono (next1 next2 : Parser → State → State × Ans)
    (h : ∀ q st, (next1 q st).2 ≠ .out → next2 q st = next1 q st) :
    ∀ (qs : List Parser) (st : State),
      (firstGo next1 qs st).2 ≠ .out →
      firstGo next2 qs st = firstGo next1 qs st := by
  intro qs
  induction qs with
  | nil => intro st hne; rfl
  | cons q qs ih =>
    intro st hne
    rcases h1 : next1 q st with ⟨st1, a1⟩
    cases a1 with
    | out =>
      have hredL : firstGo next1 (q :: qs) st = (st1, .out) := by
        simp [firstGo, h1]
      rw [hredL] at hne
      exact absurd rfl hne
    | res o =>
      have hno : (next1 q st).2 ≠ .out := by
        rw [h1]
        exact fun hc => Ans.noConfusion hc
      have h2 : next2 q st = (st1, .res o) := by
        rw [h q st hno, h1]
      cases o with
      | some c => simp [firstGo, h1, h2]
      | none =>
        have hredL : firstGo next1 (q :: qs) st = firstGo next1 qs st1 := by
          simp [firstGo, h1]
        have hredR : firstGo next2 (q :: qs) st = firstGo next2 qs st1 := by
          simp [firstGo, h2]
        rw [hredL] at hne
        rw [hredR, hredL]
        exact ih st1 hne
    | recursionError p2 ctx =>
      have hno : (next1 q st).2 ≠ .out := by
        rw [h1]
        exact fun hc => Ans.noConfusion hc
      have h2 : next2 q st = (st1, .recursionError p2 ctx) := by
        rw [h q st hno, h1]
      simp [firstGo, h1, h2]
    | wsCrash =>
      have hno : (next1 q st).2 ≠ .out := by
        rw [h1]
        exact fun hc => Ans.noConfusion hc
      have h2 : next2 q st = (st1, .wsCrash) := by
        rw [h q st hno, h1]
      simp [firstGo, h1, h2]

theorem longestGo_mono (next1 next2 : Parser → State → State × Ans)
    (h : ∀ q st, (next1 q st).2 ≠ .out → next2 q st = next1 q st) :
    ∀ (qs : List Parser) (st : State) (best : Option Continue),
      (longestGo next1 qs st best).2 ≠ .out →
      longestGo next2 qs st best = longestGo next1 qs st best := by
  intro qs
  induction qs with
  | nil => intro st best hne; rfl
  | cons q qs ih =>
    intro st best hne
    rcases h1 : next1 q st with ⟨st1, a1⟩
    cases a1 with
    | out =>
      have hredL : longestGo next1 (q :: qs) st best = (st1, .out) := by
        simp [longestGo, h1]
      rw [hredL] at hne
      exact absurd rfl hne
    | res o =>
      have hno : (next1 q st).2 ≠ .out := by
        rw [h1]
        exact fun hc => Ans.noConfusion hc
      have h2 : next2 q st = (st1, .res o) := by
        rw [h q st hno, h1]
      cases o with
      | some c =>
        cases best with
        | none =>
          have hredL : longestGo next1 (q :: qs) st none
              = longestGo next1 qs st1 (some c) := by
            simp [longestGo, h1]
          have hredR : longestGo next2 (q :: qs) st none
              = longestGo next2 qs st1 (some c) := by
            simp [longestGo, h2]
          rw [hredL] at hne
          rw [hredR, hredL]
          exact ih st1 _ hne
        | some b =>
          by_cases hgt : c.remainder.position > b.remainder.position
          · have hredL : longestGo next1 (q :: qs) st (some b)
                = longestGo next1 qs st1 (some c) := by
              simp [longestGo, h1, hgt]
            have hredR : longestGo next2 (q :: qs) st (some b)
                = longestGo next2 qs st1 (some c) := by
              simp [longestGo, h2, hgt]
            rw [hredL] at hne
            rw [hredR, hredL]
            exact ih st1 _ hne
          · have hredL : longestGo next1 (q :: qs) st (some b)
                = longestGo next1 qs st1 (some b) := by
              simp [longestGo, h1, hgt]
            have hredR : longestGo next2 (q :: qs) st (some b)
                = longestGo next2 qs st1 (some b) := by
              simp [longestGo, h2, hgt]
            rw [hredL] at hne
            rw [hredR, hredL]
            exact ih st1 _ hne
      | none =>
        have hredL : longestGo next1 (q :: qs) st best = longestGo next1 qs st1 best := by
          simp [longestGo, h1]
        have hredR : longestGo next2 (q :: qs) st best = longestGo next2 qs st1 best := by
          simp [longestGo, h2]
        rw [hredL] at hne
        rw [hredR, hredL]
        exact ih st1 best hne
    | recursionError p2 ctx =>
      have hno : (next1 q st).2 ≠ .out := by
        rw [h1]
        exact fun hc => Ans.noConfusion hc
      have h2 : next2 q st = (st1, .recursionError p2 ctx) := by
        rw [h q st hno, h1]
      simp [longestGo, h1, h2]
    | wsCrash =>
      have hno : (next1 q st).2 ≠ .out := by
        rw [h1]
        exact fun hc => Ans.noConfusion hc
      have h2 : next2 q st = (st1, .wsCrash) := by
        rw [h q st hno, h1]
      simp [longestGo, h1, h2]

theorem repGo_mono (next1 next2 : State → Reader → State × Ans)
    (h : ∀ st r, (next1 st r).2 ≠ .out → next2 st r = next1 st r)
    (selfP : Parser) (mn : Nat) (mx : Option Nat) :
    ∀ (k : Nat) (st : State) (acc : List Value) (rem : Reader),
      (repGo next1 selfP mn mx k st acc rem).2 ≠ .out →
      repGo next2 selfP mn mx k st acc rem = repGo next1 selfP mn mx k st acc rem := by
  intro k
  induction k with
  | zero =>
    intro st acc rem hne
    rw [repGo] at hne
    exact absurd rfl hne
  | succ k ih =>
    intro st acc rem hne
    by_cases hmx : underMax acc.length mx = true
    · rcases h1 : next1 st rem with ⟨st1, a1⟩
      cases a1 with
      | out =>
        have hredL : repGo next1 selfP mn mx (k + 1) st acc rem = (st1, .out) := by
          simp [repGo, hmx, h1]
        rw [hredL] at hne
        exact absurd rfl hne
      | res o =>
        have hno : (next1 st rem).2 ≠ .out := by
          rw [h1]
          exact fun hc => Ans.noConfusion hc
        have h2 : next2 st rem = (st1, .res o) := by
          rw [h st rem hno, h1]
        cases o with
        | some c =>
          by_cases hpos : rem.position = c.remainder.position
          · simp [repGo, hmx, h1, h2, hpos]
          · have hredL : repGo next1 selfP mn mx (k + 1) st acc rem
                = repGo next1 selfP mn mx k st1 (acc ++ [c.value]) c.remainder := by
              simp [repGo, hmx, h1, hpos]
            have hredR : repGo next2 selfP mn mx (k + 1) st acc rem
                = repGo next2 selfP mn mx k st1 (acc ++ [c.value]) c.remainder := by
              simp [repGo, hmx, h2, hpos]
            rw [hredL] at hne
            rw [hredR, hredL]
            exact ih st1 (acc ++ [c.value]) c.remainder hne
        | none => simp [repGo, hmx, h1, h2]
      | recursionError p2 ctx =>
        have hno : (next1 st rem).2 ≠ .out := by
          rw [h1]
          exact fun hc => Ans.noConfusion hc
        have h2 : next2 st rem = (st1, .recursionError p2 ctx) := by
          rw [h st rem hno, h1]
        simp [repGo, hmx, h1, h2]
      | wsCrash =>
        have hno : (next1 st rem).2 ≠ .out := by
          rw [h1]
          exact fun hc => Ans.noConfusion hc
        have h2 : next2 st rem = (st1, .wsCrash) := by
          rw [h st rem hno, h1]
        simp [repGo, hmx, h1, h2]
    · simp [repGo, hmx]

theorem rep1Go_mono (next1 next2 : State → Reader → State × Ans)
    (h : ∀ st r, (next1 st r).2 ≠ .out → next2 st r = next1 st r)
    (selfP : Parser) :
    ∀ (k : Nat) (st : State) (acc : List Value) (rem : Reader),
      (rep1Go next1 selfP k st acc rem).2 ≠ .out →
      rep1Go next2 selfP k st acc rem = rep1Go next1 selfP k st acc rem := by
  intro k
  induction k with
  | zero =>
    intro st acc rem hne
    rw [rep1Go] at hne
    exact absurd rfl hne
  | succ k ih =>
    intro st acc rem hne
    rcases h1 : next1 st rem with ⟨st1, a1⟩
    cases a1 with
    | out =>
      have hredL : rep1Go next1 selfP (k + 1) st acc rem = (st1, .out) := by
        simp [rep1Go, h1]
      rw [hredL] at hne
      exact absurd rfl hne
    | res o =>
      have hno : (next1 st rem).2 ≠ .out := by
        rw [h1]
        exact fun hc => Ans.noConfusion hc
      have h2 : next2 st rem = (st1, .res o) := by
        rw [h st rem hno, h1]
      cases o with
      | some c =>
        by_cases hpos : rem.position = c.remainder.position
        · simp [rep1Go, h1, h2, hpos]
        · have hredL : rep1Go next1 selfP (k + 1) st acc rem
              = rep1Go next1 selfP k st1 (acc ++ [c.value]) c.remainder := by
            simp [rep1Go, h1, hpos]
          have hredR : rep1Go next2 selfP (k + 1) st acc rem
              = rep1Go next2 selfP k st1 (acc ++ [c.value]) c.remainder := by
            simp [rep1Go, h2, hpos]
          rw [hredL] at hne
          rw [hredR, hredL]
          exact ih st1 (acc ++ [c.value]) c.remainder hne
      | none => simp [rep1Go, h1, h2]
    | recursionError p2 ctx =>
      have hno : (next1 st rem).2 ≠ .out := by
        rw [h1]
        exact fun hc => Ans.noConfusion hc
      have h2 : next2 st rem = (st1, .recursionError p2 ctx) := by
        rw [h st rem hno, h1]
      simp [rep1Go, h1, h2]
    | wsCrash =>
      have hno : (next1 st rem).2 ≠ .out := by
        rw [h1]
        exact fun hc => Ans.noConfusion hc
      have h2 : next2 st rem = (st1, .wsCrash) := by
        rw [h st rem hno, h1]
      simp [rep1Go, h1, h2]

end Parsita

namespace Parsita

theorem repsepGo_mono (nextP1 nextP2 nextSep1 nextSep2 : State → Reader → State × Ans)
    (hP : ∀ st r, (nextP1 st r).2 ≠ .out → nextP2 st r = nextP1 st r)
    (hS : ∀ st r, (nextSep1 st r).2 ≠ .out → nextSep2 st r = nextSep1 st r)
    (selfP : Parser) (mn : Nat) (mx : Option Nat) :
    ∀ (k : Nat) (st : State) (acc : List Value) (rem : Reader),
      (repsepGo nextP1 nextSep1 selfP mn mx k st acc rem).2 ≠ .out →
      repsepGo nextP2 nextSep2 selfP mn mx k st acc rem
        = repsepGo nextP1 nextSep1 selfP mn mx k st acc rem := by
  intro k
  induction k with
  | zero =>
    intro st acc rem hne
    rw [repsepGo] at hne
    exact absurd rfl hne
  | succ k ih =>
    intro st acc rem hne
    by_cases hmx : underMax acc.length mx = true
    · rcases h1 : nextSep1 st rem with ⟨st1, a1⟩
      cases a1 with
      | out =>
        have hredL : repsepGo nextP1 nextSep1 selfP mn mx (k + 1) st acc rem
            = (st1, .out) := by
          simp [repsepGo, hmx, h1]
        rw [hredL] at hne
        exact absurd rfl hne
      | res o =>
        have hno : (nextSep1 st rem).2 ≠ .out := by
          rw [h1]
          exact fun hc => Ans.noConfusion hc
        have h2 : nextSep2 st rem = (st1, .res o) := by
          rw [hS st rem hno, h1]
        cases o with
        | some sc =>
          rcases h3 : nextP1 st1 sc.remainder with ⟨st2, a2⟩
          cases a2 with
          | out =>
            have hredL : repsepGo nextP1 nextSep1 selfP mn mx (k + 1) st acc rem
                = (st2, .out) := by
              simp [repsepGo, hmx, h1, h3]
            rw [hredL] at hne
            exact absurd rfl hne
          | res o2 =>
            have hno3 : (nextP1 st1 sc.remainder).2 ≠ .out := by
              rw [h3]
              exact fun hc => Ans.noConfusion hc
            have h4 : nextP2 st1 sc.remainder = (st2, .res o2) := by
              rw [hP st1 sc.remainder hno3, h3]
            cases o2 with
            | some pc =>
              by_cases hpos : rem.position = pc.remainder.position
              · simp [repsepGo, hmx, h1, h2, h3, h4, hpos]
              · have hredL : repsepGo nextP1 nextSep1 selfP mn mx (k + 1) st acc rem
                    = repsepGo nextP1 nextSep1 selfP mn mx k st2 (acc ++ [pc.value])
                        pc.remainder := by
                  simp [repsepGo, hmx, h1, h3, hpos]
                have hredR : repsepGo nextP2 nextSep2 selfP mn mx (k + 1) st acc rem
                    = repsepGo nextP2 nextSep2 selfP mn mx k st2 (acc ++ [pc.value])
                        pc.remainder := by
                  simp [repsepGo, hmx, h2, h4, hpos]
                rw [hredL] at hne
                rw [hredR, hredL]
                exact ih st2 (acc ++ [pc.value]) pc.remainder hne
            | none => simp [repsepGo, hmx, h1, h2, h3, h4]
          | recursionError p2 ctx =>
            have hno3 : (nextP1 st1 sc.remainder).2 ≠ .out := by
              rw [h3]
              exact fun hc => Ans.noConfusion hc
            have h4 : nextP2 st1 sc.remainder = (st2, .recursionError p2 ctx) := by
              rw [hP st1 sc.remainder hno3, h3]
            simp [repsepGo, hmx, h1, h2, h3, h4]
          | wsCrash =>
            have hno3 : (nextP1 st1 sc.remainder).2 ≠ .out := by
              rw [h3]
              exact fun hc => Ans.noConfusion hc
            have h4 : nextP2 st1 sc.remainder = (st2, .wsCrash) := by
              rw [hP st1 sc.remainder hno3, h3]
            simp [repsepGo, hmx, h1, h2, h3, h4]
        | none => simp [repsepGo, hmx, h1, h2]
      | recursionError p2 ctx =>
        have hno : (nextSep1 st rem).2 ≠ .out := by
          rw [h1]
          exact fun hc => Ans.noConfusion hc
        have h2 : nextSep2 st rem = (st1, .recursionError p2 ctx) := by
          rw [hS st rem hno, h1]
        simp [repsepGo, hmx, h1, h2]
      | wsCrash =>
        have hno : (nextSep1 st rem).2 ≠ .out := by
          rw [h1]
          exact fun hc => Ans.noConfusion hc
        have h2 : nextSep2 st rem = (st1, .wsCrash) := by
          rw [hS st rem hno, h1]
        simp [repsepGo, hmx, h1, h2]
    · simp [repsepGo, hmx]

theorem rep1sepGo_mono (nextP1 nextP2 nextSep1 nextSep2 : State → Reader → State × Ans)
    (hP : ∀ st r, (nextP1 st r).2 ≠ .out → nextP2 st r = nextP1 st r)
    (hS : ∀ st r, (nextSep1 st r).2 ≠ .out → nextSep2 st r = nextSep1 st r)
    (selfP : Parser) :
    ∀ (k : Nat) (st : State) (acc : List Value) (rem : Reader),
      (rep1sepGo nextP1 nextSep1 selfP k st acc rem).2 ≠ .out →
      rep1sepGo nextP2 nextSep2 selfP k st acc rem
        = rep1sepGo nextP1 nextSep1 selfP k st acc rem := by
  intro k
  induction k with
  | zero =>
    intro st acc rem hne
    rw [rep1sepGo] at hne
    exact absurd rfl hne
  | succ k ih =>
    intro st acc rem hne
    rcases h1 : nextSep1 st rem with ⟨st1, a1⟩
    cases a1 with
    | out =>
      have hredL : rep1sepGo nextP1 nextSep1 selfP (k + 1) st acc rem
          = (st1, .out) := by
        simp [rep1sepGo, h1]
      rw [hredL] at hne
      exact absurd rfl hne
    | res o =>
      have hno : (nextSep1 st rem).2 ≠ .out := by
        rw [h1]
        exact fun hc => Ans.noConfusion hc
      have h2 : nextSep2 st rem = (st1, .res o) := by
        rw [hS st rem hno, h1]
      cases o with
      | some sc =>
        rcases h3 : nextP1 st1 sc.remainder with ⟨st2, a2⟩
        cases a2 with
        | out =>
          have hredL : rep1sepGo nextP1 nextSep1 selfP (k + 1) st acc rem
              = (st2, .out) := by
            simp [rep1sepGo, h1, h3]
          rw [hredL] at hne
          exact absurd rfl hne
        | res o2 =>
          have hno3 : (nextP1 st1 sc.remainder).2 ≠ .out := by
            rw [h3]
            exact fun hc => Ans.noConfusion hc
          have h4 : nextP2 st1 sc.remainder = (st2, .res o2) := by
            rw [hP st1 sc.remainder hno3, h3]
          cases o2 with
          | some pc =>
            by_cases hpos : rem.position = pc.remainder.position
            · simp [rep1sepGo, h1, h2, h3, h4, hpos]
            · have hredL : rep1sepGo nextP1 nextSep1 selfP (k + 1) st acc rem
                  = rep1sepGo nextP1 nextSep1 selfP k st2 (acc ++ [pc.value])
                      pc.remainder := by
                simp [rep1sepGo, h1, h3, hpos]
              have hredR : rep1sepGo nextP2 nextSep2 selfP (k + 1) st acc rem
                  = rep1sepGo nextP2 nextSep2 selfP k st2 (acc ++ [pc.value])
                      pc.remainder := by
                simp [rep1sepGo, h2, h4, hpos]
              rw [hredL] at hne
              rw [hredR, hredL]
              exact ih st2 (acc ++ [pc.value]) pc.remainder hne
          | none => simp [rep1sepGo, h1, h2, h3, h4]
        | recursionError p2 ctx =>
          have hno3 : (nextP1 st1 sc.remainder).2 ≠ .out := by
            rw [h3]
            exact fun hc => Ans.noConfusion hc
          have h4 : nextP2 st1 sc.remainder = (st2, .recursionError p2 ctx) := by
            rw [hP st1 sc.remainder hno3, h3]
          simp [rep1sepGo, h1, h2, h3, h4]
        | wsCrash =>
          have hno3 : (nextP1 st1 sc.remainder).2 ≠ .out := by
            rw [h3]
            exact fun hc => Ans.noConfusion hc
          have h4 : nextP2 st1 sc.remainder = (st2, .wsCrash) := by
            rw [hP st1 sc.remainder hno3, h3]
          simp [rep1sepGo, h1, h2, h3, h4]
      | none => simp [rep1sepGo, h1, h2]
    | recursionError p2 ctx =>
      have hno : (nextSep1 st rem).2 ≠ .out := by
        rw [h1]
        exact fun hc => Ans.noConfusion hc
      have h2 : nextSep2 st rem = (st1, .recursionError p2 ctx) := by
        rw [hS st rem hno, h1]
      simp [rep1sepGo, h1, h2]
    | wsCrash =>
      have hno : (nextSep1 st rem).2 ≠ .out := by
        rw [h1]
        exact fun hc => Ans.noConfusion hc
      have h2 : nextSep2 st rem = (st1, .wsCrash) := by
        rw [hS st rem hno, h1]
      simp [rep1sepGo, h1, h2]

theorem untilGo_mono (next1 next2 : State → Reader → State × Ans)
    (h : ∀ st r, (next1 st r).2 ≠ .out → next2 st r = next1 st r) (start : Nat) :
    ∀ (k : Nat) (st : State) (r : Reader),
      (untilGo next1 start k st r).2 ≠ .out →
      untilGo next2 start k st r = untilGo next1 start k st r := by
  intro k
  induction k with
  | zero =>
    intro st r hne
    rw [untilGo] at hne
    exact absurd rfl hne
  | succ k ih =>
    intro st r hne
    rcases h1 : next1 st r with ⟨st1, a1⟩
    cases a1 with
    | out =>
      have hredL : untilGo next1 start (k + 1) st r = (st1, .out) := by
        simp [untilGo, h1]
      rw [hredL] at hne
      exact absurd rfl hne
    | res o =>
      have hno : (next1 st r).2 ≠ .out := by
        rw [h1]
        exact fun hc => Ans.noConfusion hc
      have h2 : next2 st r = (st1, .res o) := by
        rw [h st r hno, h1]
      cases o with
      | some c => simp [untilGo, h1, h2]
      | none =>
        by_cases hf : r.finished
        · simp [untilGo, h1, h2, hf]
        · have hredL : untilGo next1 start (k + 1) st r
              = untilGo next1 start k st1 r.rest := by
            simp [untilGo, h1, hf]
          have hredR : untilGo next2 start (k + 1) st r
              = untilGo next2 start k st1 r.rest := by
            simp [untilGo, h2, hf]
          rw [hredL] at hne
          rw [hredR, hredL]
          exact ih st1 r.rest hne
    | recursionError p2 ctx =>
      have hno : (next1 st r).2 ≠ .out := by
        rw [h1]
        exact fun hc => Ans.noConfusion hc
      have h2 : next2 st r = (st1, .recursionError p2 ctx) := by
        rw [h st r hno, h1]
      simp [untilGo, h1, h2]
    | wsCrash =>
      have hno : (next1 st r).2 ≠ .out := by
        rw [h1]
        exact fun hc => Ans.noConfusion hc
      have h2 : next2 st r = (st1, .wsCrash) := by
        rw [h st r hno, h1]
      simp [untilGo, h1, h2]

end Parsita

namespace Parsita

theorem pconsume_mono (next1 next2 : Parser → State → Reader → State × Ans)
    (h : NextMono next1 next2) :
    ∀ (p : Parser) (st : State) (r : Reader),
      (pconsume next1 p st r).2 ≠ .out →
      pconsume next2 p st r = pconsume next1 p st r := by
  intro p st r hne
  cases p with
  | literal i pattern ws => exact litGo_mono ws next1 next2 h pattern st r hne
  | regex i g ws => exact regGo_mono ws next1 next2 h g st r hne
  | endOfSource i => rfl
  | anyElem i => rfl
  | successP i v => rfl
  | failureP i msg => rfl
  | optional i q =>
    rcases h1 : next1 q st r with ⟨st1, a1⟩
    cases a1 with
    | out =>
      have hredL : pconsume next1 (.optional i q) st r = (st1, .out) := by
        simp [pconsume, h1]
      rw [hredL] at hne
      exact absurd rfl hne
    | res o =>
      have hno : (next1 q st r).2 ≠ .out := by
        rw [h1]
        exact fun hc => Ans.noConfusion hc
      have h2 : next2 q st r = (st1, .res o) := by
        rw [h q st r hno, h1]
      cases o with
      | some c => simp [pconsume, h1, h2]
      | none => simp [pconsume, h1, h2]
    | recursionError p2 ctx =>
      have hno : (next1 q st r).2 ≠ .out := by
        rw [h1]
        exact fun hc => Ans.noConfusion hc
      have h2 : next2 q st r = (st1, .recursionError p2 ctx) := by
        rw [h q st r hno, h1]
      simp [pconsume, h1, h2]
    | wsCrash =>
      have hno : (next1 q st r).2 ≠ .out := by
        rw [h1]
        exact fun hc => Ans.noConfusion hc
      have h2 : next2 q st r = (st1, .wsCrash) := by
        rw [h q st r hno, h1]
      simp [pconsume, h1, h2]
  | firstAlternative i ps =>
    exact firstGo_mono (fun q2 st1 => next1 q2 st1 r) (fun q2 st1 => next2 q2 st1 r)
      (fun q2 st1 hno => h q2 st1 r hno) ps st hne
  | longestAlternative i ps =>
    exact longestGo_mono (fun q2 st1 => next1 q2 st1 r) (fun q2 st1 => next2 q2 st1 r)
      (fun q2 st1 hno => h q2 st1 r hno) ps st none hne
  | sequential i ps => exact seqGo_mono next1 next2 h ps st r [] hne
  | discardLeft i l rp =>
    rcases h1 : next1 l st r with ⟨st1, a1⟩
    cases a1 with
    | out =>
      have hredL : pconsume next1 (.discardLeft i l rp) st r = (st1, .out) := by
        simp [pconsume, h1]
      rw [hredL] at hne
      exact absurd rfl hne
    | res o =>
      have hno : (next1 l st r).2 ≠ .out := by
        rw [h1]
        exact fun hc => Ans.noConfusion hc
      have h2 : next2 l st r = (st1, .res o) := by
        rw [h l st r hno, h1]
      cases o with
      | some c =>
        have hredL : pconsume next1 (.discardLeft i l rp) st r
            = next1 rp st1 c.remainder := by
          simp [pconsume, h1]
        have hredR : pconsume next2 (.discardLeft i l rp) st r
            = next2 rp st1 c.remainder := by
          simp [pconsume, h2]
        rw [hredL] at hne
        rw [hredR, hredL]
        exact h rp st1 c.remainder hne
      | none => simp [pconsume, h1, h2]
    | recursionError p2 ctx =>
      have hno : (next1 l st r).2 ≠ .out := by
        rw [h1]
        exact fun hc => Ans.noConfusion hc
      have h2 : next2 l st r = (st1, .recursionError p2 ctx) := by
        rw [h l st r hno, h1]
      simp [pconsume, h1, h2]
    | wsCrash =>
      have hno : (next1 l st r).2 ≠ .out := by
        rw [h1]
        exact fun hc => Ans.noConfusion hc
      have h2 : next2 l st r = (st1, .wsCrash) := by
        rw [h l st r hno, h1]
      simp [pconsume, h1, h2]
  | discardRight i l rp =>
    rcases h1 : next1 l st r with ⟨st1, a1⟩
    cases a1 with
    | out =>
      have hredL : pconsume next1 (.discardRight i l rp) st r = (st1, .out) := by
        simp [pconsume, h1]
      rw [hredL] at hne
      exact absurd rfl hne
    | res o =>
      have hno : (next1 l st r).2 ≠ .out := by
        rw [h1]
        exact fun hc => Ans.noConfusion hc
      have h2 : next2 l st r = (st1, .res o) := by
        rw [h l st r hno, h1]
      cases o with
      | some c1 =>
        rcases h3 : next1 rp st1 c1.remainder with ⟨st2, a2⟩
        cases a2 with
        | out =>
          have hredL : pconsume next1 (.discardRight i l rp) st r = (st2, .out) := by
            simp [pconsume, h1, h3]
          rw [hredL] at hne
          exact absurd rfl hne
        | res o2 =>
          have hno3 : (next1 rp st1 c1.remainder).2 ≠ .out := by
            rw [h3]
            exact fun hc => Ans.noConfusion hc
          have h4 : next2 rp st1 c1.remainder = (st2, .res o2) := by
            rw [h rp st1 c1.remainder hno3, h3]
          cases o2 with
          | some c2 => simp [pconsume, h1, h2, h3, h4]
          | none => simp [pconsume, h1, h2, h3, h4]
        | recursionError p2 ctx =>
          have hno3 : (next1 rp st1 c1.remainder).2 ≠ .out := by
            rw [h3]
            exact fun hc => Ans.noConfusion hc
          have h4 : next2 rp st1 c1.remainder = (st2, .recursionError p2 ctx) := by
            rw [h rp st1 c1.remainder hno3, h3]
          simp [pconsume, h1, h2, h3, h4]
        | wsCrash =>
          have hno3 : (next1 rp st1 c1.remainder).2 ≠ .out := by
            rw [h3]
            exact fun hc => Ans.noConfusion hc
          have h4 : next2 rp st1 c1.remainder = (st2, .wsCrash) := by
            rw [h rp st1 c1.remainder hno3, h3]
          simp [pconsume, h1, h2, h3, h4]
      | none => simp [pconsume, h1, h2]
    | recursionError p2 ctx =>
      have hno : (next1 l st r).2 ≠ .out := by
        rw [h1]
        exact fun hc => Ans.noConfusion hc
      have h2 : next2 l st r = (st1, .recursionError p2 ctx) := by
        rw [h l st r hno, h1]
      simp [pconsume, h1, h2]
    | wsCrash =>
      have hno : (next1 l st r).2 ≠ .out := by
        rw [h1]
        exact fun hc => Ans.noConfusion hc
      have h2 : next2 l st r = (st1, .wsCrash) := by
        rw [h l st r hno, h1]
      simp [pconsume, h1, h2]
  | conversion i q f =>
    rcases h1 : next1 q st r with ⟨st1, a1⟩
    cases a1 with
    | out =>
      have hredL : pconsume next1 (.conversion i q f) st r = (st1, .out) := by
        simp [pconsume, h1]
      rw [hredL] at hne
      exact absurd rfl hne
    | res o =>
      have hno : (next1 q st r).2 ≠ .out := by
        rw [h1]
        exact fun hc => Ans.noConfusion hc
      have h2 : next2 q st r = (st1, .res o) := by
        rw [h q st r hno, h1]
      cases o with
      | some c => simp [pconsume, h1, h2]
      | none => simp [pconsume, h1, h2]
    | recursionError p2 ctx =>
      have hno : (next1 q st r).2 ≠ .out := by
        rw [h1]
        exact fun hc => Ans.noConfusion hc
      have h2 : next2 q st r = (st1, .recursionError p2 ctx) := by
        rw [h q st r hno, h1]
      simp [pconsume, h1, h2]
    | wsCrash =>
      have hno : (next1 q st r).2 ≠ .out := by
        rw [h1]
        exact fun hc => Ans.noConfusion hc
      have h2 : next2 q st r = (st1, .wsCrash) := by
        rw [h q st r hno, h1]
      simp [pconsume, h1, h2]
  | repeated i q mn mx =>
    exact repGo_mono (fun st1 r1 => next1 q st1 r1) (fun st1 r1 => next2 q st1 r1)
      (fun st1 r1 hno => h q st1 r1 hno) (.repeated i q mn mx) mn mx
      (r.source.length + 1) st [] r hne
  | repeatedOnce i q =>
    rcases h1 : next1 q st r with ⟨st1, a1⟩
    cases a1 with
    | out =>
      have hredL : pconsume next1 (.repeatedOnce i q) st r = (st1, .out) := by
        simp [pconsume, h1]
      rw [hredL] at hne
      exact absurd rfl hne
    | res o =>
      have hno : (next1 q st r).2 ≠ .out := by
        rw [h1]
        exact fun hc => Ans.noConfusion hc
      have h2 : next2 q st r = (st1, .res o) := by
        rw [h q st r hno, h1]
      cases o with
      | some c =>
        have hredL : pconsume next1 (.repeatedOnce i q) st r
            = rep1Go (fun st1 r1 => next1 q st1 r1) (.repeatedOnce i q)
                (r.source.length + 1) st1 [c.value] c.remainder := by
          simp [pconsume, h1]
        have hredR : pconsume next2 (.repeatedOnce i q) st r
            = rep1Go (fun st1 r1 => next2 q st1 r1) (.repeatedOnce i q)
                (r.source.length + 1) st1 [c.value] c.remainder := by
          simp [pconsume, h2]
        rw [hredL] at hne
        rw [hredR, hredL]
        exact rep1Go_mono (fun st1 r1 => next1 q st1 r1) (fun st1 r1 => next2 q st1 r1)
          (fun st1 r1 hno1 => h q st1 r1 hno1) (.repeatedOnce i q)
          (r.source.length + 1) st1 [c.value] c.remainder hne
      | none => simp [pconsume, h1, h2]
    | recursionError p2 ctx =>
      have hno : (next1 q st r).2 ≠ .out := by
        rw [h1]
        exact fun hc => Ans.noConfusion hc
      have h2 : next2 q st r = (st1, .recursionError p2 ctx) := by
        rw [h q st r hno, h1]
      simp [pconsume, h1, h2]
    | wsCrash =>
      have hno : (next1 q st r).2 ≠ .out := by
        rw [h1]
        exact fun hc => Ans.noConfusion hc
      have h2 : next2 q st r = (st1, .wsCrash) := by
        rw [h q st r hno, h1]
      simp [pconsume, h1, h2]
  | repeatedSeparated i q sep mn mx =>
    rcases h1 : next1 q st r with ⟨st1, a1⟩
    cases a1 with
    | out =>
      have hredL : pconsume next1 (.repeatedSeparated i q sep mn mx) st r
          = (st1, .out) := by
        simp [pconsume, h1]
      rw [hredL] at hne
      exact absurd rfl hne
    | res o =>
      have hno : (next1 q st r).2 ≠ .out := by
        rw [h1]
        exact fun hc => Ans.noConfusion hc
      have h2 : next2 q st r = (st1, .res o) := by
        rw [h q st r hno, h1]
      cases o with
      | some c =>
        have hredL : pconsume next1 (.repeatedSeparated i q sep mn mx) st r
            = repsepGo (fun st1 r1 => next1 q st1 r1) (fun st1 r1 => next1 sep st1 r1)
                (.repeatedSeparated i q sep mn mx) mn mx (r.source.length + 1) st1
                [c.value] c.remainder := by
          simp [pconsume, h1]
        have hredR : pconsume next2 (.repeatedSeparated i q sep mn mx) st r
            = repsepGo (fun st1 r1 => next2 q st1 r1) (fun st1 r1 => next2 sep st1 r1)
                (.repeatedSeparated i q sep mn mx) mn mx (r.source.length + 1) st1
                [c.value] c.remainder := by
          simp [pconsume, h2]
        rw [hredL] at hne
        rw [hredR, hredL]
        exact repsepGo_mono (fun st1 r1 => next1 q st1 r1) (fun st1 r1 => next2 q st1 r1)
          (fun st1 r1 => next1 sep st1 r1) (fun st1 r1 => next2 sep st1 r1)
          (fun st1 r1 hno1 => h q st1 r1 hno1) (fun st1 r1 hno1 => h sep st1 r1 hno1)
          (.repeatedSeparated i q sep mn mx) mn mx (r.source.length + 1) st1
          [c.value] c.remainder hne
      | none => simp [pconsume, h1, h2]
    | recursionError p2 ctx =>
      have hno : (next1 q st r).2 ≠ .out := by
        rw [h1]
        exact fun hc => Ans.noConfusion hc
      have h2 : next2 q st r = (st1, .recursionError p2 ctx) := by
        rw [h q st r hno, h1]
      simp [pconsume, h1, h2]
    | wsCrash =>
      have hno : (next1 q st r).2 ≠ .out := by
        rw [h1]
        exact fun hc => Ans.noConfusion hc
      have h2 : next2 q st r = (st1, .wsCrash) := by
        rw [h q st r hno, h1]
      simp [pconsume, h1, h2]
  | repeatedOnceSeparated i q sep =>
    rcases h1 : next1 q st r with ⟨st1, a1⟩
    cases a1 with
    | out =>
      have hredL : pconsume next1 (.repeatedOnceSeparated i q sep) st r
          = (st1, .out) := by
        simp [pconsume, h1]
      rw [hredL] at hne
      exact absurd rfl hne
    | res o =>
      have hno : (next1 q st r).2 ≠ .out := by
        rw [h1]
        exact fun hc => Ans.noConfusion hc
      have h2 : next2 q st r = (st1, .res o) := by
        rw [h q st r hno, h1]
      cases o with
      | some c =>
        have hredL : pconsume next1 (.repeatedOnceSeparated i q sep) st r
            = rep1sepGo (fun st1 r1 => next1 q st1 r1) (fun st1 r1 => next1 sep st1 r1)
                (.repeatedOnceSeparated i q sep) (r.source.length + 1) st1
                [c.value] c.remainder := by
          simp [pconsume, h1]
        have hredR : pconsume next2 (.repeatedOnceSeparated i q sep) st r
            = rep1sepGo (fun st1 r1 => next2 q st1 r1) (fun st1 r1 => next2 sep st1 r1)
                (.repeatedOnceSeparated i q sep) (r.source.length + 1) st1
                [c.value] c.remainder := by
          simp [pconsume, h2]
        rw [hredL] at hne
        rw [hredR, hredL]
        exact rep1sepGo_mono (fun st1 r1 => next1 q st1 r1)
          (fun st1 r1 => next2 q st1 r1) (fun st1 r1 => next1 sep st1 r1)
          (fun st1 r1 => next2 sep st1 r1)
          (fun st1 r1 hno1 => h q st1 r1 hno1) (fun st1 r1 hno1 => h sep st1 r1 hno1)
          (.repeatedOnceSeparated i q sep) (r.source.length + 1) st1
          [c.value] c.remainder hne
      | none => simp [pconsume, h1, h2]
    | recursionError p2 ctx =>
      have hno : (next1 q st r).2 ≠ .out := by
        rw [h1]
        exact fun hc => Ans.noConfusion hc
      have h2 : next2 q st r = (st1, .recursionError p2 ctx) := by
        rw [h q st r hno, h1]
      simp [pconsume, h1, h2]
    | wsCrash =>
      have hno : (next1 q st r).2 ≠ .out := by
        rw [h1]
        exact fun hc => Ans.noConfusion hc
      have h2 : next2 q st r = (st1, .wsCrash) := by
        rw [h q st r hno, h1]
      simp [pconsume, h1, h2]
  | untilP i q =>
    exact untilGo_mono (fun st1 r1 => next1 q st1 r1) (fun st1 r1 => next2 q st1 r1)
      (fun st1 r1 hno => h q st1 r1 hno) r.position (r.source.length + 1 - r.position)
      st r hne

theorem consume_false_mono :
    ∀ (f : Nat) (m : Nat), f ≤ m → ∀ (q : Parser) (st : State) (r : Reader),
      (consume false f q st r).2 ≠ .out →
      consume false m q st r = consume false f q st r := by
  intro f
  induction f with
  | zero =>
    intro m hm q st r hne
    rw [consume] at hne
    exact absurd rfl hne
  | succ f ih =>
    intro m hm q st r hne
    rcases m with _ | m2
    · exact absurd hm (Nat.not_succ_le_zero f)
    · have hle : f ≤ m2 := Nat.le_of_succ_le_succ hm
      rw [consume_false_succ] at hne ⊢
      rw [consume_false_succ]
      exact pconsume_mono (fun q2 st1 r1 => consume false f q2 st1 r1)
        (fun q2 st1 r1 => consume false m2 q2 st1 r1)
        (fun q2 st1 r1 hno => ih m2 hle q2 st1 r1 hno) q st r hne

end Parsita

namespace Parsita

/-- C4 (refinement_equivalence): for every grammar — a parser tree whose
node identities are pairwise distinct, as the identities of distinct
Python objects are — and every source, whenever both the memoized `parse`
(the packrat `consume` of `parsers/_base.py`) and the same `parse` with
memoization disabled (`consume` calling `_consume` directly) complete
within their fuel, they return the same observable result: the same
`Success` value, the same `Failure` diagnostic built from the farthest
failure and the deduplicated expected list, or the same fatal
`RecursionError`. -/
theorem c4_memo_transparent (p : Parser) (hWF : (allIds (mkRoot p)).Nodup)
    (src : List Char) (f1 f2 : Nat)
    (h1 : (parse true p f1 src).isOut = false)
    (h2 : (parse false p f2 src).isOut = false) :
    parse true p f1 src = parse false p f2 src := by
  rcases hrun1 : consume true f1 (mkRoot p) State.empty ⟨src, 0⟩ with ⟨st1, a1⟩
  rcases hrun2 : consume false f2 (mkRoot p) State.empty ⟨src, 0⟩ with ⟨st2, a2⟩
  have hout1 : a1 ≠ .out := by
    intro hc
    subst hc
    unfold parse at h1
    rw [hrun1] at h1
    simp [ParseResult.isOut] at h1
  have hout2 : a2 ≠ .out := by
    intro hc
    subst hc
    unfold parse at h2
    rw [hrun2] at h2
    simp [ParseResult.isOut] at h2
  obtain ⟨n, J, hpr, hrg⟩ := consume_sim src (mkRoot p) hWF f1 (mkRoot p) []
    State.empty ⟨src, 0⟩ st1 a1 (subterms_self _)
    (fun k hk => absurd hk (List.not_mem_nil k)) rfl (inv_empty src _) hrun1 hout1
  have hmono := consume_false_mono f2 (max f2 n) (Nat.le_max_left f2 n) (mkRoot p)
    State.empty ⟨src, 0⟩ (by rw [hrun2]; exact hout2)
  have hpn := hpr (max f2 n) (Nat.le_max_right f2 n) State.empty
  have hEq : (st2, a2) = (applyJ State.empty J, a1) := by
    rw [← hrun2, ← hmono, hpn]
  injection hEq with hst ha
  unfold parse
  rw [hrun1, hrun2]
  subst ha
  cases a2 with
  | res o =>
    cases o with
    | some c => rfl
    | none =>
      obtain ⟨hfe, hcov, hinv, hsrcv⟩ := hrg
      rw [← hst] at hfe
      show ParseResult.failure st1.farthest (uniqueExpected [] st1.expected)
          = ParseResult.failure st2.farthest (uniqueExpected [] st2.expected)
      rw [hfe.1, hfe.2]
  | recursionError q2 ctx => rfl
  | wsCrash => rfl
  | out => exact absurd rfl hout1

theorem c4_witness :
    (allIds (mkRoot optA)).Nodup ∧
    (parse true optA 20 (['a'] : List Char)).isOut = false ∧
    (parse false optA 20 (['a'] : List Char)).isOut = false ∧
    parse true optA 20 (['a'] : List Char) = parse false optA 20 (['a'] : List Char) :=
  ⟨by decide, by rfl, by rfl,
    c4_memo_transparent optA (by decide) ['a'] 20 20 (by rfl) (by rfl)⟩

end Parsita
